import Mathlib

/-!
Verification of the reconciliation engine in update_aws_ip_ranges.py.

The Python source manipulates CIDR strings through the CPython ipaddress
module (IPv4Network / IPv6Network, collapse_addresses), computes deltas
between desired and current entries of WAF IPSets and VPC managed prefix
lists, chunks address lists with itertools.batched, and drives paginated,
batched backend calls with bounded polling.

This file shallowly embeds those components:
  - machine integers are Nat with explicit bounds (an IPv4 or IPv6 network
    is a pair of a base address and a mask length, with width 32 or 128
    passed explicitly);
  - string parsing mirrors CPython ipaddress parsing (dotted-quad octets
    with the leading-zero rejection, digits-only mask lengths,
    dotted-decimal netmasks and hostmasks for IPv4, hextets with one
    optional double-colon gap and an optional embedded trailing IPv4
    address for IPv6, the strict host-bits check for networks).  Scoped
    IPv6 addresses (with a zone suffix) are outside the modelled domain;
    the feed never contains them;
  - exceptions are Option / Except: a Python call that raises is a
    function that returns none / .error;
  - backend calls are modelled by explicit environments (response
    oracles) and each mutating call is recorded in an event trace.
-/

namespace UAIR

/-! ### Character and string helpers -/

/-- Split a character list at every occurrence of a separator
(mirrors Python str.split with a one-character separator). -/
def splitChAux (sep : Char) : List Char → List Char → List (List Char)
  | [], acc => [acc.reverse]
  | c :: cs, acc =>
    if c = sep then acc.reverse :: splitChAux sep cs []
    else splitChAux sep cs (c :: acc)

def splitCh (sep : Char) (l : List Char) : List (List Char) := splitChAux sep l []

def isDigitCh (c : Char) : Bool := '0' ≤ c && c ≤ '9'

def digitVal (c : Char) : Nat := c.toNat - '0'.toNat

/-- Value of a decimal digit string (callers have already checked that
every character is a decimal digit, as Python int() is only reached after
str.isdigit()). -/
def decVal (l : List Char) : Nat := l.foldl (fun a c => a * 10 + digitVal c) 0

def isHexCh (c : Char) : Bool :=
  isDigitCh c || ('a' ≤ c && c ≤ 'f') || ('A' ≤ c && c ≤ 'F')

def hexVal (c : Char) : Nat :=
  if isDigitCh c then digitVal c
  else if 'a' ≤ c && c ≤ 'f' then c.toNat - 'a'.toNat + 10
  else c.toNat - 'A'.toNat + 10

def hexListVal (l : List Char) : Nat := l.foldl (fun a c => a * 16 + hexVal c) 0

/-- Decimal rendering of a Nat, as a character list. -/
def decCh (n : Nat) : List Char := Nat.toDigits 10 n

/-- Lowercase hexadecimal rendering without leading zeros
(Python '%x' formatting). -/
def hexCh (n : Nat) : List Char := Nat.toDigits 16 n

/-! ### Networks

A network value as CPython ipaddress represents it: a base address and a
mask length.  The address-family width (32 or 128) is passed to every
operation.  IPv4Network / IPv6Network equality compares exactly these two
fields, and ordering is lexicographic on (network_address, netmask). -/

structure Net where
  addr : Nat
  len : Nat
deriving DecidableEq

/-- Number of addresses covered. -/
def netSize (w : Nat) (n : Net) : Nat := 2 ^ (w - n.len)

/-- Python broadcast_address as an integer. -/
def netLast (w : Nat) (n : Net) : Nat := n.addr + netSize w n - 1

/-- The address x lies inside the network n. -/
def netMem (w : Nat) (n : Net) (x : Nat) : Prop :=
  n.addr ≤ x ∧ x < n.addr + netSize w n

instance (w n x) : Decidable (netMem w n x) := by unfold netMem; infer_instance

/-- Well-formedness: mask length within the width, the base address
aligned to the block size and the block inside the address space.
Every network produced by CPython ipaddress parsing satisfies this. -/
def netValid (w : Nat) (n : Net) : Prop :=
  n.len ≤ w ∧ n.addr + netSize w n ≤ 2 ^ w ∧ n.addr % netSize w n = 0

instance (w n) : Decidable (netValid w n) := by unfold netValid; infer_instance

/-- Python net.supernet(): one mask bit shorter, base address masked down;
the /0 network is its own supernet. -/
def supernet (w : Nat) (n : Net) : Net :=
  if n.len = 0 then n
  else ⟨n.addr - n.addr % 2 ^ (w - (n.len - 1)), n.len - 1⟩

/-- Python comparison on networks of one family:
lexicographic on (network_address, netmask). -/
def netLe (a b : Net) : Prop :=
  a.addr < b.addr ∨ (a.addr = b.addr ∧ a.len ≤ b.len)

instance : DecidableRel netLe := fun a b => by unfold netLe; infer_instance
instance : IsTotal Net netLe := ⟨by intro a b; unfold netLe; omega⟩
instance : IsTrans Net netLe := ⟨by intro a b c; unfold netLe; omega⟩

/-! ### IPv4 string parsing (CPython ipaddress semantics) -/

/-- Python IPv4 _parse_octet: nonempty, decimal digits only, at most three
characters, no leading zero (except the single digit 0), value at most
255. -/
def parseOctet (l : List Char) : Option Nat :=
  match l with
  | [] => none
  | c :: cs =>
    if (l.all isDigitCh) && l.length ≤ 3 && !(c = '0' && cs ≠ []) && decVal l ≤ 255
    then some (decVal l) else none

/-- Python IPv4 _ip_int_from_string: exactly four octets joined by dots. -/
def parseV4Addr (l : List Char) : Option Nat :=
  match splitCh '.' l with
  | [a, b, c, d] => do
    let va ← parseOctet a
    let vb ← parseOctet b
    let vc ← parseOctet c
    let vd ← parseOctet d
    some (((va * 256 + vb) * 256 + vc) * 256 + vd)
  | _ => none

/-- Python _prefix_from_prefix_string: decimal digits only (leading zeros
are accepted here), value at most the width. -/
def parseMaskLen (w : Nat) (l : List Char) : Option Nat :=
  if l ≠ [] && l.all isDigitCh && decVal l ≤ w then some (decVal l) else none

/-- Trailing zero bits of v, capped at the width; Python
_count_righthand_zero_bits (which returns the width for 0). -/
def crzAux : Nat → Nat → Nat
  | 0, _ => 0
  | fuel + 1, n => if n % 2 = 0 then crzAux fuel (n / 2) + 1 else 0

def crz (w n : Nat) : Nat := if n = 0 then w else crzAux w n

/-- Python _prefix_from_ip_int: the integer must be a contiguous netmask
(high bits set); returns its mask length. -/
def maskLenOfInt (w v : Nat) : Option Nat :=
  let tz := crz w v
  let plen := w - tz
  if v / 2 ^ tz = 2 ^ plen - 1 then some plen else none

/-- Python IPv4 _make_netmask on a string: a digits-only mask length,
else a dotted-decimal netmask, else a dotted-decimal hostmask. -/
def parseV4Mask (l : List Char) : Option Nat :=
  match parseMaskLen 32 l with
  | some n => some n
  | none =>
    match parseV4Addr l with
    | none => none
    | some v =>
      match maskLenOfInt 32 v with
      | some n => some n
      | none => maskLenOfInt 32 (Nat.xor v (2 ^ 32 - 1))

/-- Python IPv4Network(s) with strict=True: split the optional /mask,
parse both parts, and reject host bits set below the mask. -/
def parseV4 (s : String) : Option Net :=
  let parts := splitCh '/' s.data
  match parts with
  | [a] => do
    let v ← parseV4Addr a
    some ⟨v, 32⟩
  | [a, m] => do
    let v ← parseV4Addr a
    let len ← parseV4Mask m
    if v % 2 ^ (32 - len) = 0 then some ⟨v, len⟩ else none
  | _ => none

/-! ### IPv4 rendering -/

/-- Dotted-quad rendering of a 32-bit integer (Python str on
IPv4Address). -/
def renderV4Addr (v : Nat) : List Char :=
  decCh (v / 2 ^ 24 % 256) ++ '.' :: decCh (v / 2 ^ 16 % 256) ++
    '.' :: decCh (v / 2 ^ 8 % 256) ++ '.' :: decCh (v % 256)

/-- Python IPv4Network.with_prefixlen. -/
def renderV4 (n : Net) : String :=
  ⟨renderV4Addr n.addr ++ '/' :: decCh n.len⟩

/-! ### IPv6 string parsing (CPython ipaddress semantics) -/

/-- Python IPv6 _parse_hextet: hex digits only, at most four characters,
nonempty (the empty string fails int conversion). -/
def parseHextet (l : List Char) : Option Nat :=
  if l ≠ [] && l.all isHexCh && l.length ≤ 4 then some (hexListVal l) else none

/-- Indices of empty parts strictly between the endpoints
(candidate positions of the double colon). -/
def interiorEmpties (parts : List (List Char)) : List Nat :=
  (parts.enum.filter (fun p => p.2 = ([] : List Char) ∧ 1 ≤ p.1 ∧ p.1 + 1 < parts.length)).map (·.1)

/-- Python IPv6 _ip_int_from_string. -/
def parseV6Addr (l : List Char) : Option Nat := do
  if l = [] then failure
  let parts0 := splitCh ':' l
  if parts0.length < 3 then failure
  -- an IPv4-style suffix becomes two hextets
  let parts ←
    match parts0.getLast? with
    | none => none
    | some last =>
      if last.contains '.' then do
        let v4 ← parseV4Addr last
        pure (parts0.dropLast ++ [hexCh (v4 / 2 ^ 16 % 2 ^ 16), hexCh (v4 % 2 ^ 16)])
      else pure parts0
  if parts.length > 9 then failure
  let hiLoSkip ←
    match interiorEmpties parts with
    | [] =>
      if parts.length ≠ 8 then none
      else if parts.headD [] = [] then none
      else if parts.getLastD [] = [] then none
      else some (parts.length, 0, 0)
    | [i] => do
      let hi ← if parts.headD [] = ([] : List Char) then
          (if i = 1 then some 0 else none) else some i
      let lo0 := parts.length - i - 1
      let lo ← if parts.getLastD [] = ([] : List Char) then
          (if lo0 = 1 then some 0 else none) else some lo0
      if 8 ≤ hi + lo then none else some (hi, lo, 8 - (hi + lo))
    | _ => none
  let (hi, lo, skipped) := hiLoSkip
  let hiVals ← (parts.take hi).mapM parseHextet
  let loVals ← (parts.drop (parts.length - lo)).mapM parseHextet
  let hiInt := hiVals.foldl (fun a v => a * 2 ^ 16 + v) 0
  let withSkip := hiInt * 2 ^ (16 * skipped)
  pure (loVals.foldl (fun a v => a * 2 ^ 16 + v) withSkip)

/-- Python IPv6Network(s) with strict=True; the mask is a digits-only
mask length for IPv6. -/
def parseV6 (s : String) : Option Net :=
  let parts := splitCh '/' s.data
  match parts with
  | [a] => do
    let v ← parseV6Addr a
    some ⟨v, 128⟩
  | [a, m] => do
    let v ← parseV6Addr a
    let len ← parseMaskLen 128 m
    if v % 2 ^ (128 - len) = 0 then some ⟨v, len⟩ else none
  | _ => none

/-! ### IPv6 rendering -/

/-- Four-digit zero-padded lowercase hex (one exploded hextet). -/
def hex4 (v : Nat) : List Char :=
  let h := hexCh v
  List.replicate (4 - h.length) '0' ++ h

/-- The eight 16-bit groups of a 128-bit integer, high first. -/
def hextetVals (v : Nat) : List Nat :=
  (List.range 8).map (fun i => v / 2 ^ (16 * (7 - i)) % 2 ^ 16)

/-- Python IPv6Network.exploded: every group fully padded, plus the mask
length. -/
def renderV6Full (n : Net) : String :=
  ⟨(List.intercalate [':'] ((hextetVals n.addr).map hex4)) ++ '/' :: decCh n.len⟩

/-- Longest run of single-zero groups: Python _compress_hextets chooses
the leftmost maximal run and compresses it only if longer than one. -/
def bestZeroRun (hx : List (List Char)) : Nat × Nat :=
  let step := fun (st : Nat × Nat × Option Nat × Nat) (p : Nat × List Char) =>
    let (bs, bl, cs, cl) := st
    if p.2 = ['0'] then
      let cs' := cs.getD p.1
      let cl' := cl + 1
      if cl' > bl then (cs', cl', some cs', cl') else (bs, bl, some cs', cl')
    else (bs, bl, none, 0)
  let r := hx.enum.foldl step (0, 0, none, 0)
  (r.1, r.2.1)

/-- Python _compress_hextets. -/
def compressHextets (hx : List (List Char)) : List (List Char) :=
  let (s, l) := bestZeroRun hx
  if l > 1 then
    let base := if s + l = hx.length then hx ++ [[]] else hx
    let mid := base.take s ++ [] :: base.drop (s + l)
    if s = 0 then [] :: mid else mid
  else hx

/-- Python str(IPv6Address): unpadded lowercase hex groups, longest zero
run compressed to a double colon. -/
def renderV6AddrComp (v : Nat) : List Char :=
  List.intercalate [':'] (compressHextets ((hextetVals v).map hexCh))

/-- Python IPv6Network.with_prefixlen (compressed form plus mask
length). -/
def renderV6Comp (n : Net) : String :=
  ⟨renderV6AddrComp n.addr ++ '/' :: decCh n.len⟩

/-! ### Family-tagged networks

Python ipaddress.ip_network tries IPv4Network first, then IPv6Network.
Values of different families never compare equal, and with_prefixlen
renders according to the family. -/

structure IpNet where
  isV4 : Bool
  net : Net
deriving DecidableEq

def parseIpNet (s : String) : Option IpNet :=
  match parseV4 s with
  | some n => some ⟨true, n⟩
  | none =>
    match parseV6 s with
    | some n => some ⟨false, n⟩
    | none => none

/-- Python with_prefixlen on either family. -/
def renderIpNet (n : IpNet) : String :=
  if n.isV4 then renderV4 n.net else renderV6Comp n.net

/-! ### collapse_addresses

CPython collapse_addresses splits the input into full-length networks
(treated as single addresses) and proper networks, rebuilds minimal
blocks over maximal consecutive runs of the sorted deduplicated
addresses (summarize_address_range), and merges everything with the
dictionary-based _collapse_addresses_internal loop, finally sorting and
dropping subsumed networks. -/

/-- Python summarize_address_range on an integer interval: repeatedly
emit the largest aligned block that starts at the low end and fits. -/
def sar (w f l : Nat) : List Net :=
  if h : f ≤ l then
    let nbits := min (crz w f) (Nat.log2 (l - f + 1))
    ⟨f, w - nbits⟩ :: sar w (f + 2 ^ nbits) l
  else []
termination_by l + 1 - f
decreasing_by
  have h1 : 1 ≤ 2 ^ min (crz w f) (Nat.log2 (l - f + 1)) := Nat.one_le_two_pow
  omega

/-- Python _find_address_range inner scan: extend the current run while
the next element is consecutive, else close it. -/
def runsGo (first current : Nat) : List Nat → List (Nat × Nat)
  | [] => [(first, current)]
  | b :: rest =>
    if b = current + 1 then runsGo first b rest
    else (first, current) :: runsGo b b rest

/-- Python _find_address_range: maximal consecutive runs. -/
def findRuns : List Nat → List (Nat × Nat)
  | [] => []
  | a :: rest => runsGo a a rest

/-- Insertion into a strictly ascending list, dropping duplicates. -/
def insNat (x : Nat) : List Nat → List Nat
  | [] => [x]
  | y :: ys =>
    if x < y then x :: y :: ys
    else if x = y then y :: ys
    else y :: insNat x ys

/-- Python sorted(set(l)). -/
def sortedSet (l : List Nat) : List Nat := l.foldr insNat []

def alookup (k : Net) : List (Net × Net) → Option Net
  | [] => none
  | e :: es => if e.1 = k then some e.2 else alookup k es

def aerase (k : Net) (d : List (Net × Net)) : List (Net × Net) :=
  d.filter (fun e => e.1 ≠ k)

theorem sum_aerase_le (k : Net) (d : List (Net × Net)) :
    ((aerase k d).map (fun e => 4 ^ e.2.len)).sum ≤
      (d.map (fun e => 4 ^ e.2.len)).sum :=
  List.Sublist.sum_le_sum ((List.filter_sublist d).map _) (by intro x _; positivity)

theorem sum_aerase_lookup (k v : Net) :
    ∀ d : List (Net × Net), alookup k d = some v →
    ((aerase k d).map (fun e => 4 ^ e.2.len)).sum + 4 ^ v.len ≤
      (d.map (fun e => 4 ^ e.2.len)).sum := by
  intro d
  induction d with
  | nil => intro h; simp [alookup] at h
  | cons e es ih =>
    intro h
    rw [alookup] at h
    by_cases he : e.1 = k
    · simp only [if_pos he, Option.some.injEq] at h
      have hsub := sum_aerase_le k es
      simp only [aerase, List.filter_cons, he] at hsub ⊢
      simp only [decide_not] at *
      simp [h] at *
      omega
    · simp only [if_neg he] at h
      have := ih h
      unfold aerase at this ⊢
      rw [List.filter_cons_of_pos (by simp [he])]
      simp only [List.map_cons, List.sum_cons]
      omega

theorem supernet_len_le (w : Nat) (n : Net) : (supernet w n).len ≤ n.len := by
  unfold supernet
  by_cases h : n.len = 0 <;> simp [h]

/-- Python _collapse_addresses_internal while loop.  The Python list is
popped from the end and pushed at the end; the stack is modelled with
its top at the head, so the initial stack is the reversed input.  The
dictionary is an association list; insertion order is irrelevant because
the values are sorted afterwards. -/
def collapseLoop (w : Nat) : List Net → List (Net × Net) → List (Net × Net)
  | [], d => d
  | net :: rest, d =>
    match h : alookup (supernet w net) d with
    | none => collapseLoop w rest ((supernet w net, net) :: d)
    | some existing =>
      if existing = net then collapseLoop w rest d
      else collapseLoop w (supernet w net :: rest) (aerase (supernet w net) d)
termination_by tm d =>
  (tm.map (fun n => 4 ^ (n.len + 1))).sum + (d.map (fun e => 4 ^ e.2.len)).sum
decreasing_by
  · have h1 : (4:Nat) ^ net.len < 4 ^ (net.len + 1) :=
      Nat.pow_lt_pow_right (by omega) (by omega)
    simp only [List.map_cons, List.sum_cons]
    omega
  · have h1 : (1:Nat) ≤ 4 ^ (net.len + 1) := Nat.one_le_pow _ _ (by omega)
    simp only [List.map_cons, List.sum_cons]
    omega
  · have h1 := sum_aerase_lookup _ _ d h
    have h2 : (supernet w net).len + 1 ≤ net.len + 1 :=
      Nat.succ_le_succ (supernet_len_le w net)
    have h3 : (4:Nat) ^ ((supernet w net).len + 1) ≤ 4 ^ (net.len + 1) :=
      Nat.pow_le_pow_right (by omega) h2
    have h4 : (1:Nat) ≤ 4 ^ existing.len := Nat.one_le_pow _ _ (by omega)
    simp only [List.map_cons, List.sum_cons]
    omega

/-- Python: iterate over sorted values, skipping networks whose
broadcast address does not exceed the previously yielded one. -/
def dedupSorted (w : Nat) : List Net → Option Net → List Net
  | [], _ => []
  | n :: rest, none => n :: dedupSorted w rest (some n)
  | n :: rest, some last =>
    if netLast w n ≤ netLast w last then dedupSorted w rest (some last)
    else n :: dedupSorted w rest (some n)

/-- The final phase of _collapse_addresses_internal: sort the dictionary
values and drop subsumed networks. -/
def collapseFinish (w : Nat) (d : List (Net × Net)) : List Net :=
  dedupSorted w (List.insertionSort netLe (d.map (·.2))) none

/-- Python collapse_addresses for a homogeneous list of networks of
width w. -/
def collapseNets (w : Nat) (input : List Net) : List Net :=
  let ips := sortedSet ((input.filter (fun n => n.len = w)).map (·.addr))
  let blocks := ((findRuns ips).map (fun r => sar w r.1 r.2)).flatten
  let nets := input.filter (fun n => n.len ≠ w)
  collapseFinish w (collapseLoop w (blocks ++ nets).reverse [])

/-! ### IPv4List and IPv6List -/

/-- IPv4List.summarized: single-entry lists are returned unchanged
without any parsing or merging; otherwise every entry is parsed as an
IPv4 network, the collection is collapsed, and the result rendered with
with_prefixlen. -/
def summarizedV4 (ipList : List String) : Option (List String) :=
  if ipList.length = 1 then some ipList
  else do
    let nets ← ipList.mapM parseV4
    some ((collapseNets 32 nets).map renderV4)

/-- IPv6List.summarized: no single-entry shortcut; rendered exploded. -/
def summarizedV6 (ipList : List String) : Option (List String) := do
  let nets ← ipList.mapM parseV6
  some ((collapseNets 128 nets).map renderV6Full)

def keyLe (a b : Net × String) : Prop := netLe a.1 b.1

instance : DecidableRel keyLe := fun a b => by unfold keyLe; infer_instance
instance : IsTotal (Net × String) keyLe := ⟨by intro a b; exact IsTotal.total (r := netLe) a.1 b.1⟩
instance : IsTrans (Net × String) keyLe :=
  ⟨by intro a b c h1 h2; exact Trans.trans (r := netLe) (s := netLe) h1 h2⟩

/-- IPv4List.sort: Python sorted(strings, key=IPv4Network) — a stable
sort on the parsed network; parsing a malformed entry raises.  Lists of
length at most one are left untouched. -/
def sortV4 (l : List String) : Option (List String) :=
  if l.length > 1 then do
    let keyed ← l.mapM (fun s => (parseV4 s).map (fun n => (n, s)))
    some ((List.insertionSort keyLe keyed).map (·.2))
  else some l

/-- IPv6List.sort: parses, sorts the networks, and re-renders each in
exploded form. -/
def sortV6 (l : List String) : Option (List String) :=
  if l.length > 1 then do
    let nets ← l.mapM parseV6
    some ((List.insertionSort netLe nets).map renderV6Full)
  else some l

/-! ### Association maps (Python dict with string keys)

Python dict assignment overwrites an existing key in place, otherwise
appends; lookup takes the unique binding. -/

def mput (m : List (String × β)) (k : String) (v : β) : List (String × β) :=
  match m with
  | [] => [(k, v)]
  | e :: es => if e.1 = k then (k, v) :: es else e :: mput es k v

def mget? (m : List (String × β)) (k : String) : Option β :=
  match m with
  | [] => none
  | e :: es => if e.1 = k then some e.2 else mget? es k

def toExc (o : Option α) (msg : String) : Except String α :=
  match o with
  | some a => .ok a
  | none => .error msg

/-! ### Service Range Extractor (get_ranges_for_service) -/

structure SvcRange where
  ipv4 : List String
  ipv6 : List String
deriving DecidableEq

/-- One record of the feed's prefixes array (the code reads service,
region and ip_prefix). -/
structure V4Rec where
  service : String
  region : String
  cidr : String
deriving DecidableEq

/-- One record of the feed's ipv6_prefixes array. -/
structure V6Rec where
  service : String
  region : String
  cidr : String
deriving DecidableEq

structure Feed where
  prefixes : List V4Rec
  ipv6Prefixes : List V6Rec
deriving DecidableEq

structure CfgPL where
  enable : Bool
  summarize : Bool
  chunkSize : Option Nat
deriving DecidableEq

structure CfgWaf where
  enable : Bool
  summarize : Bool
  scopes : List String
deriving DecidableEq

/-- A service descriptor of services.json.  Regions is an Option because
the code reads the key unconditionally: a descriptor without it makes
the dictionary access raise KeyError. -/
structure CfgService where
  name : String
  regions : Option (List String)
  prefixListCfg : Option CfgPL
  wafIpSetCfg : Option CfgWaf
deriving DecidableEq

structure Config where
  services : List CfgService
deriving DecidableEq

abbrev RangeMap := List (String × SvcRange)

/-- The first loop of get_ranges_for_service: build the service_control
key set (specific service-region keys, or the bare service name when the
Regions list is empty) and seed service_ranges with empty entries. -/
def buildControl (cfg : Config) : Except String (List String × RangeMap) :=
  cfg.services.foldlM
    (fun (acc : List String × RangeMap) svc =>
      match svc.regions with
      | none => .error "KeyError Regions"
      | some rs =>
        if rs.length > 0 then
          .ok (rs.foldl
            (fun (acc2 : List String × RangeMap) r =>
              (acc2.1 ++ [svc.name ++ "-" ++ r], mput acc2.2 svc.name ⟨[], []⟩))
            acc)
        else
          .ok (acc.1 ++ [svc.name], mput acc.2 svc.name ⟨[], []⟩))
    ([], [])

/-- Append a prefix to a service's IPv4 list; Python raises KeyError if
the service is not a key of service_ranges. -/
def maddV4 (m : RangeMap) (k : String) (p : String) : Except String RangeMap :=
  match m with
  | [] => .error "KeyError"
  | e :: es =>
    if e.1 = k then .ok ((e.1, ⟨e.2.ipv4 ++ [p], e.2.ipv6⟩) :: es)
    else (maddV4 es k p).map (e :: ·)

def maddV6 (m : RangeMap) (k : String) (p : String) : Except String RangeMap :=
  match m with
  | [] => .error "KeyError"
  | e :: es =>
    if e.1 = k then .ok ((e.1, ⟨e.2.ipv4, e.2.ipv6 ++ [p]⟩) :: es)
    else (maddV6 es k p).map (e :: ·)

/-- Processing of one IPv4 feed record: first the specific
service-region key, then the bare service key, else discard. -/
def procV4 (control : List String) (m : RangeMap) (rec : V4Rec) : Except String RangeMap :=
  if (rec.service ++ "-" ++ rec.region) ∈ control then maddV4 m rec.service rec.cidr
  else if rec.service ∈ control then maddV4 m rec.service rec.cidr
  else .ok m

def procV6 (control : List String) (m : RangeMap) (rec : V6Rec) : Except String RangeMap :=
  if (rec.service ++ "-" ++ rec.region) ∈ control then maddV6 m rec.service rec.cidr
  else if rec.service ∈ control then maddV6 m rec.service rec.cidr
  else .ok m

/-- The final loop: sort both lists of every service (parsing inside the
sort can raise on a malformed feed prefix). -/
def sortRanges (m : RangeMap) : Except String RangeMap :=
  m.mapM (fun e => do
    let v4 ← toExc (sortV4 e.2.ipv4) "ValueError"
    let v6 ← toExc (sortV6 e.2.ipv6) "ValueError"
    .ok (e.1, SvcRange.mk v4 v6))

/-- get_ranges_for_service. -/
def getRangesForService (ranges : Feed) (cfg : Config) : Except String RangeMap := do
  let cm ← buildControl cfg
  let m1 ← ranges.prefixes.foldlM (procV4 cm.1) cm.2
  let m2 ← ranges.ipv6Prefixes.foldlM (procV6 cm.1) m1
  sortRanges m2

/-- service_name.lower().replace(underscore, dash), as used in resource
names. -/
def lowerDash (s : String) : String :=
  ⟨s.data.map (fun c => if c = '_' then '-' else c.toLower)⟩

/-! ### WAF IPSet functions

Backend mutations are recorded as events.  The current entries of an
existing IPSet (the parsed result of get_ip_set_entries) are an input:
the WAF backend is only read through them. -/

structure IpSetInfo where
  setId : String
  lockToken : String
  description : String
  arn : String
deriving DecidableEq

inductive WafEv where
  | createIpSet (name scope ver : String) (addresses : List String)
  | updateIpSet (name scope setId : String) (addresses : List String) (lockToken : String)
  | tagIpSet (arn : String)
deriving DecidableEq

/-- create_waf_ipset: one create call carrying the full address list
(plus Name / ManagedBy / CreatedAt / UpdatedAt tags, not modelled
further). -/
def createWafIpset (ipsetName ipsetScope ipsetVersion : String)
    (addressList : List String) : List WafEv :=
  [.createIpSet ipsetName ipsetScope ipsetVersion addressList]

/-- update_waf_ipset: parse the desired list, compute the two difference
lists against the current entries by parsed network value, and either do
nothing or send one update carrying the full desired list followed by a
tag update.  Returns the events and the updated flag. -/
def updateWafIpset (current : List IpNet) (info : IpSetInfo)
    (ipsetName ipsetScope : String) (addressList : List String) :
    Except String (List WafEv × Bool) := do
  let networkList ← addressList.mapM (fun s => toExc (parseIpNet s) "ValueError")
  let entriesToRemove : List String :=
    (current.filter (fun c => c ∉ networkList)).map renderIpNet
  let entriesToAdd : List String :=
    (networkList.filter (fun c => c ∉ current)).map renderIpNet
  if entriesToAdd = [] ∧ entriesToRemove = [] then
    .ok ([], false)
  else
    .ok ([.updateIpSet ipsetName ipsetScope info.setId addressList info.lockToken,
          .tagIpSet info.arn], true)

/-- One iteration of manage_waf_ipset's loop over ['ipv4', 'ipv6'].
entriesOf gives the parsed current entries of an existing IPSet. -/
def manageWafFamily (isV4 : Bool) (wafIpsets : List (String × IpSetInfo))
    (serviceName ipsetScope : String) (sr : SvcRange) (shouldSummarize : Bool)
    (entriesOf : String → List IpNet) :
    Except String (List WafEv × List String × List String) := do
  let ipList := if isV4 then sr.ipv4 else sr.ipv6
  if ipList = [] then .ok ([], [], [])
  else do
    let addressList ←
      if shouldSummarize ∧ ipList.length > 1 then
        toExc (if isV4 then summarizedV4 ipList else summarizedV6 ipList) "ValueError"
      else .ok ipList
    let ipsetName :=
      "aws-ip-ranges-" ++ lowerDash serviceName ++ (if isV4 then "-ipv4" else "-ipv6")
    match mget? wafIpsets ipsetName with
    | some info => do
      let r ← updateWafIpset (entriesOf ipsetName) info ipsetName ipsetScope addressList
      .ok (r.1, [], if r.2 then [ipsetName] else [])
    | none =>
      .ok (createWafIpset ipsetName ipsetScope (if isV4 then "IPV4" else "IPV6") addressList,
        [ipsetName], [])

/-- manage_waf_ipset: both address families in order. -/
def manageWafIpset (wafIpsets : List (String × IpSetInfo))
    (serviceName ipsetScope : String) (serviceRanges : RangeMap)
    (shouldSummarize : Bool) (entriesOf : String → List IpNet) :
    Except String (List WafEv × List String × List String) := do
  let sr ← toExc (mget? serviceRanges serviceName) "KeyError"
  let r4 ← manageWafFamily true wafIpsets serviceName ipsetScope sr shouldSummarize entriesOf
  let r6 ← manageWafFamily false wafIpsets serviceName ipsetScope sr shouldSummarize entriesOf
  .ok (r4.1 ++ r6.1, r4.2.1 ++ r6.2.1, r4.2.2 ++ r6.2.2)

/-! ### Pagination (list_waf_ipset, list_prefix_lists,
get_prefix_list_entries, get_ip_set_entries)

A paginated backend listing is a list of pages; the response to the k-th
call carries page k and a continuation token exactly when a page k+1
exists.  The loops below follow the token until absent. -/

def pageAt (pages : List (List α)) (k : Nat) : List α := pages.getD k []

/-- The shared shape of the two name-keyed listing loops: insert every
item of the current page into the dictionary, then follow the
continuation token, which exists exactly when further pages remain. -/
def listPagedLoop (acc : List (String × β)) :
    List (List (String × β)) → List (String × β)
  | [] => acc
  | pg :: rest => listPagedLoop (pg.foldl (fun m it => mput m it.1 it.2) acc) rest

/-- list_waf_ipset: all pages of ListIPSets for one scope, keyed by
name (the first response is page 0, possibly empty). -/
def listWafIpset (pages : List (List (String × IpSetInfo))) : List (String × IpSetInfo) :=
  listPagedLoop [] pages

/-- Python dict assignment with a network key. -/
def nput (m : List (IpNet × String)) (k : IpNet) (v : String) : List (IpNet × String) :=
  match m with
  | [] => [(k, v)]
  | e :: es => if e.1 = k then (k, v) :: es else e :: nput es k v

/-- get_ip_set_entries: GetIPSet returns the complete address list in
one unpaginated response; each address is parsed and keyed by its
network value. -/
def getIpSetEntries (addresses : List String) : Except String (List (IpNet × String)) :=
  addresses.foldlM
    (fun acc s =>
      match parseIpNet s with
      | none => .error "ValueError"
      | some n => .ok (nput acc n s))
    []

/-! ### VPC Prefix List functions -/

structure PLInfo where
  plId : String
  maxEntries : Nat
  version : Nat
deriving DecidableEq

/-- The PrefixList dictionary of a create / modify /
describe_managed_prefix_lists response. -/
structure PLResp where
  state : String
  version : Nat
  plId : String
  plName : String
  stateMessage : String
deriving DecidableEq

/-- Backend calls of create_prefix_list / update_prefix_list.  Entry
payloads are the Cidr strings (the Description fields are the constant
DESCRIPTION).  A modify carries either a MaxEntries resize or
AddEntries / RemoveEntries, never both in the source. -/
inductive PLEv where
  | createPL (name ver : String) (entries : List String) (maxEntries : Nat)
  | modifyPL (plId name : String) (currentVersion : Option Nat)
      (maxEntries : Option Nat) (addEntries removeEntries : List String)
  | getPL (plId : String)
  | sleep (seconds : Nat)
  | tagPL (plId : String)
deriving DecidableEq

/-- State-and-trace monad of the prefix-list functions: a call counter
into the response environment and the emitted event trace. -/
def PLM (α : Type) : Type := Nat → Nat × List PLEv × Except String α

instance : Monad PLM where
  pure a := fun k => (k, [], .ok a)
  bind x f := fun k =>
    match x k with
    | (k1, t1, .error e) => (k1, t1, .error e)
    | (k1, t1, .ok a) =>
      match f a k1 with
      | (k2, t2, r) => (k2, t1 ++ t2, r)

def emitEv (e : PLEv) : PLM Unit := fun k => (k, [e], .ok ())

/-- A backend call: emit the event, consume one response. -/
def callB (env : Nat → PLResp) (e : PLEv) : PLM PLResp := fun k => (k + 1, [e], .ok (env k))

def throwPL (msg : String) : PLM α := fun k => (k, [], .error msg)

def purePL (a : α) : PLM α := fun k => (k, [], .ok a)

/-- The bounded wait loop: up to five polls, sleeping count + (count+1)
seconds before each describe; stops at a terminal state, and raises when
the budget is exhausted (the for-else).  Returns the last polled
PrefixList dictionary. -/
def pollWait (env : Nat → PLResp) (plId : String) (terminal : List String)
    (msg : String) : Nat → PLM PLResp
  | 0 => throwPL msg
  | fuel + 1 => do
    let count := 5 - (fuel + 1)
    emitEv (.sleep (count + (count + 1)))
    let r ← callB env (.getPL plId)
    if r.state ∈ terminal then purePL r
    else pollWait env plId terminal msg fuel

/-- Python range(100, stop, 100) as a list. -/
def range100 (stop : Nat) : List Nat :=
  ((List.range ((stop + 99) / 100)).map (fun i => i * 100)).drop 1

/-- One iteration of create_prefix_list's continuation loop: wait if the
resource is mid-creation or mid-modification, then add the next hundred
entries. -/
def createBatchStep (env : Nat → PLResp) (entries : List String)
    (resp : PLResp) (idx : Nat) : PLM PLResp := do
  let resp2 ←
    if resp.state = "create-in-progress" ∨ resp.state = "modify-in-progress" then
      pollWait env resp.plId ["create-complete", "modify-complete"]
        "cant wait anymore create" 5
    else purePL resp
  callB env (.modifyPL resp2.plId resp2.plName (some resp2.version) none
    ((entries.drop idx).take 100) [])

/-- create_prefix_list: create with the first hundred entries and
MaxEntries = len + 10 capped at 1000, then append the remaining entries
in batches of one hundred, waiting when the resource reports an
in-progress state. -/
def createPrefixList (env : Nat → PLResp) (plName plVer : String)
    (addressList : List String) : PLM Unit := do
  let maxEntries := min (addressList.length + 10) 1000
  let resp0 ← callB env (.createPL plName plVer (addressList.take 100) maxEntries)
  let _ ← (range100 addressList.length).foldlM (createBatchStep env addressList) resp0
  purePL ()

/-- The MaxEntries resize block of update_prefix_list: one modify call
carrying only MaxEntries, a state sanity check, and a bounded wait for
modify-complete when the resize is still in progress.  Returns the
version from the resize response. -/
def resizePhase (env : Nat → PLResp) (plName : String) (pl : PLInfo)
    (newMax : Nat) : PLM Nat := do
  let resp ← callB env (.modifyPL pl.plId plName none (some newMax) [] [])
  if resp.state ∉ ["modify-in-progress", "modify-complete", "modify-failed"] then
    throwPL "invalid state updating max entries"
  else if resp.state = "modify-failed" then
    throwPL "modify-failed updating max entries"
  else do
    if resp.state = "modify-in-progress" then do
      let _ ← pollWait env pl.plId ["modify-complete"] "cant wait anymore resize" 5
      purePL ()
    else purePL ()
    purePL resp.version

/-- One iteration of update_prefix_list's batch loop: wait if the
resource is mid-modification, then send the next hundred additions and
removals. -/
def updBatchStep (env : Nat → PLResp) (entriesToAdd entriesToRemove : List String)
    (resp : PLResp) (idx : Nat) : PLM PLResp := do
  let resp2 ←
    if resp.state = "modify-in-progress" then
      pollWait env resp.plId ["modify-complete"] "cant wait anymore update" 5
    else purePL resp
  callB env (.modifyPL resp2.plId resp2.plName (some resp2.version) none
    ((entriesToAdd.drop idx).take 100) ((entriesToRemove.drop idx).take 100))

def updBatchLoop (env : Nat → PLResp) (entriesToAdd entriesToRemove : List String)
    (idxs : List Nat) (resp : PLResp) : PLM PLResp :=
  idxs.foldlM (updBatchStep env entriesToAdd entriesToRemove) resp

/-- update_prefix_list: compute the difference lists by parsed network
value against the current entries; nothing to do means no call at all;
otherwise resize MaxEntries first when there are additions and the
ceiling is below the desired length, then send the difference lists in
batches of one hundred, and finally tag.  Returns the updated flag. -/
def updatePrefixList (env : Nat → PLResp) (current : List IpNet)
    (plName : String) (pl : PLInfo) (addressList : List String) : PLM Bool := do
  let networkList ←
    match addressList.mapM parseIpNet with
    | none => throwPL "ValueError"
    | some nets => purePL nets
  let entriesToRemove : List String :=
    (current.filter (fun c => c ∉ networkList)).map renderIpNet
  let entriesToAdd : List String :=
    (networkList.filter (fun c => c ∉ current)).map renderIpNet
  if entriesToAdd = [] ∧ entriesToRemove = [] then purePL false
  else do
    let ver1 ←
      if entriesToAdd ≠ [] ∧ pl.maxEntries < addressList.length then
        resizePhase env plName pl addressList.length
      else purePL pl.version
    let resp1 ← callB env (.modifyPL pl.plId plName (some ver1) none
      (entriesToAdd.take 100) (entriesToRemove.take 100))
    let _ ← updBatchLoop env entriesToAdd entriesToRemove
      (range100 (max entriesToAdd.length entriesToRemove.length)) resp1
    emitEv (.tagPL pl.plId)
    purePL true

/-- The MaxEntries / AddEntries / RemoveEntries arguments of a modify
call, for trace inspection. -/
def evModify? : PLEv → Option (Option Nat × List String × List String)
  | .modifyPL _ _ _ me a r => some (me, a, r)
  | _ => none

/-- Concatenation of all AddEntries payloads of a trace. -/
def traceAdds (tr : List PLEv) : List String :=
  (tr.filterMap (fun e => (evModify? e).map (fun t => t.2.1))).flatten

/-- Concatenation of all RemoveEntries payloads of a trace. -/
def traceRemoves (tr : List PLEv) : List String :=
  (tr.filterMap (fun e => (evModify? e).map (fun t => t.2.2))).flatten

/-- The sleep durations of a trace, in order. -/
def traceSleeps (tr : List PLEv) : List Nat :=
  tr.filterMap (fun e => match e with | .sleep s => some s | _ => none)

/-- No modify call at all in the trace. -/
def noModify (tr : List PLEv) : Prop := ∀ e ∈ tr, evModify? e = none

/-- Every modify call of the trace either carries no MaxEntries or
carries no entry changes: a resize and a content change never travel in
one call. -/
def noCombine (tr : List PLEv) : Prop :=
  ∀ e ∈ tr, ∀ me a rm, evModify? e = some (me, a, rm) → me = none ∨ (a = [] ∧ rm = [])

/-- itertools.batched worker; the fuel argument only bounds the
recursion depth and any fuel at least the list length gives the chunk
sequence. -/
def batchedAux (n : Nat) : Nat → List α → List (List α)
  | _, [] => []
  | 0, _ :: _ => []
  | fuel + 1, x :: xs => ((x :: xs).take n) :: batchedAux n fuel ((x :: xs).drop n)

/-- itertools.batched: consecutive chunks of size n, the last possibly
shorter; Python rejects n = 0 at the call site (modelled there). -/
def batched (l : List α) (n : Nat) : List (List α) :=
  if n = 0 then [] else batchedAux n l.length l

/-- Chunk index to resource name: the base name for chunk 0, the
continued name for later chunks. -/
def plChunkName (baseName : String) (index : Nat) : String :=
  if index = 0 then baseName else baseName ++ "-continued-" ++ ⟨decCh index⟩

/-- The enumerate(itertools.batched(address_list, chunk_size)) loop
header of manage_prefix_list: each chunk with its resource name. -/
def chunkAssignments (baseName : String) (addressList : List String)
    (chunkSize : Nat) : List (String × List String) :=
  (batched addressList chunkSize).enum.map (fun p => (plChunkName baseName p.1, p.2))

/-- One iteration of manage_prefix_list's loop over ['ipv4', 'ipv6']. -/
def managePLFamily (env : Nat → PLResp) (entriesOf : String → List IpNet)
    (vpcPrefixLists : List (String × PLInfo)) (serviceName : String)
    (sr : SvcRange) (shouldSummarize : Bool) (chunkSize : Nat) (isV4 : Bool) :
    PLM (List String × List String) := do
  let ipList := if isV4 then sr.ipv4 else sr.ipv6
  if ipList = [] then purePL ([], [])
  else do
    let addressList ←
      if shouldSummarize ∧ ipList.length > 1 then
        match (if isV4 then summarizedV4 ipList else summarizedV6 ipList) with
        | none => throwPL "ValueError"
        | some l => purePL l
      else purePL ipList
    if chunkSize = 0 then throwPL "ValueError batched" else do
    let baseName :=
      "aws-ip-ranges-" ++ lowerDash serviceName ++ (if isV4 then "-ipv4" else "-ipv6")
    (chunkAssignments baseName addressList chunkSize).foldlM
      (fun (acc : List String × List String) nc => do
        match mget? vpcPrefixLists nc.1 with
        | some pl => do
          let upd ← updatePrefixList env (entriesOf nc.1) nc.1 pl nc.2
          purePL (acc.1, if upd then acc.2 ++ [nc.1] else acc.2)
        | none => do
          createPrefixList env nc.1 (if isV4 then "IPV4" else "IPV6") nc.2
          purePL (acc.1 ++ [nc.1], acc.2))
      ([], [])

/-- manage_prefix_list: both address families in order; returns created
and updated names. -/
def managePrefixList (env : Nat → PLResp) (entriesOf : String → List IpNet)
    (vpcPrefixLists : List (String × PLInfo)) (serviceName : String)
    (serviceRanges : RangeMap) (shouldSummarize : Bool) (chunkSize : Nat) :
    PLM (List String × List String) := do
  let sr ←
    match mget? serviceRanges serviceName with
    | none => throwPL "KeyError"
    | some sr => purePL sr
  let r4 ← managePLFamily env entriesOf vpcPrefixLists serviceName sr shouldSummarize chunkSize true
  let r6 ← managePLFamily env entriesOf vpcPrefixLists serviceName sr shouldSummarize chunkSize false
  purePL (r4.1 ++ r6.1, r4.2 ++ r6.2)

/-- list_prefix_lists: all pages of DescribeManagedPrefixLists, keyed by
name. -/
def listPrefixLists (pages : List (List (String × PLInfo))) : List (String × PLInfo) :=
  listPagedLoop [] pages

/-- get_prefix_list_entries: all pages of GetManagedPrefixListEntries;
each entry's Cidr is parsed and keyed by network value, the value being
its Description (or empty). -/
def plEntriesPage (page : List (String × Option String))
    (acc : List (IpNet × String)) : Except String (List (IpNet × String)) :=
  page.foldlM
    (fun acc2 e =>
      match parseIpNet e.1 with
      | none => .error "ValueError"
      | some n => .ok (nput acc2 n (e.2.getD "")))
    acc

def getPLEntriesLoop (acc : List (IpNet × String)) :
    List (List (String × Option String)) → Except String (List (IpNet × String))
  | [] => .ok acc
  | pg :: rest => do
    let acc2 ← plEntriesPage pg acc
    getPLEntriesLoop acc2 rest

def getPrefixListEntries (pages : List (List (String × Option String))) :
    Except String (List (IpNet × String)) :=
  getPLEntriesLoop [] pages

/-! ### lambda_handler

The outer try wraps reading services.json, parsing the SNS message,
fetching and parsing the feed, extracting the service ranges and both
per-service loops; its except re-raises, so a failure there aborts the
run.  Inside each loop, the body that touches the backend (listing the
existing resources on first use, reading the Summarize / ChunkSize /
scope configuration, manage_prefix_list / manage_waf_ipset) sits in a
try whose except only logs.  Those bodies are abstracted as functions
returning either the (created, updated) names or the raised error;
the surrounding control flow is modelled as in the source. -/

structure ResourceNames where
  plCreated : List String
  plUpdated : List String
  wafCreated : List String
  wafUpdated : List String
deriving DecidableEq

/-- One iteration of the prefix-list service loop: skip when the service
is missing from the ranges, unconfigured or disabled; otherwise run the
try-block body and on error keep the accumulator (the except path). -/
def plStep (serviceRanges : RangeMap)
    (plBody : Nat → CfgService → Except String (List String × List String))
    (acc : List String × List String) (p : Nat × CfgService) :
    List String × List String :=
  if (mget? serviceRanges p.2.name).isNone then acc
  else
    match p.2.prefixListCfg with
    | none => acc
    | some plc =>
      if plc.enable = false then acc
      else
        match plBody p.1 p.2 with
        | .ok cu => (acc.1 ++ cu.1, acc.2 ++ cu.2)
        | .error _ => acc

/-- One iteration of the WAF service loop; the try sits inside the scope
loop, so each scope fails or contributes independently. -/
def wafStep (serviceRanges : RangeMap)
    (wafBody : Nat → CfgService → String → Except String (List String × List String))
    (acc : List String × List String) (p : Nat × CfgService) :
    List String × List String :=
  if (mget? serviceRanges p.2.name).isNone then acc
  else
    match p.2.wafIpSetCfg with
    | none => acc
    | some wc =>
      if wc.enable = false then acc
      else
        wc.scopes.foldl
          (fun acc2 scope =>
            match wafBody p.1 p.2 scope with
            | .ok cu => (acc2.1 ++ cu.1, acc2.2 ++ cu.2)
            | .error _ => acc2)
          acc

/-- lambda_handler: outer setup (config, message, feed, ranges) in the
fatal region, then the two resource loops with per-body isolation. -/
def lambdaHandler (cfgIn : Except String Config)
    (msgIn : Except String (String × String))
    (feedOf : String × String → Except String Feed)
    (plBody : Nat → CfgService → Except String (List String × List String))
    (wafBody : Nat → CfgService → String → Except String (List String × List String)) :
    Except String ResourceNames := do
  let cfg ← cfgIn
  let m ← msgIn
  let feed ← feedOf m
  let serviceRanges ← getRangesForService feed cfg
  let pl := cfg.services.enum.foldl (plStep serviceRanges plBody) ([], [])
  let waf := cfg.services.enum.foldl (wafStep serviceRanges wafBody) ([], [])
  .ok ⟨pl.1, pl.2, waf.1, waf.2⟩

/-! ### Semantic predicates used by the summarizer specification -/

/-- Some network of the list covers the address x. -/
def inUnion (w : Nat) (l : List Net) (x : Nat) : Prop := ∃ n ∈ l, netMem w n x

/-- Two networks share no address. -/
def disjointNets (w : Nat) (a b : Net) : Prop :=
  ∀ x, ¬(netMem w a x ∧ netMem w b x)

/-- Some well-formed network covers exactly the union of the two:
the pair could be merged into one block. -/
def mergeableNets (w : Nat) (a b : Net) : Prop :=
  ∃ p : Net, netValid w p ∧ ∀ x, netMem w p x ↔ (netMem w a x ∨ netMem w b x)

/-- The shape every collapse output has: strictly ascending base
addresses, pairwise disjoint, no two blocks mergeable into one. -/
def collapsedShape (w : Nat) (out : List Net) : Prop :=
  out.Pairwise (fun a b => a.addr < b.addr ∧ disjointNets w a b ∧ ¬mergeableNets w a b)

/-- The event trace of a poll loop that runs f times starting at
count c: each round sleeps count + (count + 1) seconds and issues one
describe call. -/
def pollTrace (plId : String) : Nat → Nat → List PLEv
  | _, 0 => []
  | c, f + 1 => .sleep (c + (c + 1)) :: .getPL plId :: pollTrace plId (c + 1) f

/-!
## Theorems

Helper lemmas first, then one theorem (plus witness or counterexample)
per claim.
-/

/-! ### Chunking (itertools.batched and manage_prefix_list) -/

theorem batchedAux_length (n : Nat) (hn : n ≠ 0) :
    ∀ (fuel : Nat) (l : List α), l.length ≤ fuel →
      (batchedAux n fuel l).length = (l.length + n - 1) / n := by
  intro fuel
  induction fuel with
  | zero =>
    intro l hl
    cases l with
    | nil =>
      simp only [batchedAux, List.length_nil]
      rw [Nat.div_eq_of_lt (by omega)]
    | cons x xs => simp at hl
  | succ fuel ih =>
    intro l hl
    cases l with
    | nil =>
      simp only [batchedAux, List.length_nil]
      rw [Nat.div_eq_of_lt (by omega)]
    | cons x xs =>
      rw [batchedAux]
      simp only [List.length_cons, List.length_drop] at *
      rw [ih _ (by simp only [List.length_drop, List.length_cons]; omega)]
      simp only [List.length_drop, List.length_cons]
      have e2 : xs.length + 1 + n - 1 = xs.length + n := by omega
      rw [e2, Nat.add_div_right _ (by omega)]
      rcases le_or_lt (xs.length + 1) n with h | h
      · have e3 : xs.length + 1 - n = 0 := by omega
        rw [e3]
        rw [Nat.div_eq_of_lt (by omega), Nat.div_eq_of_lt (by omega)]
      · have e3 : xs.length + 1 - n + n - 1 = xs.length := by omega
        rw [e3]

theorem batched_length (l : List α) (n : Nat) (hn : n ≠ 0) :
    (batched l n).length = (l.length + n - 1) / n := by
  unfold batched
  rw [if_neg hn]
  exact batchedAux_length n hn l.length l le_rfl

theorem batchedAux_flatten (n : Nat) (hn : n ≠ 0) :
    ∀ (fuel : Nat) (l : List α), l.length ≤ fuel →
      (batchedAux n fuel l).flatten = l := by
  intro fuel
  induction fuel with
  | zero =>
    intro l hl
    cases l with
    | nil => simp [batchedAux]
    | cons x xs => simp at hl
  | succ fuel ih =>
    intro l hl
    cases l with
    | nil => simp [batchedAux]
    | cons x xs =>
      rw [batchedAux]
      simp only [List.flatten_cons]
      rw [ih _ (by simp only [List.length_drop, List.length_cons] at *; omega)]
      exact List.take_append_drop _ _

theorem batched_flatten (l : List α) (n : Nat) (hn : n ≠ 0) :
    (batched l n).flatten = l := by
  unfold batched
  rw [if_neg hn]
  exact batchedAux_flatten n hn l.length l le_rfl

theorem batchedAux_chunk_le (n : Nat) :
    ∀ (fuel : Nat) (l : List α), ∀ c ∈ batchedAux n fuel l, c.length ≤ n := by
  intro fuel
  induction fuel with
  | zero =>
    intro l c hc
    cases l with
    | nil => simp [batchedAux] at hc
    | cons x xs => simp [batchedAux] at hc
  | succ fuel ih =>
    intro l c hc
    cases l with
    | nil => simp [batchedAux] at hc
    | cons x xs =>
      rw [batchedAux] at hc
      rw [List.mem_cons] at hc
      rcases hc with hc | hc
      · subst hc; simp only [List.length_take]; omega
      · exact ih _ c hc

theorem batched_chunk_le (l : List α) (n : Nat) :
    ∀ c ∈ batched l n, c.length ≤ n := by
  unfold batched
  by_cases hn : n = 0
  · simp [hn]
  · rw [if_neg hn]
    exact batchedAux_chunk_le n l.length l

theorem batchedAux_chunk_full (n : Nat) (hn : n ≠ 0) :
    ∀ (fuel : Nat) (l : List α), l.length ≤ fuel →
    ∀ i ch, (batchedAux n fuel l)[i]? = some ch →
      i + 1 < (batchedAux n fuel l).length → ch.length = n := by
  intro fuel
  induction fuel with
  | zero =>
    intro l hl i ch hget hlen
    cases l with
    | nil => simp [batchedAux] at hget
    | cons x xs => simp at hl
  | succ fuel ih =>
    intro l hl i ch hget hlen
    cases l with
    | nil => simp [batchedAux] at hget
    | cons x xs =>
      rw [batchedAux] at hget hlen
      cases i with
      | zero =>
        simp only [List.getElem?_cons_zero, Option.some.injEq] at hget
        simp only [List.length_cons] at hlen
        have hne : batchedAux n fuel ((x :: xs).drop n) ≠ [] := by
          intro he
          rw [he] at hlen
          simp at hlen
        have hdrop : (x :: xs).drop n ≠ [] := by
          intro he
          rw [he] at hne
          cases fuel with
          | zero => exact hne rfl
          | succ fuel => exact hne rfl
        have hnlt : n < (x :: xs).length := by
          by_contra hcon
          exact hdrop (List.drop_eq_nil_of_le (by omega))
        subst hget
        simp only [List.length_take, List.length_cons] at *
        omega
      | succ i =>
        simp only [List.getElem?_cons_succ] at hget
        simp only [List.length_cons] at hlen
        exact ih ((x :: xs).drop n)
          (by simp only [List.length_drop, List.length_cons] at *; omega) i ch hget (by omega)

theorem batched_chunk_full (l : List α) (n : Nat) :
    ∀ i ch, (batched l n)[i]? = some ch →
      i + 1 < (batched l n).length → ch.length = n := by
  by_cases hn : n = 0
  · intro i ch hget hlen
    rw [batched, if_pos hn] at hget
    simp at hget
  · have he : batched l n = batchedAux n l.length l := by rw [batched, if_neg hn]
    rw [he]
    exact batchedAux_chunk_full n hn l.length l le_rfl

theorem chunkAssignments_names (baseName : String) (l : List String) (c : Nat) :
    ∀ i, (chunkAssignments baseName l c)[i]? =
      ((batched l c)[i]?).map (fun ch => (plChunkName baseName i, ch)) := by
  intro i
  unfold chunkAssignments
  rw [List.getElem?_map, List.getElem?_enum]
  cases (batched l c)[i]? <;> rfl

/-- C6: for a desired list of length L and chunk size C, the
enumerate(batched(...)) loop of manage_prefix_list handles ceil(L/C)
chunks, in order and concatenating back to the desired list, every chunk
at most C entries and all but the last exactly C; chunk 0's name is the
base resource name, chunk n's name appends "-continued-" and n. -/
theorem c6_chunk_plan (baseName : String) (l : List String) (c : Nat) (hc : 1 ≤ c) :
    (chunkAssignments baseName l c).length = (l.length + c - 1) / c ∧
    ((chunkAssignments baseName l c).map (·.2)).flatten = l ∧
    (∀ p ∈ chunkAssignments baseName l c, p.2.length ≤ c) ∧
    (∀ i p, (chunkAssignments baseName l c)[i]? = some p →
      p.1 = plChunkName baseName i ∧
      (i + 1 < (chunkAssignments baseName l c).length → p.2.length = c)) ∧
    plChunkName baseName 0 = baseName ∧
    (∀ n, n ≠ 0 → plChunkName baseName n = baseName ++ "-continued-" ++ ⟨decCh n⟩) := by
  have hlen : (chunkAssignments baseName l c).length = (batched l c).length := by
    unfold chunkAssignments; simp
  refine ⟨?_, ?_, ?_, ?_, ?_, ?_⟩
  · rw [hlen, batched_length l c (by omega)]
  · have : (chunkAssignments baseName l c).map (·.2) = batched l c := by
      unfold chunkAssignments
      rw [List.map_map]
      have : ((fun p : String × List String => p.2) ∘
          fun p : Nat × List String => (plChunkName baseName p.1, p.2)) =
          fun p : Nat × List String => p.2 := rfl
      rw [this, List.enum_map_snd]
    rw [this]
    exact batched_flatten l c (by omega)
  · intro p hp
    unfold chunkAssignments at hp
    simp only [List.mem_map] at hp
    obtain ⟨q, hq, rfl⟩ := hp
    rw [List.mem_enum_iff_getElem?] at hq
    exact batched_chunk_le l c q.2 (List.getElem?_mem hq)
  · intro i p hp
    rw [chunkAssignments_names baseName l c i] at hp
    match hb : (batched l c)[i]? with
    | none => rw [hb] at hp; simp at hp
    | some ch =>
      rw [hb] at hp
      have hp2 : (plChunkName baseName i, ch) = p := by simpa using hp
      subst hp2
      refine ⟨rfl, fun hlt => ?_⟩
      exact batched_chunk_full l c i ch hb (by rw [← hlen]; exact hlt)
  · simp [plChunkName]
  · intro n hn; simp [plChunkName, hn]

/-- C6 witness: 5 entries with chunk size 2 give chunks of sizes 2, 2, 1
named base, base-continued-1, base-continued-2. -/
theorem c6_chunk_plan_witness :
    (1 ≤ 2 ∧
      (chunkAssignments "b" ["a1", "a2", "a3", "a4", "a5"] 2).length = (5 + 2 - 1) / 2) ∧
    chunkAssignments "b" ["a1", "a2", "a3", "a4", "a5"] 2 =
      [("b", ["a1", "a2"]), ("b-continued-1", ["a3", "a4"]), ("b-continued-2", ["a5"])] :=
  ⟨⟨by decide, (c6_chunk_plan "b" ["a1", "a2", "a3", "a4", "a5"] 2 (by decide)).1⟩, by decide⟩

/-! ### Parse errors in summarize (C10) -/

theorem mapM_opt_none (f : α → Option β) :
    ∀ l : List α, (∃ s ∈ l, f s = none) → l.mapM f = none := by
  intro l
  induction l with
  | nil => rintro ⟨s, hs, _⟩; simp at hs
  | cons a l ih =>
    rintro ⟨s, hs, hf⟩
    rw [List.mem_cons] at hs
    rw [List.mapM_cons]
    rcases hs with rfl | hs
    · rw [hf]; rfl
    · cases hfa : f a with
      | none => rfl
      | some b => rw [ih ⟨s, hs, hf⟩]; rfl

/-- C10 (amended): a malformed entry makes summarize raise — for an
IPv4 list of any length other than one, and for an IPv6 list of any
length; a single-entry IPv4 list is returned unchanged without parsing,
malformed or not. -/
theorem c10_summarize_parse_error (l : List String) :
    (l.length ≠ 1 → (∃ s ∈ l, parseV4 s = none) → summarizedV4 l = none) ∧
    ((∃ s ∈ l, parseV6 s = none) → summarizedV6 l = none) ∧
    (l.length = 1 → summarizedV4 l = some l) := by
  refine ⟨?_, ?_, ?_⟩
  · intro hlen hbad
    unfold summarizedV4
    rw [if_neg hlen, mapM_opt_none parseV4 l hbad]
    rfl
  · intro hbad
    unfold summarizedV6
    rw [mapM_opt_none parseV6 l hbad]
    rfl
  · intro hlen
    unfold summarizedV4
    rw [if_pos hlen]

/-- C10 counterexample: the claim as stated fails on a single-entry
malformed IPv4 list, which the short-circuit returns unchanged with no
parse error. -/
theorem c10_counterexample :
    parseV4 "not-a-cidr" = none ∧
    summarizedV4 ["not-a-cidr"] = some ["not-a-cidr"] := by
  constructor
  · decide
  · rfl

/-- C10 witness: a malformed entry in a two-entry IPv4 list and in a
single-entry IPv6 list makes summarize fail. -/
theorem c10_summarize_parse_error_witness :
    (["not-a-cidr", "1.2.3.0/24"].length ≠ 1 ∧
      (∃ s ∈ ["not-a-cidr", "1.2.3.0/24"], parseV4 s = none) ∧
      summarizedV4 ["not-a-cidr", "1.2.3.0/24"] = none) ∧
    ((∃ s ∈ ["not-a-cidr"], parseV6 s = none) ∧
      summarizedV6 ["not-a-cidr"] = none) :=
  ⟨⟨by decide, ⟨"not-a-cidr", by decide, by decide⟩,
    (c10_summarize_parse_error ["not-a-cidr", "1.2.3.0/24"]).1 (by decide)
      ⟨"not-a-cidr", by decide, by decide⟩⟩,
   ⟨⟨"not-a-cidr", by decide, by decide⟩,
    (c10_summarize_parse_error ["not-a-cidr"]).2.1 ⟨"not-a-cidr", by decide, by decide⟩⟩⟩

/-! ### Extractor lemmas (C3, C4) -/

theorem mget?_mput_self (m : List (String × β)) (k : String) (v : β) :
    mget? (mput m k v) k = some v := by
  induction m with
  | nil => simp [mput, mget?]
  | cons e es ih =>
    rw [mput]
    by_cases he : e.1 = k
    · rw [if_pos he, mget?, if_pos rfl]
    · rw [if_neg he, mget?, if_neg he]
      exact ih

theorem mget?_mput_other (m : List (String × β)) (k k' : String) (v : β) (h : k' ≠ k) :
    mget? (mput m k v) k' = mget? m k' := by
  induction m with
  | nil =>
    simp only [mput, mget?]
    rw [if_neg (show ¬(k, v).1 = k' from fun hh => h (by simpa using hh.symm))]
  | cons e es ih =>
    rw [mput]
    by_cases he : e.1 = k
    · rw [if_pos he, mget?, mget?]
      rw [if_neg (show ¬(k, v).1 = k' from fun hh => h (by simpa using hh.symm))]
      rw [if_neg (show ¬e.1 = k' from by rw [he]; exact fun hh => h hh.symm)]
    · rw [if_neg he, mget?, mget?]
      by_cases he' : e.1 = k'
      · rw [if_pos he', if_pos he']
      · rw [if_neg he', if_neg he']
        exact ih

theorem mget?_mput_isSome (m : List (String × β)) (k k' : String) (v : β)
    (h : (mget? m k').isSome) : (mget? (mput m k v) k').isSome := by
  by_cases hk : k' = k
  · subst hk; rw [mget?_mput_self]; rfl
  · rw [mget?_mput_other m k k' v hk]; exact h

/-- The inner foldl over a service's Regions list: key bookkeeping. -/
theorem bc_regions_fold (name : String) (rs : List String) :
    ∀ acc : List String × RangeMap,
      (∀ k', (mget? acc.2 k').isSome →
        (mget? (rs.foldl (fun (acc2 : List String × RangeMap) r =>
          (acc2.1 ++ [name ++ "-" ++ r], mput acc2.2 name ⟨[], []⟩)) acc).2 k').isSome) ∧
      (∀ k ∈ acc.1, k ∈ (rs.foldl (fun (acc2 : List String × RangeMap) r =>
          (acc2.1 ++ [name ++ "-" ++ r], mput acc2.2 name ⟨[], []⟩)) acc).1) ∧
      (rs ≠ [] → (mget? (rs.foldl (fun (acc2 : List String × RangeMap) r =>
          (acc2.1 ++ [name ++ "-" ++ r], mput acc2.2 name ⟨[], []⟩)) acc).2 name).isSome) := by
  induction rs with
  | nil => intro acc; exact ⟨fun _ h => h, fun _ h => h, fun h => absurd rfl h⟩
  | cons r rs ih =>
    intro acc
    simp only [List.foldl_cons]
    refine ⟨?_, ?_, ?_⟩
    · intro k' hk'
      exact (ih _).1 k' (mget?_mput_isSome _ _ _ _ hk')
    · intro k hk
      exact (ih _).2.1 k (by simp [hk])
    · intro _
      cases rs with
      | nil =>
        simp only [List.foldl_nil]
        rw [mget?_mput_self]
        rfl
      | cons r2 rs2 =>
        exact (ih _).2.2 (by simp)

/-- buildControl key facts: every processed service name gets a
service_ranges entry, existing entries survive, every wildcard service
(empty Regions) gets its bare control key, and control keys are
preserved. -/
theorem buildControl_go (svcs : List CfgService) :
    ∀ (acc r : List String × RangeMap),
      svcs.foldlM (fun (acc : List String × RangeMap) svc =>
        match svc.regions with
        | none => Except.error "KeyError Regions"
        | some rs =>
          if rs.length > 0 then
            Except.ok (rs.foldl
              (fun (acc2 : List String × RangeMap) r =>
                (acc2.1 ++ [svc.name ++ "-" ++ r], mput acc2.2 svc.name ⟨[], []⟩))
              acc)
          else
            Except.ok (acc.1 ++ [svc.name], mput acc.2 svc.name ⟨[], []⟩)) acc = .ok r →
      (∀ k', (mget? acc.2 k').isSome → (mget? r.2 k').isSome) ∧
      (∀ svc ∈ svcs, (mget? r.2 svc.name).isSome) ∧
      (∀ k ∈ acc.1, k ∈ r.1) ∧
      (∀ svc ∈ svcs, svc.regions = some [] → svc.name ∈ r.1) := by
  induction svcs with
  | nil =>
    intro acc r h
    have : acc = r := by
      simpa [List.foldlM, pure, Except.pure] using h
    subst this
    exact ⟨fun _ h => h, by simp, fun _ h => h, by simp⟩
  | cons s svcs ih =>
    intro acc r h
    rw [List.foldlM_cons] at h
    cases hreg : s.regions with
    | none => rw [hreg] at h; exact Except.noConfusion h
    | some rs =>
      rw [hreg] at h
      dsimp only [] at h
      by_cases hlen : rs.length > 0
      · rw [if_pos hlen] at h
        obtain ⟨hsub, hall, hctrl, hwild⟩ := ih _ _ h
        refine ⟨?_, ?_, ?_, ?_⟩
        · intro k' hk'
          exact hsub k' ((bc_regions_fold s.name rs acc).1 k' hk')
        · intro svc hsvc
          rw [List.mem_cons] at hsvc
          rcases hsvc with rfl | hsvc
          · exact hsub _ ((bc_regions_fold svc.name rs acc).2.2 (by
              intro he; subst he; simp at hlen))
          · exact hall svc hsvc
        · intro k hk
          exact hctrl k ((bc_regions_fold s.name rs acc).2.1 k hk)
        · intro svc hsvc hw
          rw [List.mem_cons] at hsvc
          rcases hsvc with rfl | hsvc
          · rw [hreg] at hw
            cases hw
            simp at hlen
          · exact hwild svc hsvc hw
      · rw [if_neg hlen] at h
        obtain ⟨hsub, hall, hctrl, hwild⟩ := ih _ _ h
        refine ⟨?_, ?_, ?_, ?_⟩
        · intro k' hk'
          exact hsub k' (mget?_mput_isSome _ _ _ _ hk')
        · intro svc hsvc
          rw [List.mem_cons] at hsvc
          rcases hsvc with rfl | hsvc
          · exact hsub _ (by rw [mget?_mput_self]; rfl)
          · exact hall svc hsvc
        · intro k hk
          exact hctrl k (by simp [hk])
        · intro svc hsvc hw
          rw [List.mem_cons] at hsvc
          rcases hsvc with rfl | hsvc
          · exact hctrl _ (by simp)
          · exact hwild svc hsvc hw

/-- Inversion of an Except bind that succeeded. -/
theorem exbind_ok {α β : Type} (x : Except String α) (f : α → Except String β) (b : β)
    (h : (x >>= f) = .ok b) : ∃ a, x = .ok a ∧ f a = .ok b := by
  cases x with
  | error e => exact Except.noConfusion h
  | ok a => exact ⟨a, rfl, h⟩

theorem maddV4_keys (k p : String) :
    ∀ (m m' : RangeMap), maddV4 m k p = .ok m' →
      ∀ k', (mget? m' k').isSome = (mget? m k').isSome := by
  intro m
  induction m with
  | nil => intro m' h; exact Except.noConfusion h
  | cons e es ih =>
    intro m' h k'
    rw [maddV4] at h
    by_cases he : e.1 = k
    · rw [if_pos he] at h
      cases h
      rw [mget?, mget?]
      by_cases he' : e.1 = k' <;> simp [he', mget?]
    · rw [if_neg he] at h
      cases hes : maddV4 es k p with
      | error err => rw [hes] at h; exact Except.noConfusion h
      | ok es' =>
        rw [hes] at h
        cases h
        rw [mget?, mget?]
        by_cases he' : e.1 = k' <;> simp [he', ih es' hes k']

theorem maddV6_keys (k p : String) :
    ∀ (m m' : RangeMap), maddV6 m k p = .ok m' →
      ∀ k', (mget? m' k').isSome = (mget? m k').isSome := by
  intro m
  induction m with
  | nil => intro m' h; exact Except.noConfusion h
  | cons e es ih =>
    intro m' h k'
    rw [maddV6] at h
    by_cases he : e.1 = k
    · rw [if_pos he] at h
      cases h
      rw [mget?, mget?]
      by_cases he' : e.1 = k' <;> simp [he', mget?]
    · rw [if_neg he] at h
      cases hes : maddV6 es k p with
      | error err => rw [hes] at h; exact Except.noConfusion h
      | ok es' =>
        rw [hes] at h
        cases h
        rw [mget?, mget?]
        by_cases he' : e.1 = k' <;> simp [he', ih es' hes k']

theorem procV4_keys (control : List String) (rec : V4Rec) (m m' : RangeMap)
    (h : procV4 control m rec = .ok m') :
    ∀ k', (mget? m' k').isSome = (mget? m k').isSome := by
  unfold procV4 at h
  by_cases h1 : (rec.service ++ "-" ++ rec.region) ∈ control
  · rw [if_pos h1] at h
    exact maddV4_keys _ _ m m' h
  · rw [if_neg h1] at h
    by_cases h2 : rec.service ∈ control
    · rw [if_pos h2] at h
      exact maddV4_keys _ _ m m' h
    · rw [if_neg h2] at h
      cases h
      intro k'
      rfl

theorem procV6_keys (control : List String) (rec : V6Rec) (m m' : RangeMap)
    (h : procV6 control m rec = .ok m') :
    ∀ k', (mget? m' k').isSome = (mget? m k').isSome := by
  unfold procV6 at h
  by_cases h1 : (rec.service ++ "-" ++ rec.region) ∈ control
  · rw [if_pos h1] at h
    exact maddV6_keys _ _ m m' h
  · rw [if_neg h1] at h
    by_cases h2 : rec.service ∈ control
    · rw [if_pos h2] at h
      exact maddV6_keys _ _ m m' h
    · rw [if_neg h2] at h
      cases h
      intro k'
      rfl

theorem foldProcV4_keys (control : List String) :
    ∀ (recs : List V4Rec) (m m' : RangeMap),
      recs.foldlM (procV4 control) m = .ok m' →
      ∀ k', (mget? m' k').isSome = (mget? m k').isSome := by
  intro recs
  induction recs with
  | nil =>
    intro m m' h k'
    cases h
    rfl
  | cons rec recs ih =>
    intro m m' h k'
    rw [List.foldlM_cons] at h
    obtain ⟨mid, h1, h2⟩ := exbind_ok _ _ _ h
    rw [ih mid m' h2 k', procV4_keys control rec m mid h1 k']

theorem foldProcV6_keys (control : List String) :
    ∀ (recs : List V6Rec) (m m' : RangeMap),
      recs.foldlM (procV6 control) m = .ok m' →
      ∀ k', (mget? m' k').isSome = (mget? m k').isSome := by
  intro recs
  induction recs with
  | nil =>
    intro m m' h k'
    cases h
    rfl
  | cons rec recs ih =>
    intro m m' h k'
    rw [List.foldlM_cons] at h
    obtain ⟨mid, h1, h2⟩ := exbind_ok _ _ _ h
    rw [ih mid m' h2 k', procV6_keys control rec m mid h1 k']

theorem sortRanges_keys :
    ∀ (m m' : RangeMap), sortRanges m = .ok m' →
      ∀ k', (mget? m' k').isSome = (mget? m k').isSome := by
  intro m
  induction m with
  | nil =>
    intro m' h k'
    cases h
    rfl
  | cons e es ih =>
    intro m' h k'
    unfold sortRanges at h
    rw [List.mapM_cons] at h
    obtain ⟨b, hb, h2⟩ := exbind_ok _ _ _ h
    obtain ⟨bs, hbs, h3⟩ := exbind_ok _ _ _ h2
    cases h3
    have hb1 : b.1 = e.1 := by
      obtain ⟨v4, hv4, h4⟩ := exbind_ok _ _ _ hb
      obtain ⟨v6, hv6, h5⟩ := exbind_ok _ _ _ h4
      cases h5
      rfl
    rw [mget?, mget?, hb1]
    by_cases he' : e.1 = k'
    · simp [he']
    · rw [if_neg he', if_neg he']
      exact ih bs hbs k'

theorem mem_mput (m : List (String × β)) (k : String) (v : β) :
    ∀ e ∈ mput m k v, e = (k, v) ∨ e ∈ m := by
  induction m with
  | nil => intro e he; rw [mput] at he; simp at he; exact Or.inl he
  | cons e2 es ih =>
    intro e he
    rw [mput] at he
    by_cases h2 : e2.1 = k
    · rw [if_pos h2, List.mem_cons] at he
      rcases he with rfl | he
      · exact Or.inl rfl
      · exact Or.inr (by simp [he])
    · rw [if_neg h2, List.mem_cons] at he
      rcases he with rfl | he
      · exact Or.inr (by simp)
      · rcases ih e he with h | h
        · exact Or.inl h
        · exact Or.inr (by simp [h])

theorem mget?_some_mem (k : String) (v : β) :
    ∀ m : List (String × β), mget? m k = some v → ∃ e ∈ m, e.1 = k ∧ e.2 = v := by
  intro m
  induction m with
  | nil => intro h; exact Option.noConfusion h
  | cons e es ih =>
    intro h
    rw [mget?] at h
    by_cases he : e.1 = k
    · rw [if_pos he] at h
      cases h
      exact ⟨e, by simp, he, rfl⟩
    · rw [if_neg he] at h
      obtain ⟨e2, he2, hk, hv⟩ := ih h
      exact ⟨e2, by simp [he2], hk, hv⟩

theorem bc_regions_fold_vals (name : String) (rs : List String) :
    ∀ acc : List String × RangeMap,
      (∀ e ∈ acc.2, e.2 = SvcRange.mk [] []) →
      ∀ e ∈ (rs.foldl (fun (acc2 : List String × RangeMap) r =>
          (acc2.1 ++ [name ++ "-" ++ r], mput acc2.2 name ⟨[], []⟩)) acc).2,
        e.2 = SvcRange.mk [] [] := by
  induction rs with
  | nil => intro acc h; exact h
  | cons r rs ih =>
    intro acc h
    simp only [List.foldl_cons]
    refine ih _ ?_
    intro e he
    rcases mem_mput _ _ _ e he with rfl | he2
    · rfl
    · exact h e he2

theorem buildControl_vals (svcs : List CfgService) :
    ∀ (acc r : List String × RangeMap),
      svcs.foldlM (fun (acc : List String × RangeMap) svc =>
        match svc.regions with
        | none => Except.error "KeyError Regions"
        | some rs =>
          if rs.length > 0 then
            Except.ok (rs.foldl
              (fun (acc2 : List String × RangeMap) r =>
                (acc2.1 ++ [svc.name ++ "-" ++ r], mput acc2.2 svc.name ⟨[], []⟩))
              acc)
          else
            Except.ok (acc.1 ++ [svc.name], mput acc.2 svc.name ⟨[], []⟩)) acc = .ok r →
      (∀ e ∈ acc.2, e.2 = SvcRange.mk [] []) →
      ∀ e ∈ r.2, e.2 = SvcRange.mk [] [] := by
  induction svcs with
  | nil =>
    intro acc r h hv
    have : acc = r := by simpa [List.foldlM, pure, Except.pure] using h
    subst this
    exact hv
  | cons s svcs ih =>
    intro acc r h hv
    rw [List.foldlM_cons] at h
    cases hreg : s.regions with
    | none => rw [hreg] at h; exact Except.noConfusion h
    | some rs =>
      rw [hreg] at h
      dsimp only [] at h
      by_cases hlen : rs.length > 0
      · rw [if_pos hlen] at h
        exact ih _ _ h (bc_regions_fold_vals s.name rs acc hv)
      · rw [if_neg hlen] at h
        refine ih _ _ h ?_
        intro e he
        rcases mem_mput _ _ _ e he with rfl | he2
        · rfl
        · exact hv e he2

theorem sortRanges_of_empty :
    ∀ m : RangeMap, (∀ e ∈ m, e.2 = SvcRange.mk [] []) → sortRanges m = .ok m := by
  intro m
  induction m with
  | nil => intro _; rfl
  | cons e es ih =>
    intro h
    obtain ⟨k, sv⟩ := e
    have he : sv = SvcRange.mk [] [] := h (k, sv) (by simp)
    subst he
    unfold sortRanges
    rw [List.mapM_cons]
    have hes : sortRanges es = .ok es := ih (fun e2 he2 => h e2 (by simp [he2]))
    unfold sortRanges at hes
    rw [hes]
    rfl

/-- C3 (amended): whenever get_ranges_for_service returns, every
configured service name is a key of the returned mapping (both family
lists are fields of the entry, so both are always present); with every
descriptor carrying a Regions list, the empty feed yields a mapping
binding every configured name to a pair of empty lists.  A descriptor
without Regions instead raises KeyError (see the counterexample). -/
theorem c3_service_keys (cfg : Config) :
    (∀ (feed : Feed) (m : RangeMap), getRangesForService feed cfg = .ok m →
      ∀ svc ∈ cfg.services, (mget? m svc.name).isSome) ∧
    ((∀ svc ∈ cfg.services, svc.regions ≠ none) →
      ∃ m, getRangesForService (Feed.mk [] []) cfg = .ok m ∧
        ∀ svc ∈ cfg.services, mget? m svc.name = some (SvcRange.mk [] [])) := by
  constructor
  · intro feed m h svc hsvc
    unfold getRangesForService at h
    obtain ⟨cm, hcm, h2⟩ := exbind_ok _ _ _ h
    obtain ⟨m1, hm1, h3⟩ := exbind_ok _ _ _ h2
    obtain ⟨m2, hm2, h4⟩ := exbind_ok _ _ _ h3
    have hkey := (buildControl_go cfg.services ([], []) cm hcm).2.1 svc hsvc
    rw [sortRanges_keys m2 m h4 svc.name,
      foldProcV6_keys cm.1 feed.ipv6Prefixes m1 m2 hm2 svc.name,
      foldProcV4_keys cm.1 feed.prefixes cm.2 m1 hm1 svc.name]
    exact hkey
  · intro hreg
    have hok : ∀ (svcs : List CfgService), (∀ svc ∈ svcs, svc.regions ≠ none) →
        ∀ acc : List String × RangeMap, ∃ r,
        svcs.foldlM (fun (acc : List String × RangeMap) svc =>
          match svc.regions with
          | none => Except.error "KeyError Regions"
          | some rs =>
            if rs.length > 0 then
              Except.ok (rs.foldl
                (fun (acc2 : List String × RangeMap) r =>
                  (acc2.1 ++ [svc.name ++ "-" ++ r], mput acc2.2 svc.name ⟨[], []⟩))
                acc)
            else
              Except.ok (acc.1 ++ [svc.name], mput acc.2 svc.name ⟨[], []⟩)) acc = .ok r := by
      intro svcs
      induction svcs with
      | nil => intro _ acc; exact ⟨acc, rfl⟩
      | cons s svcs ih =>
        intro hr acc
        rw [List.foldlM_cons]
        cases hreg2 : s.regions with
        | none => exact absurd hreg2 (hr s (by simp))
        | some rs =>
          by_cases hlen : rs.length > 0
          · obtain ⟨r, hfold⟩ := ih (fun svc hsvc => hr svc (by simp [hsvc])) _
            refine ⟨r, ?_⟩
            dsimp only []
            rw [if_pos hlen]
            exact hfold
          · obtain ⟨r, hfold⟩ := ih (fun svc hsvc => hr svc (by simp [hsvc])) _
            refine ⟨r, ?_⟩
            dsimp only []
            rw [if_neg hlen]
            exact hfold
    obtain ⟨cm, hcm⟩ := hok cfg.services hreg ([], [])
    have hcm2 : buildControl cfg = .ok cm := hcm
    have hvals : ∀ e ∈ cm.2, e.2 = SvcRange.mk [] [] :=
      buildControl_vals cfg.services ([], []) cm hcm (by simp)
    have hsort : sortRanges cm.2 = .ok cm.2 := sortRanges_of_empty cm.2 hvals
    refine ⟨cm.2, ?_, ?_⟩
    · have hge : getRangesForService (Feed.mk [] []) cfg =
          Except.bind (buildControl cfg) (fun cm2 => sortRanges cm2.2) := rfl
      rw [hge, hcm2]
      exact hsort
    · intro svc hsvc
      have hkey := (buildControl_go cfg.services ([], []) cm hcm).2.1 svc hsvc
      obtain ⟨v, hv⟩ := Option.isSome_iff_exists.mp hkey
      obtain ⟨e, hem, _, hev⟩ := mget?_some_mem svc.name v cm.2 hv
      rw [hv, ← hev, hvals e hem]

/-- C3 witness: two descriptors, one with an empty Regions list, one
with an explicit region; all names are bound to empty pairs on the
empty feed. -/
theorem c3_service_keys_witness :
    (∀ svc ∈ (Config.mk [CfgService.mk "SERVICE_A" (some []) none none,
        CfgService.mk "CLOUDFRONT" (some ["us-east-1"]) none none]).services,
      svc.regions ≠ none) ∧
    ∃ m, getRangesForService (Feed.mk [] [])
        (Config.mk [CfgService.mk "SERVICE_A" (some []) none none,
          CfgService.mk "CLOUDFRONT" (some ["us-east-1"]) none none]) = .ok m ∧
      ∀ svc ∈ (Config.mk [CfgService.mk "SERVICE_A" (some []) none none,
          CfgService.mk "CLOUDFRONT" (some ["us-east-1"]) none none]).services,
        mget? m svc.name = some (SvcRange.mk [] []) :=
  ⟨by decide,
   (c3_service_keys (Config.mk [CfgService.mk "SERVICE_A" (some []) none none,
      CfgService.mk "CLOUDFRONT" (some ["us-east-1"]) none none])).2 (by decide)⟩

/-- C3 counterexample: a descriptor with no Regions key at all makes
get_ranges_for_service raise KeyError instead of treating it as "all
regions", so no mapping with that service as a key is returned. -/
theorem c3_counterexample :
    getRangesForService (Feed.mk [] [])
      (Config.mk [CfgService.mk "SERVICE_A" none none none]) =
      .error "KeyError Regions" := rfl

/-! ### Record attribution and fallback (C4) -/

theorem maddV4_spec (k p : String) :
    ∀ (m : RangeMap) (v : SvcRange), mget? m k = some v →
      ∃ m', maddV4 m k p = .ok m' ∧
        mget? m' k = some (SvcRange.mk (v.ipv4 ++ [p]) v.ipv6) ∧
        ∀ k', k' ≠ k → mget? m' k' = mget? m k' := by
  intro m
  induction m with
  | nil => intro v h; exact Option.noConfusion h
  | cons e es ih =>
    intro v h
    rw [mget?] at h
    by_cases he : e.1 = k
    · rw [if_pos he] at h
      cases h
      refine ⟨(e.1, SvcRange.mk (e.2.ipv4 ++ [p]) e.2.ipv6) :: es, ?_, ?_, ?_⟩
      · rw [maddV4, if_pos he]
      · rw [mget?, if_pos he]
      · intro k' hk'
        rw [mget?, mget?]
        rw [if_neg (show ¬(e.1, SvcRange.mk (e.2.ipv4 ++ [p]) e.2.ipv6).1 = k' from
          fun hh => hk' ((Eq.symm hh).trans he))]
        rw [if_neg (show ¬e.1 = k' from fun hh => hk' ((Eq.symm hh).trans he))]
    · rw [if_neg he] at h
      obtain ⟨es', hes', hget, hother⟩ := ih v h
      refine ⟨e :: es', ?_, ?_, ?_⟩
      · rw [maddV4, if_neg he, hes']
        rfl
      · rw [mget?, if_neg he]
        exact hget
      · intro k' hk'
        rw [mget?, mget?]
        by_cases he' : e.1 = k'
        · rw [if_pos he', if_pos he']
        · rw [if_neg he', if_neg he']
          exact hother k' hk'

/-- C4: per feed record, the specific service-region key is tested
first; failing that the bare service key; failing both the record is
discarded with no error and no change.  A service configured with an
empty Regions list contributes exactly its bare name as a control key,
so such a record is appended to that service's IPv4 list. -/
theorem c4_record_fallback (control : List String) (m : RangeMap) (rec : V4Rec) :
    ((rec.service ++ "-" ++ rec.region) ∈ control →
      procV4 control m rec = maddV4 m rec.service rec.cidr) ∧
    ((rec.service ++ "-" ++ rec.region) ∉ control → rec.service ∈ control →
      procV4 control m rec = maddV4 m rec.service rec.cidr) ∧
    ((rec.service ++ "-" ++ rec.region) ∉ control → rec.service ∉ control →
      procV4 control m rec = .ok m) ∧
    (∀ v : SvcRange, mget? m rec.service = some v → rec.service ∈ control →
      ∃ m', procV4 control m rec = .ok m' ∧
        mget? m' rec.service = some (SvcRange.mk (v.ipv4 ++ [rec.cidr]) v.ipv6) ∧
        ∀ k', k' ≠ rec.service → mget? m' k' = mget? m k') ∧
    (∀ (cfg : Config) (cm : List String × RangeMap), buildControl cfg = .ok cm →
      (∃ svc ∈ cfg.services, svc.name = rec.service ∧ svc.regions = some []) →
      rec.service ∈ cm.1) := by
  refine ⟨?_, ?_, ?_, ?_, ?_⟩
  · intro h1
    unfold procV4
    rw [if_pos h1]
  · intro h1 h2
    unfold procV4
    rw [if_neg h1, if_pos h2]
  · intro h1 h2
    unfold procV4
    rw [if_neg h1, if_neg h2]
  · intro v hv hc
    obtain ⟨m', hm', hget, hother⟩ := maddV4_spec rec.service rec.cidr m v hv
    refine ⟨m', ?_, hget, hother⟩
    unfold procV4
    by_cases h1 : (rec.service ++ "-" ++ rec.region) ∈ control
    · rw [if_pos h1]; exact hm'
    · rw [if_neg h1, if_pos hc]; exact hm'
  · intro cfg cm hcm hex
    obtain ⟨svc, hsvc, hname, hw⟩ := hex
    have := (buildControl_go cfg.services ([], []) cm hcm).2.2.2 svc hsvc hw
    rw [hname] at this
    exact this

/-- C4 witness: with service A configured only through the wildcard
(empty Regions), a record for A in region us-east-1 is appended to A's
IPv4 list. -/
theorem c4_record_fallback_witness :
    (mget? [("A", SvcRange.mk ["9.9.9.9/32"] [])] "A" = some (SvcRange.mk ["9.9.9.9/32"] []) ∧
     "A" ∈ ["A"] ∧
     ∃ m', procV4 ["A"] [("A", SvcRange.mk ["9.9.9.9/32"] [])]
         (V4Rec.mk "A" "us-east-1" "1.2.3.0/24") = .ok m' ∧
       mget? m' "A" = some (SvcRange.mk (["9.9.9.9/32"] ++ ["1.2.3.0/24"]) []) ∧
       ∀ k', k' ≠ "A" → mget? m' k' = mget? [("A", SvcRange.mk ["9.9.9.9/32"] [])] k') ∧
    (buildControl (Config.mk [CfgService.mk "A" (some []) none none]) = .ok (["A"], [("A", SvcRange.mk [] [])]) ∧
     (∃ svc ∈ [CfgService.mk "A" (some []) none none], svc.name = "A" ∧ svc.regions = some []) ∧
     "A" ∈ (["A"], [("A", SvcRange.mk [] [])]).1) :=
  ⟨⟨by decide, by decide,
    (c4_record_fallback ["A"] [("A", SvcRange.mk ["9.9.9.9/32"] [])]
      (V4Rec.mk "A" "us-east-1" "1.2.3.0/24")).2.2.2.1 (SvcRange.mk ["9.9.9.9/32"] [])
      (by decide) (by decide)⟩,
   ⟨rfl, ⟨CfgService.mk "A" (some []) none none, by decide, rfl, rfl⟩,
    (c4_record_fallback ["A"] [] (V4Rec.mk "A" "us-east-1" "1.2.3.0/24")).2.2.2.2
      (Config.mk [CfgService.mk "A" (some []) none none])
      (["A"], [("A", SvcRange.mk [] [])]) rfl
      ⟨CfgService.mk "A" (some []) none none, by decide, rfl, rfl⟩⟩⟩

/-! ### PLM reasoning toolkit -/

theorem plm_bind_def (x : PLM α) (f : α → PLM β) (k : Nat) :
    (x >>= f) k =
      match x k with
      | (k1, t1, .error e) => (k1, t1, .error e)
      | (k1, t1, .ok a) =>
        match f a k1 with
        | (k2, t2, r) => (k2, t1 ++ t2, r) := rfl

theorem plmbind_ok (x : PLM α) (f : α → PLM β) (k k' : Nat) (tr : List PLEv) (b : β)
    (h : (x >>= f) k = (k', tr, .ok b)) :
    ∃ k1 t1 a t2, x k = (k1, t1, .ok a) ∧ f a k1 = (k', t2, .ok b) ∧ tr = t1 ++ t2 := by
  rw [plm_bind_def] at h
  match hx : x k with
  | (k1, t1, .error e) =>
    rw [hx] at h
    dsimp only [] at h
    exact absurd (congrArg (fun p => p.2.2) h) (by simp)
  | (k1, t1, .ok a) =>
    rw [hx] at h
    dsimp only [] at h
    match hf : f a k1 with
    | (k2, t2, r) =>
      rw [hf] at h
      dsimp only [] at h
      obtain ⟨hk, htr, hr⟩ : k2 = k' ∧ t1 ++ t2 = tr ∧ r = .ok b := by
        refine ⟨congrArg (fun p => p.1) h, ?_, congrArg (fun p => p.2.2) h⟩
        have := congrArg (fun p => p.2.1) h
        simpa using this
      subst hk htr hr
      exact ⟨k1, t1, a, t2, rfl, hf, rfl⟩

theorem plmbind_inv (x : PLM α) (f : α → PLM β) (k k' : Nat) (tr : List PLEv)
    (r : Except String β) (h : (x >>= f) k = (k', tr, r)) :
    (∃ e, x k = (k', tr, .error e) ∧ r = .error e) ∨
    (∃ k1 t1 a t2, x k = (k1, t1, .ok a) ∧ f a k1 = (k', t2, r) ∧ tr = t1 ++ t2) := by
  rw [plm_bind_def] at h
  match hx : x k with
  | (k1, t1, .error e) =>
    rw [hx] at h
    dsimp only [] at h
    obtain ⟨h1, h2, h3⟩ : k1 = k' ∧ t1 = tr ∧ Except.error e = r :=
      ⟨congrArg (fun p => p.1) h, by simpa using congrArg (fun p => p.2.1) h,
       congrArg (fun p => p.2.2) h⟩
    subst h1 h2
    exact Or.inl ⟨e, rfl, h3.symm⟩
  | (k1, t1, .ok a) =>
    rw [hx] at h
    dsimp only [] at h
    match hf : f a k1 with
    | (k2, t2, r2) =>
      rw [hf] at h
      dsimp only [] at h
      obtain ⟨hk, htr, hr⟩ : k2 = k' ∧ t1 ++ t2 = tr ∧ r2 = r := by
        refine ⟨congrArg (fun p => p.1) h, ?_, congrArg (fun p => p.2.2) h⟩
        simpa using congrArg (fun p => p.2.1) h
      subst hk hr
      exact Or.inr ⟨k1, t1, a, t2, rfl, hf, htr.symm⟩

theorem noModify_append (t1 t2 : List PLEv) :
    noModify (t1 ++ t2) ↔ noModify t1 ∧ noModify t2 := by
  unfold noModify
  constructor
  · intro h
    exact ⟨fun e he => h e (by simp [he]), fun e he => h e (by simp [he])⟩
  · rintro ⟨h1, h2⟩ e he
    rw [List.mem_append] at he
    rcases he with he | he
    · exact h1 e he
    · exact h2 e he

theorem traceAdds_append (t1 t2 : List PLEv) :
    traceAdds (t1 ++ t2) = traceAdds t1 ++ traceAdds t2 := by
  unfold traceAdds
  rw [List.filterMap_append, List.flatten_append]

theorem traceRemoves_append (t1 t2 : List PLEv) :
    traceRemoves (t1 ++ t2) = traceRemoves t1 ++ traceRemoves t2 := by
  unfold traceRemoves
  rw [List.filterMap_append, List.flatten_append]

theorem traceSleeps_append (t1 t2 : List PLEv) :
    traceSleeps (t1 ++ t2) = traceSleeps t1 ++ traceSleeps t2 := by
  unfold traceSleeps
  rw [List.filterMap_append]

theorem traceAdds_of_noModify (tr : List PLEv) (h : noModify tr) : traceAdds tr = [] := by
  unfold traceAdds
  have : tr.filterMap (fun e => (evModify? e).map (fun t => t.2.1)) = [] := by
    rw [List.filterMap_eq_nil_iff]
    intro e he
    rw [h e he]
    rfl
  rw [this]
  rfl

theorem traceRemoves_of_noModify (tr : List PLEv) (h : noModify tr) :
    traceRemoves tr = [] := by
  unfold traceRemoves
  have : tr.filterMap (fun e => (evModify? e).map (fun t => t.2.2)) = [] := by
    rw [List.filterMap_eq_nil_iff]
    intro e he
    rw [h e he]
    rfl
  rw [this]
  rfl

/-- Evaluating one round of pollWait: the sleep, the describe call, then
either a terminal return or the next round. -/
theorem pollWait_succ (env : Nat → PLResp) (plId : String) (ts : List String)
    (msg : String) (fuel k : Nat) :
    pollWait env plId ts msg (fuel + 1) k =
      (match (if (env k).state ∈ ts then purePL (env k)
          else pollWait env plId ts msg fuel) (k + 1) with
       | (k2, t2, r2) =>
         (k2, PLEv.sleep ((5 - (fuel + 1)) + ((5 - (fuel + 1)) + 1)) ::
           PLEv.getPL plId :: t2, r2)) := rfl

theorem pollWait_noModify (env : Nat → PLResp) (plId : String) (ts : List String)
    (msg : String) :
    ∀ (fuel k k2 : Nat) (tr : List PLEv) (r : Except String PLResp),
      pollWait env plId ts msg fuel k = (k2, tr, r) →
      noModify tr ∧ (∀ b, r = .ok b → b.state ∈ ts) := by
  intro fuel
  induction fuel with
  | zero =>
    intro k k2 tr r h
    rw [pollWait] at h
    injection h with h1 h23
    injection h23 with h2 h3
    subst h2
    refine ⟨by intro e he; simp at he, ?_⟩
    intro b hb
    rw [← h3] at hb
    exact Except.noConfusion hb
  | succ fuel ih =>
    intro k k2 tr r h
    rw [pollWait_succ] at h
    by_cases hterm : (env k).state ∈ ts
    · rw [if_pos hterm] at h
      dsimp only [purePL] at h
      injection h with h1 h23
      injection h23 with h2 h3
      subst h2
      refine ⟨?_, ?_⟩
      · intro e he
        simp only [List.mem_cons, List.not_mem_nil, or_false] at he
        rcases he with rfl | rfl <;> rfl
      · intro b hb
        rw [← h3] at hb
        cases hb
        exact hterm
    · rw [if_neg hterm] at h
      match hrec : pollWait env plId ts msg fuel (k + 1) with
      | (k2', t2, r2) =>
        rw [hrec] at h
        dsimp only [] at h
        injection h with h1 h23
        injection h23 with h2 h3
        subst h2
        obtain ⟨hnm, hok⟩ := ih (k + 1) k2' t2 r2 hrec
        refine ⟨?_, by rw [← h3]; exact hok⟩
        intro e he
        simp only [List.mem_cons] at he
        rcases he with rfl | rfl | he
        · rfl
        · rfl
        · exact hnm e he

theorem noCombine_of_noModify (tr : List PLEv) (h : noModify tr) : noCombine tr := by
  intro e he me a rm hm
  rw [h e he] at hm
  exact Option.noConfusion hm

theorem noCombine_append (t1 t2 : List PLEv) (h1 : noCombine t1) (h2 : noCombine t2) :
    noCombine (t1 ++ t2) := by
  intro e he
  rw [List.mem_append] at he
  rcases he with he | he
  · exact h1 e he
  · exact h2 e he

theorem purePL_eq (a : α) (k : Nat) : (purePL a : PLM α) k = (k, [], .ok a) := rfl

/-- The payloads of one batch-loop iteration: nothing but the next
hundred additions and removals. -/
theorem updBatchStep_spec (env : Nat → PLResp) (A R : List String) (resp : PLResp)
    (idx k k2 : Nat) (tr : List PLEv) (resp' : PLResp)
    (h : updBatchStep env A R resp idx k = (k2, tr, .ok resp')) :
    traceAdds tr = (A.drop idx).take 100 ∧ traceRemoves tr = (R.drop idx).take 100 ∧
    noCombine tr := by
  unfold updBatchStep at h
  have hsplit : ∃ k1 t1, ∃ a : PLResp, ∃ t2, noModify t1 ∧
      callB env (PLEv.modifyPL a.plId a.plName (some a.version) none
        ((A.drop idx).take 100) ((R.drop idx).take 100)) k1 = (k2, t2, .ok resp') ∧
      tr = t1 ++ t2 := by
    by_cases hip : resp.state = "modify-in-progress"
    · rw [if_pos hip] at h
      obtain ⟨k1, t1, a, t2, h1, h2, htr⟩ := plmbind_ok _ _ _ _ _ _ h
      exact ⟨k1, t1, a, t2, (pollWait_noModify env resp.plId _ _ 5 k k1 t1 _ h1).1, h2, htr⟩
    · rw [if_neg hip] at h
      obtain ⟨k1, t1, a, t2, h1, h2, htr⟩ := plmbind_ok _ _ _ _ _ _ h
      rw [purePL_eq] at h1
      injection h1 with g1 g23
      injection g23 with g2 g3
      subst g2
      exact ⟨k1, [], a, t2, by intro e he; simp at he, h2, htr⟩
  obtain ⟨k1, t1, a, t2, hnm1, h2, htr⟩ := hsplit
  have ht2 : t2 = [PLEv.modifyPL a.plId a.plName (some a.version) none
      ((A.drop idx).take 100) ((R.drop idx).take 100)] := by
    unfold callB at h2
    injection h2 with g1 g23
    injection g23 with g2 g3
    exact g2.symm
  subst htr ht2
  refine ⟨?_, ?_, ?_⟩
  · rw [traceAdds_append, traceAdds_of_noModify t1 hnm1]
    simp [traceAdds, evModify?]
  · rw [traceRemoves_append, traceRemoves_of_noModify t1 hnm1]
    simp [traceRemoves, evModify?]
  · refine noCombine_append _ _ (noCombine_of_noModify t1 hnm1) ?_
    intro e he me aa rr hm
    simp only [List.mem_singleton] at he
    subst he
    injection hm with hm2
    exact Or.inl (congrArg (fun t => t.1) hm2).symm

/-- The payloads of the whole batch loop, when it completes: exactly the
hundred-sized chunks at the given indices. -/
theorem updBatchLoop_spec (env : Nat → PLResp) (A R : List String) :
    ∀ (idxs : List Nat) (resp : PLResp) (k k2 : Nat) (tr : List PLEv) (resp' : PLResp),
      updBatchLoop env A R idxs resp k = (k2, tr, .ok resp') →
      traceAdds tr = (idxs.map (fun idx => (A.drop idx).take 100)).flatten ∧
      traceRemoves tr = (idxs.map (fun idx => (R.drop idx).take 100)).flatten ∧
      noCombine tr := by
  intro idxs
  induction idxs with
  | nil =>
    intro resp k k2 tr resp' h
    unfold updBatchLoop at h
    rw [List.foldlM_nil] at h
    rw [show (pure resp : PLM PLResp) k = (k, [], .ok resp) from rfl] at h
    injection h with h1 h23
    injection h23 with h2 h3
    subst h2
    exact ⟨rfl, rfl, by intro e he; simp at he⟩
  | cons idx idxs ih =>
    intro resp k k2 tr resp' h
    unfold updBatchLoop at h
    rw [List.foldlM_cons] at h
    obtain ⟨k1, t1, mid, t2, h1, h2, htr⟩ := plmbind_ok _ _ _ _ _ _ h
    obtain ⟨ha1, hr1, hc1⟩ := updBatchStep_spec env A R resp idx k k1 t1 mid h1
    obtain ⟨ha2, hr2, hc2⟩ := ih mid k1 k2 t2 resp' h2
    subst htr
    refine ⟨?_, ?_, noCombine_append _ _ hc1 hc2⟩
    · rw [traceAdds_append, ha1, ha2]
      rfl
    · rw [traceRemoves_append, hr1, hr2]
      rfl

/-- A successful pollWait returns one of the polled responses. -/
theorem pollWait_ok_env (env : Nat → PLResp) (plId : String) (ts : List String)
    (msg : String) :
    ∀ (fuel k k2 : Nat) (tr : List PLEv) (b : PLResp),
      pollWait env plId ts msg fuel k = (k2, tr, .ok b) →
      ∃ j, k ≤ j ∧ j < k2 ∧ env j = b := by
  intro fuel
  induction fuel with
  | zero =>
    intro k k2 tr b h
    rw [pollWait] at h
    injection h with h1 h23
    injection h23 with h2 h3
    exact Except.noConfusion h3
  | succ fuel ih =>
    intro k k2 tr b h
    rw [pollWait_succ] at h
    by_cases hterm : (env k).state ∈ ts
    · rw [if_pos hterm] at h
      dsimp only [purePL] at h
      injection h with h1 h23
      injection h23 with h2 h3
      injection h3 with h4
      exact ⟨k, le_rfl, by omega, h4⟩
    · rw [if_neg hterm] at h
      match hrec : pollWait env plId ts msg fuel (k + 1) with
      | (k2', t2, r2) =>
        rw [hrec] at h
        dsimp only [] at h
        injection h with h1 h23
        injection h23 with h2 h3
        subst h1
        rw [h3] at hrec
        obtain ⟨j, hj1, hj2, hj3⟩ := ih (k + 1) k2' t2 b hrec
        exact ⟨j, by omega, hj2, hj3⟩

/-- What a successful resize phase did: one resize-only modify call
first, no entry payloads at all, and a modify-complete observation
before it returned; the returned version is the resize response's. -/
theorem resizePhase_spec (env : Nat → PLResp) (plName : String) (pl : PLInfo)
    (newMax k k2 : Nat) (tr : List PLEv) (v : Nat)
    (h : resizePhase env plName pl newMax k = (k2, tr, .ok v)) :
    traceAdds tr = [] ∧ traceRemoves tr = [] ∧ noCombine tr ∧
    tr.head? = some (.modifyPL pl.plId plName none (some newMax) [] []) ∧
    v = (env k).version ∧
    ∃ j, k ≤ j ∧ j < k2 ∧ (env j).state = "modify-complete" := by
  unfold resizePhase at h
  obtain ⟨k1, t1, a, t2, h1, h2, htr⟩ := plmbind_ok _ _ _ _ _ _ h
  have hk1 : k1 = k + 1 ∧ t1 = [PLEv.modifyPL pl.plId plName none (some newMax) [] []] ∧
      a = env k := by
    unfold callB at h1
    injection h1 with g1 g23
    injection g23 with g2 g3
    refine ⟨g1.symm, g2.symm, ?_⟩
    injection g3 with g4
    exact g4.symm
  obtain ⟨hk1, ht1, ha⟩ := hk1
  subst hk1 ht1 ha htr
  by_cases hc1 : (env k).state ∉ ["modify-in-progress", "modify-complete", "modify-failed"]
  · rw [if_pos hc1] at h2
    injection h2 with g1 g23
    injection g23 with g2 g3
    exact Except.noConfusion g3
  · rw [if_neg hc1] at h2
    by_cases hc2 : (env k).state = "modify-failed"
    · rw [if_pos hc2] at h2
      injection h2 with g1 g23
      injection g23 with g2 g3
      exact Except.noConfusion g3
    · rw [if_neg hc2] at h2
      by_cases hc3 : (env k).state = "modify-in-progress"
      · rw [if_pos hc3] at h2
        obtain ⟨k5, t5, w, t6, h5, h6, htr3⟩ := plmbind_ok _ _ _ _ _ _ h2
        have hw := pollWait_noModify env pl.plId ["modify-complete"] _ 5 (k + 1) k5 t5 _ h5
        obtain ⟨j, hj1, hj2, hj3⟩ := pollWait_ok_env env pl.plId _ _ 5 (k + 1) k5 t5 w h5
        injection h6 with g1 g23
        injection g23 with g2 g3
        injection g3 with g4
        subst htr3
        rw [← g2]
        simp only [List.append_nil]
        have hnm : noModify t5 := hw.1
        have hstate : w.state = "modify-complete" := by
          have := hw.2 w rfl
          simpa using this
        refine ⟨?_, ?_, ?_, rfl, g4.symm, ?_⟩
        · rw [traceAdds_append, traceAdds_of_noModify _ hnm]
          rfl
        · rw [traceRemoves_append, traceRemoves_of_noModify _ hnm]
          rfl
        · refine noCombine_append [PLEv.modifyPL pl.plId plName none (some newMax) [] []]
            t5 ?_ (noCombine_of_noModify _ hnm)
          intro e he me aa rr hm
          simp only [List.mem_singleton] at he
          subst he
          injection hm with hm2
          exact Or.inr ⟨(congrArg (fun t => t.2.1) hm2).symm, (congrArg (fun t => t.2.2) hm2).symm⟩
        · refine ⟨j, by omega, by omega, ?_⟩
          rw [hj3, hstate]
      · rw [if_neg hc3] at h2
        injection h2 with g1 g23
        injection g23 with g2 g3
        injection g3 with g4
        rw [← g2]
        have hcomplete : (env k).state = "modify-complete" := by
          simp only [List.mem_cons, List.not_mem_nil, or_false] at hc1
          push_neg at hc1
          tauto
        refine ⟨?_, ?_, ?_, rfl, g4.symm, ⟨k, le_rfl, by omega, hcomplete⟩⟩
        · rfl
        · rfl
        · intro e he me aa rr hm
          simp only [List.append_nil, List.mem_singleton] at he
          subst he
          injection hm with hm2
          exact Or.inr ⟨(congrArg (fun t => t.2.1) hm2).symm, (congrArg (fun t => t.2.2) hm2).symm⟩

/-! ### Batch coverage: the hundred-element chunks recover the list -/

theorem chunks_flatten (m : Nat) :
    ∀ l : List α, l.length ≤ m * 100 →
      ((List.range m).map (fun i => (l.drop (i * 100)).take 100)).flatten = l := by
  induction m with
  | zero =>
    intro l h
    have hl : l = [] := List.eq_nil_of_length_eq_zero (by omega)
    simp [hl]
  | succ m ih =>
    intro l h
    rw [List.range_succ_eq_map, List.map_cons, List.flatten_cons, List.map_map]
    have he : ((fun i => (l.drop (i * 100)).take 100) ∘ Nat.succ)
        = fun i => ((l.drop 100).drop (i * 100)).take 100 := by
      funext i
      simp only [Function.comp_apply, List.drop_drop]
      congr 2
      omega
    rw [he, ih (l.drop 100) (by simp only [List.length_drop]; omega)]
    simp

/-- The first hundred entries followed by the batches at the range100
indices cover the whole list. -/
theorem take_chunks_eq (l : List α) (stop : Nat) (hl : l.length ≤ stop) (hs : 1 ≤ stop) :
    l.take 100 ++ ((range100 stop).map (fun idx => (l.drop idx).take 100)).flatten = l := by
  obtain ⟨m', hmm⟩ : ∃ m', (stop + 99) / 100 = m' + 1 :=
    ⟨(stop + 99) / 100 - 1, by omega⟩
  have h2 := chunks_flatten (m' + 1) l (by omega)
  rw [List.range_succ_eq_map, List.map_cons, List.flatten_cons, List.map_map] at h2
  unfold range100
  rw [hmm, List.range_succ_eq_map, List.map_cons, List.drop_one, List.tail_cons, List.map_map,
    List.map_map]
  simp only [Nat.zero_mul, List.drop_zero] at h2
  exact h2

/-! ### The update paths of both resource kinds (C1, C7) -/

theorem mapM_toExc (f : α → Option β) (msg : String) :
    ∀ (l : List α) (res : List β), l.mapM f = some res →
      l.mapM (fun a => toExc (f a) msg) = .ok res := by
  intro l
  induction l with
  | nil =>
    intro res h
    simp only [List.mapM_nil, Option.pure_def, Option.some.injEq] at h
    subst h
    rfl
  | cons x xs ih =>
    intro res h
    rw [List.mapM_cons] at h ⊢
    cases hfx : f x with
    | none => rw [hfx] at h; simp at h
    | some y =>
      rw [hfx] at h
      cases hxs : xs.mapM f with
      | none => rw [hxs] at h; simp at h
      | some ys =>
        rw [hxs] at h
        simp at h
        subst h
        rw [ih ys hxs]
        rfl

theorem plm_pure_bind (a : α) (f : α → PLM β) (k : Nat) :
    ((purePL a : PLM α) >>= f) k = f a k := rfl

theorem plmbind_err (x : PLM α) (f : α → PLM β) (k k1 : Nat) (t1 : List PLEv) (e : String)
    (hx : x k = (k1, t1, .error e)) : (x >>= f) k = (k1, t1, .error e) := by
  rw [plm_bind_def, hx]

/-- update_waf_ipset as one equation: empty difference lists mean no
call and false, anything else means one update call carrying the whole
desired address list, then a tag call, and true. -/
theorem updateWafIpset_eq (current : List IpNet) (info : IpSetInfo)
    (ipsetName ipsetScope : String) (addressList : List String)
    (networkList : List IpNet)
    (hp : addressList.mapM parseIpNet = some networkList) :
    updateWafIpset current info ipsetName ipsetScope addressList =
      (if (networkList.filter (fun c => c ∉ current)).map renderIpNet = [] ∧
          (current.filter (fun c => c ∉ networkList)).map renderIpNet = []
       then .ok ([], false)
       else .ok ([.updateIpSet ipsetName ipsetScope info.setId addressList info.lockToken,
                  .tagIpSet info.arn], true)) := by
  unfold updateWafIpset
  rw [mapM_toExc parseIpNet "ValueError" addressList networkList hp]
  rfl

/-- update_prefix_list with empty difference lists: no backend call at
all and result false. -/
theorem updatePrefixList_noop (env : Nat → PLResp) (current : List IpNet)
    (plName : String) (pl : PLInfo) (addressList : List String)
    (networkList : List IpNet)
    (hp : addressList.mapM parseIpNet = some networkList)
    (hA : (networkList.filter (fun c => c ∉ current)).map renderIpNet = [])
    (hR : (current.filter (fun c => c ∉ networkList)).map renderIpNet = [])
    (k : Nat) :
    updatePrefixList env current plName pl addressList k = (k, [], .ok false) := by
  unfold updatePrefixList
  rw [hp]
  dsimp only []
  rw [plm_pure_bind]
  rw [if_pos ⟨hA, hR⟩]
  rfl

/-- The content phase of update_prefix_list: the first modify call and
the batch loop together transmit exactly the two difference lists, the
tag call adds nothing, no call combines a resize with entries, and the
trace starts with the first content modify. -/
theorem contentPhase_spec (env : Nat → PLResp) (A R : List String) (pl : PLInfo)
    (plName : String) (v kv k2 : Nat) (t5 : List PLEv) (b : Bool)
    (hnz : ¬(A = [] ∧ R = []))
    (h : (do
        let resp1 ← callB env (PLEv.modifyPL pl.plId plName (some v) none
          (A.take 100) (R.take 100))
        let _ ← updBatchLoop env A R (range100 (max A.length R.length)) resp1
        emitEv (PLEv.tagPL pl.plId)
        purePL true : PLM Bool) kv = (k2, t5, .ok b)) :
    b = true ∧ traceAdds t5 = A ∧ traceRemoves t5 = R ∧ noCombine t5 ∧
    ∃ trest, t5 = PLEv.modifyPL pl.plId plName (some v) none
      (A.take 100) (R.take 100) :: trest := by
  obtain ⟨kc, tc, resp1, t6, hc, h3, htr2⟩ := plmbind_ok _ _ _ _ _ _ h
  obtain ⟨hkc, htc, hresp⟩ : kc = kv + 1 ∧ tc = [PLEv.modifyPL pl.plId plName (some v) none
      (A.take 100) (R.take 100)] ∧ resp1 = env kv := by
    injection hc with g1 g23
    injection g23 with g2 g3
    injection g3 with g4
    exact ⟨g1.symm, g2.symm, g4.symm⟩
  obtain ⟨kl, tl, respL, t7, hl, h4, htr3⟩ := plmbind_ok _ _ _ _ _ _ h3
  obtain ⟨hla, hlr, hlc⟩ := updBatchLoop_spec env A R _ _ _ _ _ _ hl
  obtain ⟨kt, tg, u, t8, hg, h5, htr4⟩ := plmbind_ok _ _ _ _ _ _ h4
  obtain ⟨hkt, htg⟩ : kt = kl ∧ tg = [PLEv.tagPL pl.plId] := by
    injection hg with g1 g23
    injection g23 with g2 g3
    exact ⟨g1.symm, g2.symm⟩
  obtain ⟨ht8, hb⟩ : t8 = [] ∧ b = true := by
    injection h5 with g1 g23
    injection g23 with g2 g3
    injection g3 with g4
    exact ⟨g2.symm, g4.symm⟩
  subst htc htg ht8 hb htr2 htr3 htr4
  have hstop : 1 ≤ max A.length R.length := by
    rcases not_and_or.mp hnz with h' | h'
    · exact le_trans (List.length_pos.mpr h') (le_max_left _ _)
    · exact le_trans (List.length_pos.mpr h') (le_max_right _ _)
  have htag : traceAdds [PLEv.tagPL pl.plId] = [] := rfl
  have htagr : traceRemoves [PLEv.tagPL pl.plId] = [] := rfl
  have hnil : traceAdds ([] : List PLEv) = [] := rfl
  have hnilr : traceRemoves ([] : List PLEv) = [] := rfl
  refine ⟨rfl, ?_, ?_, ?_, ⟨tl ++ ([PLEv.tagPL pl.plId] ++ []), rfl⟩⟩
  · have h1 : traceAdds [PLEv.modifyPL pl.plId plName (some v) none
        (A.take 100) (R.take 100)] = A.take 100 := by
      simp [traceAdds, evModify?]
    rw [traceAdds_append, traceAdds_append, traceAdds_append, hla, htag, hnil, h1]
    simp only [List.append_nil]
    exact take_chunks_eq A _ (le_max_left _ _) hstop
  · have h1 : traceRemoves [PLEv.modifyPL pl.plId plName (some v) none
        (A.take 100) (R.take 100)] = R.take 100 := by
      simp [traceRemoves, evModify?]
    rw [traceRemoves_append, traceRemoves_append, traceRemoves_append, hlr, htagr, hnilr, h1]
    simp only [List.append_nil]
    exact take_chunks_eq R _ (le_max_right _ _) hstop
  · refine noCombine_append _ _ ?_ (noCombine_append _ _ hlc (noCombine_append _ _ ?_ ?_))
    · intro e he me aa rr hm
      simp only [List.mem_singleton] at he
      subst he
      injection hm with hm2
      exact Or.inl (congrArg (fun t => t.1) hm2).symm
    · intro e he me aa rr hm
      simp only [List.mem_singleton] at he
      subst he
      exact Option.noConfusion hm
    · intro e he me aa rr hm
      simp at he

/-- What a successful update_prefix_list run did when there is
something to change: the updated flag is true, the AddEntries payloads
concatenate to exactly the additions and likewise for removals, no call
combines a resize with entry changes, and when a resize is due the run
factors through the resize phase followed immediately by the first
content modify call. -/
theorem updatePrefixList_ok_inv (env : Nat → PLResp) (current : List IpNet)
    (plName : String) (pl : PLInfo) (addressList : List String)
    (networkList : List IpNet)
    (hp : addressList.mapM parseIpNet = some networkList)
    (hnoop : ¬((networkList.filter (fun c => c ∉ current)).map renderIpNet = [] ∧
      (current.filter (fun c => c ∉ networkList)).map renderIpNet = []))
    (k k2 : Nat) (tr : List PLEv) (b : Bool)
    (h : updatePrefixList env current plName pl addressList k = (k2, tr, .ok b)) :
    b = true ∧
    traceAdds tr = (networkList.filter (fun c => c ∉ current)).map renderIpNet ∧
    traceRemoves tr = (current.filter (fun c => c ∉ networkList)).map renderIpNet ∧
    noCombine tr ∧
    (((networkList.filter (fun c => c ∉ current)).map renderIpNet ≠ [] ∧
        pl.maxEntries < addressList.length) →
      ∃ k1 t1 v trest,
        resizePhase env plName pl addressList.length k = (k1, t1, .ok v) ∧
        tr = t1 ++ PLEv.modifyPL pl.plId plName (some v) none
          (((networkList.filter (fun c => c ∉ current)).map renderIpNet).take 100)
          (((current.filter (fun c => c ∉ networkList)).map renderIpNet).take 100) :: trest) := by
  unfold updatePrefixList at h
  rw [hp] at h
  dsimp only [] at h
  rw [plm_pure_bind] at h
  rw [if_neg hnoop] at h
  by_cases hrc : (networkList.filter (fun c => c ∉ current)).map renderIpNet ≠ [] ∧
      pl.maxEntries < addressList.length
  · rw [if_pos hrc] at h
    obtain ⟨kv, tv, v, t5, hv, h2, htr1⟩ := plmbind_ok _ _ _ _ _ _ h
    obtain ⟨hta, htrm, hnc1, _, _, _⟩ := resizePhase_spec env plName pl _ k kv tv v hv
    obtain ⟨hb, h5a, h5r, h5c, trest, h5t⟩ :=
      contentPhase_spec env _ _ pl plName v kv k2 t5 b hnoop h2
    subst htr1 h5t
    refine ⟨hb, ?_, ?_, noCombine_append _ _ hnc1 h5c, fun _ => ⟨kv, tv, v, trest, hv, rfl⟩⟩
    · rw [traceAdds_append, hta, h5a]
      rfl
    · rw [traceRemoves_append, htrm, h5r]
      rfl
  · rw [if_neg hrc] at h
    rw [plm_pure_bind] at h
    obtain ⟨hb, h5a, h5r, h5c, trest, h5t⟩ :=
      contentPhase_spec env _ _ pl plName pl.version k k2 tr b hnoop h
    exact ⟨hb, h5a, h5r, h5c, fun hcond => absurd hcond hrc⟩

/-- C1: for an existing resource both engines diff the current entries
against the desired list by parsed network value; an empty delta means
no backend call at all and an un-updated, un-created report (false / no
events); a non-empty delta makes the WAF update transmit the entire
desired address list in one replace-style call, while the prefix-list
update transmits exactly the to-add and to-remove difference lists. -/
theorem c1_delta_and_payload (env : Nat → PLResp) (current : List IpNet)
    (info : IpSetInfo) (ipsetName ipsetScope plName : String) (pl : PLInfo)
    (addressList : List String) (networkList : List IpNet)
    (hp : addressList.mapM parseIpNet = some networkList) :
    (((networkList.filter (fun c => c ∉ current)).map renderIpNet = [] ∧
        (current.filter (fun c => c ∉ networkList)).map renderIpNet = []) →
      updateWafIpset current info ipsetName ipsetScope addressList = .ok ([], false) ∧
      ∀ k, updatePrefixList env current plName pl addressList k = (k, [], .ok false)) ∧
    (¬((networkList.filter (fun c => c ∉ current)).map renderIpNet = [] ∧
        (current.filter (fun c => c ∉ networkList)).map renderIpNet = []) →
      updateWafIpset current info ipsetName ipsetScope addressList =
        .ok ([.updateIpSet ipsetName ipsetScope info.setId addressList info.lockToken,
              .tagIpSet info.arn], true) ∧
      ∀ k k2 tr b, updatePrefixList env current plName pl addressList k = (k2, tr, .ok b) →
        b = true ∧
        traceAdds tr = (networkList.filter (fun c => c ∉ current)).map renderIpNet ∧
        traceRemoves tr = (current.filter (fun c => c ∉ networkList)).map renderIpNet) := by
  constructor
  · rintro ⟨hA, hR⟩
    refine ⟨?_, fun k => updatePrefixList_noop env current plName pl addressList
      networkList hp hA hR k⟩
    rw [updateWafIpset_eq current info ipsetName ipsetScope addressList networkList hp,
      if_pos ⟨hA, hR⟩]
  · intro hnoop
    refine ⟨?_, ?_⟩
    · rw [updateWafIpset_eq current info ipsetName ipsetScope addressList networkList hp,
        if_neg hnoop]
    · intro k k2 tr b hcall
      obtain ⟨hb, ha, hr, _, _⟩ := updatePrefixList_ok_inv env current plName pl
        addressList networkList hp hnoop k k2 tr b hcall
      exact ⟨hb, ha, hr⟩

/-- C1 witness: a one-entry desired list already present makes both
engines no-ops; a desired list replacing the current entry makes the
WAF update carry the full list and the prefix-list update carry exactly
the difference lists. -/
theorem c1_delta_and_payload_witness :
    (["10.0.0.0/8"].mapM parseIpNet = some [⟨true, ⟨167772160, 8⟩⟩]) ∧
    updateWafIpset [⟨true, ⟨167772160, 8⟩⟩] ⟨"i", "t", "d", "a"⟩ "n" "REGIONAL"
      ["10.0.0.0/8"] = .ok ([], false) ∧
    updatePrefixList (fun _ => ⟨"modify-complete", 3, "pl-1", "n", ""⟩)
      [⟨true, ⟨167772160, 8⟩⟩] "n" ⟨"pl-1", 5, 7⟩ ["10.0.0.0/8"] 0 = (0, [], .ok false) ∧
    updateWafIpset [⟨true, ⟨167837696, 16⟩⟩] ⟨"i", "t", "d", "a"⟩ "n" "REGIONAL"
      ["10.0.0.0/8"] =
      .ok ([.updateIpSet "n" "REGIONAL" "i" ["10.0.0.0/8"] "t", .tagIpSet "a"], true) ∧
    (traceAdds [.modifyPL "pl-1" "n" (some 7) none ["10.0.0.0/8"] ["10.1.0.0/16"],
        .tagPL "pl-1"] = ["10.0.0.0/8"] ∧
      traceRemoves [.modifyPL "pl-1" "n" (some 7) none ["10.0.0.0/8"] ["10.1.0.0/16"],
        .tagPL "pl-1"] = ["10.1.0.0/16"]) :=
  ⟨rfl,
   ((c1_delta_and_payload (fun _ => ⟨"modify-complete", 3, "pl-1", "n", ""⟩)
      [⟨true, ⟨167772160, 8⟩⟩] ⟨"i", "t", "d", "a"⟩ "n" "REGIONAL" "n" ⟨"pl-1", 5, 7⟩
      ["10.0.0.0/8"] [⟨true, ⟨167772160, 8⟩⟩] rfl).1 ⟨rfl, rfl⟩).1,
   ((c1_delta_and_payload (fun _ => ⟨"modify-complete", 3, "pl-1", "n", ""⟩)
      [⟨true, ⟨167772160, 8⟩⟩] ⟨"i", "t", "d", "a"⟩ "n" "REGIONAL" "n" ⟨"pl-1", 5, 7⟩
      ["10.0.0.0/8"] [⟨true, ⟨167772160, 8⟩⟩] rfl).1 ⟨rfl, rfl⟩).2 0,
   ((c1_delta_and_payload (fun _ => ⟨"modify-complete", 3, "pl-1", "n", ""⟩)
      [⟨true, ⟨167837696, 16⟩⟩] ⟨"i", "t", "d", "a"⟩ "n" "REGIONAL" "n" ⟨"pl-1", 5, 7⟩
      ["10.0.0.0/8"] [⟨true, ⟨167772160, 8⟩⟩] rfl).2 (by decide)).1,
   (((c1_delta_and_payload (fun _ => ⟨"modify-complete", 3, "pl-1", "n", ""⟩)
      [⟨true, ⟨167837696, 16⟩⟩] ⟨"i", "t", "d", "a"⟩ "n" "REGIONAL" "n" ⟨"pl-1", 5, 7⟩
      ["10.0.0.0/8"] [⟨true, ⟨167772160, 8⟩⟩] rfl).2 (by decide)).2 0 1
      [.modifyPL "pl-1" "n" (some 7) none ["10.0.0.0/8"] ["10.1.0.0/16"], .tagPL "pl-1"]
      true rfl).2⟩

/-- C7 (amended): when the difference lists require additions and the
ceiling is below the desired count, a successful update issues one
resize-only modify first, observes modify-complete strictly before the
first content modify call that immediately follows the resize phase,
and never combines a resize with entry changes in one call. -/
theorem c7_resize_before_content (env : Nat → PLResp) (current : List IpNet)
    (plName : String) (pl : PLInfo) (addressList : List String)
    (networkList : List IpNet)
    (hp : addressList.mapM parseIpNet = some networkList)
    (hadd : (networkList.filter (fun c => c ∉ current)).map renderIpNet ≠ [])
    (hmax : pl.maxEntries < addressList.length)
    (k k2 : Nat) (tr : List PLEv) (b : Bool)
    (h : updatePrefixList env current plName pl addressList k = (k2, tr, .ok b)) :
    noCombine tr ∧
    ∃ k1 t1 v trest,
      tr = t1 ++ PLEv.modifyPL pl.plId plName (some v) none
        (((networkList.filter (fun c => c ∉ current)).map renderIpNet).take 100)
        (((current.filter (fun c => c ∉ networkList)).map renderIpNet).take 100) :: trest ∧
      t1.head? = some (.modifyPL pl.plId plName none (some addressList.length) [] []) ∧
      traceAdds t1 = [] ∧ traceRemoves t1 = [] ∧
      (∃ j, k ≤ j ∧ j < k1 ∧ (env j).state = "modify-complete") ∧
      resizePhase env plName pl addressList.length k = (k1, t1, .ok v) := by
  have hnoop : ¬((networkList.filter (fun c => c ∉ current)).map renderIpNet = [] ∧
      (current.filter (fun c => c ∉ networkList)).map renderIpNet = []) := by
    intro hcon
    exact hadd hcon.1
  obtain ⟨_, _, _, hnc, hfac⟩ := updatePrefixList_ok_inv env current plName pl
    addressList networkList hp hnoop k k2 tr b h
  obtain ⟨k1, t1, v, trest, hrz, htr⟩ := hfac ⟨hadd, hmax⟩
  obtain ⟨hta, htrm, _, hhead, _, j, hj1, hj2, hj3⟩ :=
    resizePhase_spec env plName pl addressList.length k k1 t1 v hrz
  exact ⟨hnc, k1, t1, v, trest, htr, hhead, hta, htrm, ⟨j, hj1, hj2, hj3⟩, hrz⟩

/-- C7 counterexample: the claim as stated fails when the ceiling is
below the desired count but the desired list (with duplicates) adds no
new entry: the code skips the resize entirely and issues the content
modify directly. -/
theorem c7_counterexample :
    (2 : Nat) < (["10.0.0.0/8", "10.0.0.0/8", "10.0.0.0/8"] : List String).length ∧
    updatePrefixList (fun _ => ⟨"modify-complete", 3, "pl-1", "n", ""⟩)
      [⟨true, ⟨167772160, 8⟩⟩, ⟨true, ⟨167837696, 16⟩⟩] "n" ⟨"pl-1", 2, 7⟩
      ["10.0.0.0/8", "10.0.0.0/8", "10.0.0.0/8"] 0 =
      (1, [.modifyPL "pl-1" "n" (some 7) none [] ["10.1.0.0/16"], .tagPL "pl-1"], .ok true) ∧
    (∀ e ∈ [PLEv.modifyPL "pl-1" "n" (some 7) none [] ["10.1.0.0/16"],
        PLEv.tagPL "pl-1"], ∀ me a r, evModify? e = some (me, a, r) → me = none) := by
  refine ⟨by decide, rfl, ?_⟩
  intro e he me a r hm
  rw [List.mem_cons] at he
  rcases he with rfl | he
  · injection hm with hm2
    exact (congrArg (fun t => t.1) hm2).symm
  · rw [List.mem_cons] at he
    rcases he with rfl | he
    · exact Option.noConfusion hm
    · simp at he

/-- C7 witness: a two-entry desired list over an empty current set with
ceiling 1 runs the resize first and the content modify right after it. -/
theorem c7_resize_before_content_witness :
    (["10.0.0.0/8", "10.1.0.0/16"].mapM parseIpNet =
      some [⟨true, ⟨167772160, 8⟩⟩, ⟨true, ⟨167837696, 16⟩⟩]) ∧
    (([⟨true, ⟨167772160, 8⟩⟩, ⟨true, ⟨167837696, 16⟩⟩].filter
        (fun c => c ∉ ([] : List IpNet))).map renderIpNet ≠ []) ∧
    ((⟨"pl-1", 1, 7⟩ : PLInfo).maxEntries <
      (["10.0.0.0/8", "10.1.0.0/16"] : List String).length) ∧
    (noCombine [.modifyPL "pl-1" "n" none (some 2) [] [], .modifyPL "pl-1" "n" (some 3) none
        ["10.0.0.0/8", "10.1.0.0/16"] [], .tagPL "pl-1"] ∧
      ∃ k1 t1 v trest,
        ([PLEv.modifyPL "pl-1" "n" none (some 2) [] [],
          PLEv.modifyPL "pl-1" "n" (some 3) none ["10.0.0.0/8", "10.1.0.0/16"] [],
          PLEv.tagPL "pl-1"] : List PLEv) = t1 ++ PLEv.modifyPL "pl-1" "n" (some v) none
            ((([⟨true, ⟨167772160, 8⟩⟩, ⟨true, ⟨167837696, 16⟩⟩].filter
              (fun c => c ∉ ([] : List IpNet))).map renderIpNet).take 100)
            (((([] : List IpNet).filter
              (fun c => c ∉ [(⟨true, ⟨167772160, 8⟩⟩ : IpNet), ⟨true, ⟨167837696, 16⟩⟩])).map
              renderIpNet).take 100) :: trest ∧
        t1.head? = some (.modifyPL "pl-1" "n" none (some 2) [] []) ∧
        traceAdds t1 = [] ∧ traceRemoves t1 = [] ∧
        (∃ j, 0 ≤ j ∧ j < k1 ∧
          ((fun (_ : Nat) => (⟨"modify-complete", 3, "pl-1", "n", ""⟩ : PLResp)) j).state =
            "modify-complete") ∧
        resizePhase (fun _ => ⟨"modify-complete", 3, "pl-1", "n", ""⟩) "n" ⟨"pl-1", 1, 7⟩ 2 0 =
          (k1, t1, .ok v)) :=
  ⟨rfl, by decide, by decide,
   c7_resize_before_content (fun _ => ⟨"modify-complete", 3, "pl-1", "n", ""⟩) []
     "n" ⟨"pl-1", 1, 7⟩ ["10.0.0.0/8", "10.1.0.0/16"]
     [⟨true, ⟨167772160, 8⟩⟩, ⟨true, ⟨167837696, 16⟩⟩] rfl (by decide) (by decide) 0 2
     [.modifyPL "pl-1" "n" none (some 2) [] [], .modifyPL "pl-1" "n" (some 3) none
       ["10.0.0.0/8", "10.1.0.0/16"] [], .tagPL "pl-1"] true rfl⟩

/-! ### The bounded wait schedule (C8) -/

/-- A poll loop that never observes a terminal state runs its full
budget and raises. -/
theorem pollWait_err_all (env : Nat → PLResp) (plId : String) (ts : List String)
    (msg : String) :
    ∀ (fuel k : Nat), fuel ≤ 5 →
      (∀ j, j < fuel → (env (k + j)).state ∉ ts) →
      pollWait env plId ts msg fuel k =
        (k + fuel, pollTrace plId (5 - fuel) fuel, .error msg) := by
  intro fuel
  induction fuel with
  | zero =>
    intro k _ _
    rfl
  | succ fuel ih =>
    intro k hf hstates
    have h0 : (env k).state ∉ ts := by
      have := hstates 0 (by omega)
      simpa using this
    rw [pollWait_succ, if_neg h0,
      ih (k + 1) (by omega) (fun j hj => by
        rw [show k + 1 + j = k + (j + 1) from by omega]
        exact hstates (j + 1) (by omega))]
    dsimp only []
    have e1 : k + 1 + fuel = k + (fuel + 1) := by omega
    have e2 : 5 - (fuel + 1) + 1 = 5 - fuel := by omega
    rw [pollTrace, e1, e2]

/-- A poll loop stops at the first terminal observation, having slept
once per round up to it. -/
theorem pollWait_stop_first (env : Nat → PLResp) (plId : String) (ts : List String)
    (msg : String) :
    ∀ (fuel m k : Nat), m < fuel → fuel ≤ 5 →
      (∀ j, j < m → (env (k + j)).state ∉ ts) → (env (k + m)).state ∈ ts →
      pollWait env plId ts msg fuel k =
        (k + m + 1, pollTrace plId (5 - fuel) (m + 1), .ok (env (k + m))) := by
  intro fuel
  induction fuel with
  | zero =>
    intro m k hm
    omega
  | succ fuel ih =>
    intro m k hm hf hpre hterm
    rw [pollWait_succ]
    cases m with
    | zero =>
      have h0 : (env k).state ∈ ts := by simpa using hterm
      rw [if_pos h0]
      rfl
    | succ m' =>
      have h0 : (env k).state ∉ ts := by
        have := hpre 0 (by omega)
        simpa using this
      rw [if_neg h0,
        ih m' (k + 1) (by omega) (by omega)
          (fun j hj => by
            rw [show k + 1 + j = k + (j + 1) from by omega]
            exact hpre (j + 1) (by omega))
          (by
            rw [show k + 1 + m' = k + (m' + 1) from by omega]
            exact hterm)]
      dsimp only []
      have e1 : k + 1 + m' = k + (m' + 1) := by omega
      have e2 : 5 - (fuel + 1) + 1 = 5 - fuel := by omega
      have e3 : pollTrace plId (5 - (fuel + 1)) (m' + 1 + 1) =
          PLEv.sleep ((5 - (fuel + 1)) + ((5 - (fuel + 1)) + 1)) :: PLEv.getPL plId ::
            pollTrace plId (5 - (fuel + 1) + 1) (m' + 1) := rfl
      rw [e3, e1, e2]

/-- The sleep durations of a poll trace: count + (count + 1) for each
round. -/
theorem traceSleeps_pollTrace (plId : String) :
    ∀ (f c : Nat), traceSleeps (pollTrace plId c f) =
      (List.range f).map (fun i => (c + i) + ((c + i) + 1)) := by
  intro f
  induction f with
  | zero => intro c; rfl
  | succ f ih =>
    intro c
    rw [pollTrace, List.range_succ_eq_map, List.map_cons]
    have h1 : traceSleeps (PLEv.sleep (c + (c + 1)) :: PLEv.getPL plId ::
        pollTrace plId (c + 1) f) =
        (c + (c + 1)) :: traceSleeps (pollTrace plId (c + 1) f) := by
      simp [traceSleeps]
    rw [h1, ih (c + 1), List.map_map]
    congr 1
    apply List.map_congr_left
    intro a _
    show ((c + 1) + a) + (((c + 1) + a) + 1) = (c + (a + 1)) + ((c + (a + 1)) + 1)
    omega

/-- An in-progress state with no completion in sight aborts the batch
step with the wait error. -/
theorem updBatchStep_stuck (env : Nat → PLResp) (A R : List String) (resp : PLResp)
    (idx k : Nat) (hip : resp.state = "modify-in-progress")
    (hns : ∀ j, j < 5 → (env (k + j)).state ≠ "modify-complete") :
    updBatchStep env A R resp idx k =
      (k + 5, pollTrace resp.plId 0 5, .error "cant wait anymore update") := by
  unfold updBatchStep
  rw [if_pos hip]
  exact plmbind_err _ _ _ _ _ _
    (pollWait_err_all env resp.plId ["modify-complete"] "cant wait anymore update" 5 k
      (by omega) (fun j hj => by
        simp only [List.mem_singleton]
        exact hns j hj))

/-- The abort propagates: the remaining batch iterations run nothing. -/
theorem updBatchLoop_stuck (env : Nat → PLResp) (A R : List String) (resp : PLResp)
    (idx : Nat) (idxs : List Nat) (k : Nat)
    (hip : resp.state = "modify-in-progress")
    (hns : ∀ j, j < 5 → (env (k + j)).state ≠ "modify-complete") :
    updBatchLoop env A R (idx :: idxs) resp k =
      (k + 5, pollTrace resp.plId 0 5, .error "cant wait anymore update") := by
  unfold updBatchLoop
  rw [List.foldlM_cons]
  exact plmbind_err _ _ _ _ _ _ (updBatchStep_stuck env A R resp idx k hip hns)

/-- Same for the create continuation loop. -/
theorem createBatchStep_stuck (env : Nat → PLResp) (entries : List String)
    (resp : PLResp) (idx k : Nat)
    (hip : resp.state = "create-in-progress" ∨ resp.state = "modify-in-progress")
    (hns : ∀ j, j < 5 → (env (k + j)).state ∉ ["create-complete", "modify-complete"]) :
    createBatchStep env entries resp idx k =
      (k + 5, pollTrace resp.plId 0 5, .error "cant wait anymore create") := by
  unfold createBatchStep
  rw [if_pos hip]
  exact plmbind_err _ _ _ _ _ _
    (pollWait_err_all env resp.plId ["create-complete", "modify-complete"]
      "cant wait anymore create" 5 k (by omega) hns)

/-- C8: the controller polls at most five times with the additive sleep
schedule 1, 3, 5, 7, 9, stops at the first terminal observation, and an
exhausted budget raises the wait error, aborting the resource's
remaining batch operations in both the update and the create loops. -/
theorem c8_poll_schedule (env : Nat → PLResp) (plId : String) (ts : List String)
    (msg : String) :
    (∀ k, (∀ j, j < 5 → (env (k + j)).state ∉ ts) →
      pollWait env plId ts msg 5 k = (k + 5, pollTrace plId 0 5, .error msg) ∧
      traceSleeps (pollTrace plId 0 5) = [1, 3, 5, 7, 9]) ∧
    (∀ k m, m < 5 → (∀ j, j < m → (env (k + j)).state ∉ ts) →
      (env (k + m)).state ∈ ts →
      pollWait env plId ts msg 5 k =
        (k + m + 1, pollTrace plId 0 (m + 1), .ok (env (k + m))) ∧
      traceSleeps (pollTrace plId 0 (m + 1)) =
        (List.range (m + 1)).map (fun c => c + (c + 1))) ∧
    (∀ (A R : List String) (resp : PLResp) (idx : Nat) (idxs : List Nat) (k : Nat),
      resp.state = "modify-in-progress" →
      (∀ j, j < 5 → (env (k + j)).state ≠ "modify-complete") →
      updBatchLoop env A R (idx :: idxs) resp k =
        (k + 5, pollTrace resp.plId 0 5, .error "cant wait anymore update")) ∧
    (∀ (entries : List String) (resp : PLResp) (idx k : Nat),
      (resp.state = "create-in-progress" ∨ resp.state = "modify-in-progress") →
      (∀ j, j < 5 → (env (k + j)).state ∉ ["create-complete", "modify-complete"]) →
      createBatchStep env entries resp idx k =
        (k + 5, pollTrace resp.plId 0 5, .error "cant wait anymore create")) := by
  refine ⟨?_, ?_, ?_, ?_⟩
  · intro k hk
    exact ⟨pollWait_err_all env plId ts msg 5 k (by omega) hk, rfl⟩
  · intro k m hm hpre hterm
    refine ⟨pollWait_stop_first env plId ts msg 5 m k hm (by omega) hpre hterm, ?_⟩
    rw [traceSleeps_pollTrace plId (m + 1) 0]
    apply List.map_congr_left
    intro a _
    show (0 + a) + ((0 + a) + 1) = a + (a + 1)
    omega
  · intro A R resp idx idxs k hip hns
    exact updBatchLoop_stuck env A R resp idx idxs k hip hns
  · intro entries resp idx k hip hns
    exact createBatchStep_stuck env entries resp idx k hip hns

/-- C8 witness: a never-completing backend exhausts the five-poll
budget with sleeps 1, 3, 5, 7, 9, aborting the batch loop; a backend
terminal on the third poll stops there. -/
theorem c8_poll_schedule_witness :
    (pollWait (fun _ => (⟨"modify-in-progress", 1, "p", "n", ""⟩ : PLResp)) "p"
        ["modify-complete"] "m" 5 0 = (5, pollTrace "p" 0 5, .error "m") ∧
      traceSleeps (pollTrace "p" 0 5) = [1, 3, 5, 7, 9]) ∧
    updBatchLoop (fun _ => (⟨"modify-in-progress", 1, "p", "n", ""⟩ : PLResp)) ["a"] []
        [100] ⟨"modify-in-progress", 1, "p", "n", ""⟩ 0 =
      (5, pollTrace "p" 0 5, .error "cant wait anymore update") ∧
    (pollWait (fun j => if j = 2 then (⟨"modify-complete", 1, "p", "n", ""⟩ : PLResp)
          else ⟨"modify-in-progress", 1, "p", "n", ""⟩) "p" ["modify-complete"] "m" 5 0 =
        (3, pollTrace "p" 0 3,
          .ok ((fun j => if j = 2 then (⟨"modify-complete", 1, "p", "n", ""⟩ : PLResp)
            else ⟨"modify-in-progress", 1, "p", "n", ""⟩) (0 + 2))) ∧
      traceSleeps (pollTrace "p" 0 3) = (List.range 3).map (fun c => c + (c + 1))) :=
  ⟨(c8_poll_schedule (fun _ => ⟨"modify-in-progress", 1, "p", "n", ""⟩) "p"
      ["modify-complete"] "m").1 0 (by intro j hj; decide),
   (c8_poll_schedule (fun _ => ⟨"modify-in-progress", 1, "p", "n", ""⟩) "p"
      ["modify-complete"] "m").2.2.1 ["a"] [] ⟨"modify-in-progress", 1, "p", "n", ""⟩
      100 [] 0 rfl (by intro j hj; decide),
   (c8_poll_schedule (fun j => if j = 2 then ⟨"modify-complete", 1, "p", "n", ""⟩
      else ⟨"modify-in-progress", 1, "p", "n", ""⟩) "p" ["modify-complete"] "m").2.1 0 2
      (by decide) (by intro j hj; interval_cases j <;> decide) (by decide)⟩

/-! ### Pagination (C9) -/

theorem listPagedLoop_flatten {β : Type} :
    ∀ (pages : List (List (String × β))) (acc : List (String × β)),
      listPagedLoop acc pages =
        pages.flatten.foldl (fun m it => mput m it.1 it.2) acc := by
  intro pages
  induction pages with
  | nil => intro acc; rfl
  | cons pg rest ih =>
    intro acc
    rw [listPagedLoop, ih, List.flatten_cons, List.foldl_append]

theorem mget?_foldl_mput_mono {β : Type} :
    ∀ (items : List (String × β)) (acc : List (String × β)) (k : String),
      (mget? acc k).isSome →
      (mget? (items.foldl (fun m it => mput m it.1 it.2) acc) k).isSome := by
  intro items
  induction items with
  | nil => intro acc k h; exact h
  | cons it rest ih =>
    intro acc k h
    rw [List.foldl_cons]
    exact ih _ k (mget?_mput_isSome _ _ _ _ h)

theorem mget?_foldl_mput {β : Type} :
    ∀ (items : List (String × β)) (acc : List (String × β)) (k : String) (v : β),
      (k, v) ∈ items →
      (mget? (items.foldl (fun m it => mput m it.1 it.2) acc) k).isSome := by
  intro items
  induction items with
  | nil => intro acc k v h; simp at h
  | cons it rest ih =>
    intro acc k v h
    rw [List.foldl_cons]
    rw [List.mem_cons] at h
    rcases h with rfl | h
    · show (mget? (List.foldl (fun m it => mput m it.1 it.2) (mput acc k v) rest) k).isSome
      exact mget?_foldl_mput_mono rest _ k (by rw [mget?_mput_self]; rfl)
    · exact ih _ k v h

theorem nput_self_mem (m : List (IpNet × String)) (k : IpNet) (v : String) :
    (k, v) ∈ nput m k v := by
  induction m with
  | nil => simp [nput]
  | cons e es ih =>
    rw [nput]
    by_cases he : e.1 = k
    · rw [if_pos he]
      exact List.mem_cons_self _ _
    · rw [if_neg he]
      exact List.mem_cons_of_mem _ ih

theorem nput_mem_mono (m : List (IpNet × String)) (k : IpNet) (v : String) (n : IpNet)
    (h : ∃ d, (n, d) ∈ m) : ∃ d, (n, d) ∈ nput m k v := by
  induction m with
  | nil =>
    obtain ⟨d, hd⟩ := h
    simp at hd
  | cons e es ih =>
    obtain ⟨d, hd⟩ := h
    rw [List.mem_cons] at hd
    rw [nput]
    by_cases he : e.1 = k
    · rw [if_pos he]
      rcases hd with rfl | hd
      · have hn : n = k := he
        exact ⟨v, by rw [hn]; exact List.mem_cons_self _ _⟩
      · exact ⟨d, List.mem_cons_of_mem _ hd⟩
    · rw [if_neg he]
      rcases hd with rfl | hd
      · exact ⟨d, List.mem_cons_self _ _⟩
      · obtain ⟨d', hd'⟩ := ih ⟨d, hd⟩
        exact ⟨d', List.mem_cons_of_mem _ hd'⟩

/-- The network-keyed dictionary folds of get_ip_set_entries and
get_prefix_list_entries: on success every element's parsed key made it
into the dictionary, and present keys are never dropped. -/
theorem foldlM_nput_keys {α : Type} (key cval : α → String) :
    ∀ (l : List α) (acc m : List (IpNet × String)),
      l.foldlM (fun acc2 e =>
        match parseIpNet (key e) with
        | none => Except.error "ValueError"
        | some n => Except.ok (nput acc2 n (cval e))) acc = .ok m →
      (∀ n, (∃ d, (n, d) ∈ acc) → ∃ d, (n, d) ∈ m) ∧
      (∀ e ∈ l, ∃ n, parseIpNet (key e) = some n ∧ ∃ d, (n, d) ∈ m) := by
  intro l
  induction l with
  | nil =>
    intro acc m h
    rw [List.foldlM_nil] at h
    have hacc : acc = m := by injection h
    subst hacc
    exact ⟨fun n hn => hn, fun e he => absurd he (List.not_mem_nil e)⟩
  | cons a rest ih =>
    intro acc m h
    rw [List.foldlM_cons] at h
    cases hp : parseIpNet (key a) with
    | none =>
      rw [hp] at h
      exact Except.noConfusion h
    | some n =>
      rw [hp] at h
      obtain ⟨hmono, hall⟩ := ih (nput acc n (cval a)) m h
      refine ⟨?_, ?_⟩
      · intro n' hn'
        exact hmono n' (nput_mem_mono acc n (cval a) n' hn')
      · intro e he
        rw [List.mem_cons] at he
        rcases he with rfl | he
        · exact ⟨n, hp, hmono n ⟨cval e, nput_self_mem acc n (cval e)⟩⟩
        · exact hall e he

/-- get_prefix_list_entries consumes every page: the loop over the page
list equals one pass over all entries of all pages. -/
theorem getPLEntriesLoop_flatten :
    ∀ (pages : List (List (String × Option String))) (acc : List (IpNet × String)),
      getPLEntriesLoop acc pages = plEntriesPage pages.flatten acc := by
  intro pages
  induction pages with
  | nil => intro acc; rfl
  | cons pg rest ih =>
    intro acc
    rw [getPLEntriesLoop, List.flatten_cons]
    unfold plEntriesPage
    rw [List.foldlM_append]
    exact bind_congr fun a => ih a

/-- C9: each listing follows every page before its snapshot is used:
both name-keyed listing loops equal one pass over all pages (so any
item on any page is present in the snapshot), the prefix-list entry
reader equals one pass over all entries of all pages (so on success
every entry of every page is keyed in the result), and the unpaginated
IPSet entry reader keys every address of the single response. -/
theorem c9_pagination :
    (∀ (pages : List (List (String × IpSetInfo))),
      listWafIpset pages = pages.flatten.foldl (fun m it => mput m it.1 it.2) [] ∧
      ∀ pg ∈ pages, ∀ it ∈ pg, (mget? (listWafIpset pages) it.1).isSome) ∧
    (∀ (pages : List (List (String × PLInfo))),
      listPrefixLists pages = pages.flatten.foldl (fun m it => mput m it.1 it.2) [] ∧
      ∀ pg ∈ pages, ∀ it ∈ pg, (mget? (listPrefixLists pages) it.1).isSome) ∧
    (∀ (pages : List (List (String × Option String))) (m : List (IpNet × String)),
      getPrefixListEntries pages = plEntriesPage pages.flatten [] ∧
      (getPrefixListEntries pages = .ok m →
        ∀ pg ∈ pages, ∀ e ∈ pg, ∃ n, parseIpNet e.1 = some n ∧ ∃ d, (n, d) ∈ m)) ∧
    (∀ (addresses : List String) (m : List (IpNet × String)),
      getIpSetEntries addresses = .ok m →
      ∀ s ∈ addresses, ∃ n, parseIpNet s = some n ∧ ∃ d, (n, d) ∈ m) := by
  refine ⟨?_, ?_, ?_, ?_⟩
  · intro pages
    refine ⟨listPagedLoop_flatten pages [], ?_⟩
    intro pg hpg it hit
    unfold listWafIpset
    rw [listPagedLoop_flatten pages []]
    exact mget?_foldl_mput pages.flatten [] it.1 it.2
      (List.mem_flatten.mpr ⟨pg, hpg, hit⟩)
  · intro pages
    refine ⟨listPagedLoop_flatten pages [], ?_⟩
    intro pg hpg it hit
    unfold listPrefixLists
    rw [listPagedLoop_flatten pages []]
    exact mget?_foldl_mput pages.flatten [] it.1 it.2
      (List.mem_flatten.mpr ⟨pg, hpg, hit⟩)
  · intro pages m
    refine ⟨getPLEntriesLoop_flatten pages [], ?_⟩
    intro h pg hpg e he
    unfold getPrefixListEntries at h
    rw [getPLEntriesLoop_flatten pages []] at h
    unfold plEntriesPage at h
    exact (foldlM_nput_keys Prod.fst (fun e2 => e2.2.getD "") pages.flatten [] m h).2 e
      (List.mem_flatten.mpr ⟨pg, hpg, he⟩)
  · intro addresses m h s hs
    unfold getIpSetEntries at h
    exact (foldlM_nput_keys (fun s => s) (fun s => s) addresses [] m h).2 s hs

/-- C9 witness: two-page listings are fully merged, the page-two item
is in each snapshot, and both entry readers key every entry. -/
theorem c9_pagination_witness :
    listWafIpset [[("a", ⟨"i1", "t1", "d1", "r1"⟩)], [("b", ⟨"i2", "t2", "d2", "r2"⟩)]] =
      [("a", ⟨"i1", "t1", "d1", "r1"⟩), ("b", ⟨"i2", "t2", "d2", "r2"⟩)] ∧
    (mget? (listWafIpset [[("a", ⟨"i1", "t1", "d1", "r1"⟩)],
      [("b", ⟨"i2", "t2", "d2", "r2"⟩)]]) "b").isSome ∧
    listPrefixLists [[("p", ⟨"pl-1", 5, 7⟩)], [("q", ⟨"pl-2", 6, 8⟩)]] =
      [("p", ⟨"pl-1", 5, 7⟩), ("q", ⟨"pl-2", 6, 8⟩)] ∧
    (mget? (listPrefixLists [[("p", ⟨"pl-1", 5, 7⟩)], [("q", ⟨"pl-2", 6, 8⟩)]]) "q").isSome ∧
    (∃ n, parseIpNet "10.1.0.0/16" = some n ∧
      ∃ d, (n, d) ∈ [((⟨true, ⟨167772160, 8⟩⟩ : IpNet), "d8"), (⟨true, ⟨167837696, 16⟩⟩, "")]) ∧
    (∃ n, parseIpNet "10.0.0.0/8" = some n ∧
      ∃ d, (n, d) ∈ [((⟨true, ⟨167772160, 8⟩⟩ : IpNet), "10.0.0.0/8")]) :=
  ⟨(c9_pagination.1 [[("a", ⟨"i1", "t1", "d1", "r1"⟩)], [("b", ⟨"i2", "t2", "d2", "r2"⟩)]]).1,
   (c9_pagination.1 [[("a", ⟨"i1", "t1", "d1", "r1"⟩)], [("b", ⟨"i2", "t2", "d2", "r2"⟩)]]).2
     [("b", ⟨"i2", "t2", "d2", "r2"⟩)] (by decide) ("b", ⟨"i2", "t2", "d2", "r2"⟩) (by decide),
   (c9_pagination.2.1 [[("p", ⟨"pl-1", 5, 7⟩)], [("q", ⟨"pl-2", 6, 8⟩)]]).1,
   (c9_pagination.2.1 [[("p", ⟨"pl-1", 5, 7⟩)], [("q", ⟨"pl-2", 6, 8⟩)]]).2
     [("q", ⟨"pl-2", 6, 8⟩)] (by decide) ("q", ⟨"pl-2", 6, 8⟩) (by decide),
   (c9_pagination.2.2.1 [[("10.0.0.0/8", some "d8")], [("10.1.0.0/16", none)]]
     [(⟨true, ⟨167772160, 8⟩⟩, "d8"), (⟨true, ⟨167837696, 16⟩⟩, "")]).2 rfl
     [("10.1.0.0/16", none)] (by decide) ("10.1.0.0/16", none) (by decide),
   c9_pagination.2.2.2 ["10.0.0.0/8"] [(⟨true, ⟨167772160, 8⟩⟩, "10.0.0.0/8")] rfl
     "10.0.0.0/8" (by decide)⟩

/-! ### Failure isolation in lambda_handler (C2) -/

theorem ex_ok_bind {α β : Type} (a : α) (f : α → Except String β) :
    (Except.ok a >>= f) = f a := rfl

/-- A failing per-service prefix-list body leaves the accumulator
untouched (the except path only logs). -/
theorem plStep_err (sr : RangeMap)
    (plB : Nat → CfgService → Except String (List String × List String))
    (acc : List String × List String) (p : Nat × CfgService) (e : String)
    (he : plB p.1 p.2 = .error e) : plStep sr plB acc p = acc := by
  unfold plStep
  by_cases h1 : (mget? sr p.2.name).isNone
  · rw [if_pos h1]
  · rw [if_neg h1]
    cases hplc : p.2.prefixListCfg with
    | none => rfl
    | some plc =>
      dsimp only []
      by_cases h2 : plc.enable = false
      · rw [if_pos h2]
      · rw [if_neg h2, he]

/-- Each prefix-list loop step either keeps the accumulator or appends
the body's created and updated names. -/
theorem plStep_shape (sr : RangeMap)
    (plB : Nat → CfgService → Except String (List String × List String))
    (acc : List String × List String) (p : Nat × CfgService) :
    plStep sr plB acc p = acc ∨
    ∃ cu, plB p.1 p.2 = .ok cu ∧ plStep sr plB acc p = (acc.1 ++ cu.1, acc.2 ++ cu.2) := by
  unfold plStep
  by_cases h1 : (mget? sr p.2.name).isNone
  · rw [if_pos h1]
    exact Or.inl rfl
  · rw [if_neg h1]
    cases hplc : p.2.prefixListCfg with
    | none => exact Or.inl rfl
    | some plc =>
      dsimp only []
      by_cases h2 : plc.enable = false
      · rw [if_pos h2]
        exact Or.inl rfl
      · rw [if_neg h2]
        cases hbody : plB p.1 p.2 with
        | ok cu => exact Or.inr ⟨cu, rfl, rfl⟩
        | error e => exact Or.inl rfl

/-- The scope loop of the WAF step only ever appends. -/
theorem wafScopeFold_mono
    (wafB : Nat → CfgService → String → Except String (List String × List String))
    (i : Nat) (svc : CfgService) :
    ∀ (scopes : List String) (acc : List String × List String),
      ∃ s : List String × List String,
        scopes.foldl (fun acc2 scope =>
          match wafB i svc scope with
          | .ok cu => (acc2.1 ++ cu.1, acc2.2 ++ cu.2)
          | .error _ => acc2) acc = (acc.1 ++ s.1, acc.2 ++ s.2) := by
  intro scopes
  induction scopes with
  | nil =>
    intro acc
    exact ⟨([], []), by simp⟩
  | cons sc rest ih =>
    intro acc
    rw [List.foldl_cons]
    cases hbody : wafB i svc sc with
    | ok cu =>
      dsimp only []
      obtain ⟨s, hs⟩ := ih (acc.1 ++ cu.1, acc.2 ++ cu.2)
      refine ⟨(cu.1 ++ s.1, cu.2 ++ s.2), ?_⟩
      rw [hs]
      simp [List.append_assoc]
    | error e =>
      dsimp only []
      exact ih acc

/-- A WAF body failing on every scope leaves the accumulator
untouched. -/
theorem wafStep_err (sr : RangeMap)
    (wafB : Nat → CfgService → String → Except String (List String × List String))
    (acc : List String × List String) (p : Nat × CfgService)
    (he : ∀ scope, ∃ e, wafB p.1 p.2 scope = .error e) :
    wafStep sr wafB acc p = acc := by
  unfold wafStep
  by_cases h1 : (mget? sr p.2.name).isNone
  · rw [if_pos h1]
  · rw [if_neg h1]
    cases hwc : p.2.wafIpSetCfg with
    | none => rfl
    | some wc =>
      dsimp only []
      by_cases h2 : wc.enable = false
      · rw [if_pos h2]
      · rw [if_neg h2]
        have hfold : ∀ (scopes : List String) (a : List String × List String),
            scopes.foldl (fun acc2 scope =>
              match wafB p.1 p.2 scope with
              | .ok cu => (acc2.1 ++ cu.1, acc2.2 ++ cu.2)
              | .error _ => acc2) a = a := by
          intro scopes
          induction scopes with
          | nil => intro a; rfl
          | cons sc rest ih =>
            intro a
            rw [List.foldl_cons]
            obtain ⟨e, hse⟩ := he sc
            rw [hse]
            exact ih a
        exact hfold wc.scopes acc

/-- Each WAF loop step only ever appends to the accumulator. -/
theorem wafStep_mono (sr : RangeMap)
    (wafB : Nat → CfgService → String → Except String (List String × List String))
    (acc : List String × List String) (p : Nat × CfgService) :
    ∃ s : List String × List String,
      wafStep sr wafB acc p = (acc.1 ++ s.1, acc.2 ++ s.2) := by
  unfold wafStep
  by_cases h1 : (mget? sr p.2.name).isNone
  · refine ⟨([], []), ?_⟩
    rw [if_pos h1]
    simp
  · rw [if_neg h1]
    cases hwc : p.2.wafIpSetCfg with
    | none => exact ⟨([], []), by simp⟩
    | some wc =>
      dsimp only []
      by_cases h2 : wc.enable = false
      · refine ⟨([], []), ?_⟩
        rw [if_pos h2]
        simp
      · rw [if_neg h2]
        exact wafScopeFold_mono wafB p.1 p.2 wc.scopes acc

/-- Folding append-or-keep steps from any accumulator only appends: the
run result keeps everything recorded before. -/
theorem foldl_append_mono {γ : Type}
    (f : (List String × List String) → γ → (List String × List String))
    (hf : ∀ acc p, ∃ d : List String × List String,
      f acc p = (acc.1 ++ d.1, acc.2 ++ d.2)) :
    ∀ (l : List γ) (acc : List String × List String),
      ∃ s : List String × List String,
        l.foldl f acc = (acc.1 ++ s.1, acc.2 ++ s.2) := by
  intro l
  induction l with
  | nil =>
    intro acc
    exact ⟨([], []), by simp⟩
  | cons p rest ih =>
    intro acc
    rw [List.foldl_cons]
    obtain ⟨d, hd⟩ := hf acc p
    rw [hd]
    obtain ⟨s, hs⟩ := ih (acc.1 ++ d.1, acc.2 ++ d.2)
    refine ⟨(d.1 ++ s.1, d.2 ++ s.2), ?_⟩
    rw [hs]
    simp [List.append_assoc]

/-- C2: a failure in outer setup (config, trigger message, feed,
extraction) aborts the run with that error; with the setup intact the
run always returns a result built from the two loops, a failing
prefix-list body or all-scopes-failing WAF body contributes nothing but
does not abort, and both loops only ever append, so everything recorded
before a failure stays in the result. -/
theorem c2_failure_isolation (cfgIn : Except String Config)
    (msgIn : Except String (String × String))
    (feedOf : String × String → Except String Feed)
    (plB : Nat → CfgService → Except String (List String × List String))
    (wafB : Nat → CfgService → String → Except String (List String × List String)) :
    (∀ e, cfgIn = .error e →
      lambdaHandler cfgIn msgIn feedOf plB wafB = .error e) ∧
    (∀ cfg e, cfgIn = .ok cfg → msgIn = .error e →
      lambdaHandler cfgIn msgIn feedOf plB wafB = .error e) ∧
    (∀ cfg m e, cfgIn = .ok cfg → msgIn = .ok m → feedOf m = .error e →
      lambdaHandler cfgIn msgIn feedOf plB wafB = .error e) ∧
    (∀ cfg m feed e, cfgIn = .ok cfg → msgIn = .ok m → feedOf m = .ok feed →
      getRangesForService feed cfg = .error e →
      lambdaHandler cfgIn msgIn feedOf plB wafB = .error e) ∧
    (∀ cfg m feed sr, cfgIn = .ok cfg → msgIn = .ok m → feedOf m = .ok feed →
      getRangesForService feed cfg = .ok sr →
      lambdaHandler cfgIn msgIn feedOf plB wafB =
        .ok ⟨(cfg.services.enum.foldl (plStep sr plB) ([], [])).1,
             (cfg.services.enum.foldl (plStep sr plB) ([], [])).2,
             (cfg.services.enum.foldl (wafStep sr wafB) ([], [])).1,
             (cfg.services.enum.foldl (wafStep sr wafB) ([], [])).2⟩) ∧
    (∀ sr acc p e, plB p.1 p.2 = .error e → plStep sr plB acc p = acc) ∧
    (∀ sr acc p, (∀ scope, ∃ e, wafB p.1 p.2 scope = .error e) →
      wafStep sr wafB acc p = acc) ∧
    (∀ sr (l : List (Nat × CfgService)) (acc : List String × List String),
      ∃ s : List String × List String,
        l.foldl (plStep sr plB) acc = (acc.1 ++ s.1, acc.2 ++ s.2)) ∧
    (∀ sr (l : List (Nat × CfgService)) (acc : List String × List String),
      ∃ s : List String × List String,
        l.foldl (wafStep sr wafB) acc = (acc.1 ++ s.1, acc.2 ++ s.2)) := by
  refine ⟨?_, ?_, ?_, ?_, ?_, ?_, ?_, ?_, ?_⟩
  · intro e he
    subst he
    rfl
  · intro cfg e hc hm
    subst hc hm
    rfl
  · intro cfg m e hc hm hf
    subst hc hm
    unfold lambdaHandler
    simp only [ex_ok_bind]
    rw [hf]
    rfl
  · intro cfg m feed e hc hm hf hr
    subst hc hm
    unfold lambdaHandler
    simp only [ex_ok_bind]
    rw [hf]
    simp only [ex_ok_bind]
    rw [hr]
    rfl
  · intro cfg m feed sr hc hm hf hr
    subst hc hm
    unfold lambdaHandler
    simp only [ex_ok_bind]
    rw [hf]
    simp only [ex_ok_bind]
    rw [hr]
    rfl
  · intro sr acc p e he
    exact plStep_err sr plB acc p e he
  · intro sr acc p he
    exact wafStep_err sr wafB acc p he
  · intro sr l acc
    refine foldl_append_mono (plStep sr plB) ?_ l acc
    intro a q
    rcases plStep_shape sr plB a q with h | ⟨cu, _, h⟩
    · exact ⟨([], []), by rw [h]; simp⟩
    · exact ⟨cu, h⟩
  · intro sr l acc
    exact foldl_append_mono (wafStep sr wafB) (fun a q => wafStep_mono sr wafB a q) l acc

/-- C2 witness: a failing config aborts with its error; with intact
setup, a service whose prefix-list body raises contributes nothing
while the next service's success is still reported. -/
theorem c2_failure_isolation_witness :
    lambdaHandler (.error "boom") (.ok ("u", "m")) (fun _ => .ok ⟨[], []⟩)
      (fun _ _ => .ok ([], [])) (fun _ _ _ => .ok ([], [])) = .error "boom" ∧
    lambdaHandler
      (.ok ⟨[⟨"S1", some [], some ⟨true, false, some 5⟩, none⟩,
             ⟨"S2", some [], some ⟨true, false, some 5⟩, none⟩]⟩)
      (.ok ("u", "m")) (fun _ => .ok ⟨[], []⟩)
      (fun _ svc => if svc.name = "S1" then .error "x" else .ok (["c2-pl"], []))
      (fun _ _ _ => .error "y") =
      .ok ⟨["c2-pl"], [], [], []⟩ ∧
    plStep [("S1", ⟨[], []⟩), ("S2", ⟨[], []⟩)]
      (fun _ svc => if svc.name = "S1" then .error "x" else .ok (["c2-pl"], []))
      ([], []) (0, ⟨"S1", some [], some ⟨true, false, some 5⟩, none⟩) = ([], []) :=
  ⟨(c2_failure_isolation (.error "boom") (.ok ("u", "m")) (fun _ => .ok ⟨[], []⟩)
      (fun _ _ => .ok ([], [])) (fun _ _ _ => .ok ([], []))).1 "boom" rfl,
   (c2_failure_isolation
      (.ok ⟨[⟨"S1", some [], some ⟨true, false, some 5⟩, none⟩,
             ⟨"S2", some [], some ⟨true, false, some 5⟩, none⟩]⟩)
      (.ok ("u", "m")) (fun _ => .ok ⟨[], []⟩)
      (fun _ svc => if svc.name = "S1" then .error "x" else .ok (["c2-pl"], []))
      (fun _ _ _ => .error "y")).2.2.2.2.1
      ⟨[⟨"S1", some [], some ⟨true, false, some 5⟩, none⟩,
        ⟨"S2", some [], some ⟨true, false, some 5⟩, none⟩]⟩
      ("u", "m") ⟨[], []⟩ [("S1", ⟨[], []⟩), ("S2", ⟨[], []⟩)] rfl rfl rfl rfl,
   (c2_failure_isolation
      (.ok ⟨[⟨"S1", some [], some ⟨true, false, some 5⟩, none⟩,
             ⟨"S2", some [], some ⟨true, false, some 5⟩, none⟩]⟩)
      (.ok ("u", "m")) (fun _ => .ok ⟨[], []⟩)
      (fun _ svc => if svc.name = "S1" then .error "x" else .ok (["c2-pl"], []))
      (fun _ _ _ => .error "y")).2.2.2.2.2.1
      [("S1", ⟨[], []⟩), ("S2", ⟨[], []⟩)] ([], [])
      (0, ⟨"S1", some [], some ⟨true, false, some 5⟩, none⟩) "x" rfl⟩

/-! ### Summarizer arithmetic (C5) -/

theorem aligned_base (s a x : Nat) (hs : 0 < s) (hal : a % s = 0)
    (h1 : a ≤ x) (h2 : x < a + s) : a = x - x % s := by
  have h3 : x % s = (x - a) % s := by
    conv_lhs => rw [show x = a + (x - a) from by omega]
    rw [Nat.add_mod, hal, Nat.zero_add, Nat.mod_mod_of_dvd (x - a) dvd_rfl]
  rw [h3, Nat.mod_eq_of_lt (by omega)]
  omega

theorem aligned_nest (w : Nat) (a b : Net) (ha : netValid w a) (hb : netValid w b)
    (hab : a.len ≤ b.len) (x : Nat) (hxa : netMem w a x) (hxb : netMem w b x) :
    a.addr ≤ b.addr ∧ b.addr + netSize w b ≤ a.addr + netSize w a := by
  obtain ⟨hla, hba, hma⟩ := ha
  obtain ⟨hlb, hbb, hmb⟩ := hb
  have hdvd : netSize w b ∣ netSize w a := Nat.pow_dvd_pow 2 (by omega)
  have hsa0 : 0 < netSize w a := Nat.pos_pow_of_pos _ (by omega)
  have hsb0 : 0 < netSize w b := Nat.pos_pow_of_pos _ (by omega)
  obtain ⟨hxa1, hxa2⟩ := hxa
  obtain ⟨hxb1, hxb2⟩ := hxb
  have hea : a.addr = x - x % netSize w a :=
    aligned_base (netSize w a) a.addr x hsa0 hma hxa1 hxa2
  have heb : b.addr = x - x % netSize w b :=
    aligned_base (netSize w b) b.addr x hsb0 hmb hxb1 hxb2
  have hmm : x % netSize w a % netSize w b = x % netSize w b := Nat.mod_mod_of_dvd x hdvd
  have hmle : x % netSize w b ≤ x % netSize w a := by
    rw [← hmm]
    exact Nat.mod_le _ _
  refine ⟨by omega, ?_⟩
  obtain ⟨c, hc⟩ := hdvd
  have hc0 : 0 < c := by
    rcases Nat.eq_zero_or_pos c with h | h
    · rw [h, Nat.mul_zero] at hc; omega
    · exact h
  have hra : x % netSize w a < netSize w a := Nat.mod_lt _ hsa0
  have hrb : x % netSize w b < netSize w b := Nat.mod_lt _ hsb0
  have h0 := Nat.div_add_mod (x % netSize w a) (netSize w b)
  rw [hmm] at h0
  have htlt : (x % netSize w a) / netSize w b < c := by
    by_contra hcon
    push_neg at hcon
    have h5 : netSize w b * c ≤ netSize w b * ((x % netSize w a) / netSize w b) :=
      Nat.mul_le_mul_left _ hcon
    omega
  have h3 : netSize w b * ((x % netSize w a) / netSize w b + 1) ≤ netSize w b * c :=
    Nat.mul_le_mul_left _ htlt
  have h4 : netSize w b * ((x % netSize w a) / netSize w b + 1)
      = netSize w b * ((x % netSize w a) / netSize w b) + netSize w b := by ring
  omega

theorem pow_eq_of_add_le (i j k : Nat) (hle : i ≤ j) (h : 2 ^ i + 2 ^ j = 2 ^ k) :
    i = j := by
  by_contra hne
  have hlt : i < j := by omega
  have h2 : 2 ^ i * (1 + 2 ^ (j - i)) = 2 ^ k := by
    rw [Nat.mul_add, Nat.mul_one, ← Nat.pow_add, show i + (j - i) = j from by omega]
    exact h
  have hik : i ≤ k := by
    by_contra hc
    push_neg at hc
    have h5 : (2:Nat) ^ k < 2 ^ i := Nat.pow_lt_pow_right (by omega) hc
    have h6 : (2:Nat) ^ i ≤ 2 ^ i * (1 + 2 ^ (j - i)) := by
      have hh : (1:Nat) ≤ 1 + 2 ^ (j - i) := Nat.le_add_right 1 _
      calc (2:Nat) ^ i = 2 ^ i * 1 := by ring
      _ ≤ 2 ^ i * (1 + 2 ^ (j - i)) := Nat.mul_le_mul_left _ hh
    omega
  have h7 : (1 + 2 ^ (j - i)) * 2 ^ i = 2 ^ (k - i) * 2 ^ i := by
    rw [← Nat.pow_add, show k - i + i = k from by omega, Nat.mul_comm]
    exact h2
  have h8 : 1 + 2 ^ (j - i) = 2 ^ (k - i) := by
    have hp : 0 < 2 ^ i := Nat.pos_pow_of_pos _ (by omega)
    exact Nat.eq_of_mul_eq_mul_right hp h7
  have hodd : (1 + 2 ^ (j - i)) % 2 = 1 := by
    obtain ⟨u, hu⟩ : (2:Nat) ∣ 2 ^ (j - i) := dvd_pow_self 2 (by omega)
    rw [hu, Nat.add_mul_mod_self_left]
  have hki : 0 < k - i := by
    by_contra hc
    push_neg at hc
    have hkie : k - i = 0 := by omega
    rw [hkie, Nat.pow_zero] at h8
    have hpos : (0:Nat) < 2 ^ (j - i) := Nat.pos_pow_of_pos _ (by omega)
    omega
  have heven : 2 ^ (k - i) % 2 = 0 := by
    obtain ⟨u, hu⟩ : (2:Nat) ∣ 2 ^ (k - i) := dvd_pow_self 2 (by omega)
    rw [hu, Nat.mul_mod_right]
  rw [h8] at hodd
  omega

theorem pow_add_pow_eq_pow (i j k : Nat) (h : 2 ^ i + 2 ^ j = 2 ^ k) :
    i = j ∧ k = i + 1 := by
  have hij : i = j := by
    rcases Nat.le_total i j with hle | hle
    · exact pow_eq_of_add_le i j k hle h
    · exact (pow_eq_of_add_le j i k hle (by omega)).symm
  subst hij
  refine ⟨rfl, ?_⟩
  have h2 : (2:Nat) ^ (i + 1) = 2 ^ k := by
    rw [Nat.pow_succ]
    omega
  exact (Nat.pow_right_injective (by omega) h2).symm

theorem netSize_pos (w : Nat) (n : Net) : 0 < netSize w n :=
  Nat.pos_pow_of_pos _ (by omega)

theorem mem_self_addr (w : Nat) (n : Net) : netMem w n n.addr :=
  ⟨le_rfl, by have := netSize_pos w n; omega⟩

theorem mod_two_mul (m x : Nat) (hm : 0 < m) (hx : x % m = 0) :
    x % (2 * m) = 0 ∨ x % (2 * m) = m := by
  have h1 : x % (2 * m) % m = x % m := Nat.mod_mod_of_dvd x ⟨2, by ring⟩
  have h2 : x % (2 * m) < 2 * m := Nat.mod_lt _ (by omega)
  obtain ⟨q, hq⟩ : m ∣ x % (2 * m) := Nat.dvd_of_mod_eq_zero (by omega)
  have hqlt : q < 2 := by
    by_contra hc
    push_neg at hc
    have hle : m * 2 ≤ m * q := Nat.mul_le_mul_left _ hc
    omega
  interval_cases q
  · left; omega
  · right; omega

theorem supernet_size (w : Nat) (n : Net) (hL : 1 ≤ n.len) (hw : n.len ≤ w) :
    netSize w (supernet w n) = 2 * netSize w n := by
  unfold supernet
  rw [if_neg (by omega)]
  unfold netSize
  show 2 ^ (w - (n.len - 1)) = 2 * 2 ^ (w - n.len)
  rw [show w - (n.len - 1) = (w - n.len) + 1 from by omega, Nat.pow_succ]
  ring

theorem supernet_mem (w : Nat) (n : Net) (hv : netValid w n) (x : Nat)
    (hx : netMem w n x) : netMem w (supernet w n) x := by
  by_cases h0 : n.len = 0
  · unfold supernet
    rw [if_pos h0]
    exact hx
  · obtain ⟨hw, hbound, halign⟩ := hv
    have hL : 1 ≤ n.len := by omega
    have hsz := supernet_size w n hL hw
    have hr : n.addr % (2 * netSize w n) = 0 ∨ n.addr % (2 * netSize w n) = netSize w n :=
      mod_two_mul (netSize w n) n.addr (netSize_pos w n) halign
    have haddr : (supernet w n).addr = n.addr - n.addr % (2 * netSize w n) := by
      unfold supernet
      rw [if_neg h0]
      show n.addr - n.addr % 2 ^ (w - (n.len - 1)) = _
      rw [show (2:Nat) ^ (w - (n.len - 1)) = 2 * netSize w n from by
        unfold netSize
        rw [show w - (n.len - 1) = (w - n.len) + 1 from by omega, Nat.pow_succ]
        ring]
    have hmodle : n.addr % (2 * netSize w n) ≤ n.addr := Nat.mod_le _ _
    obtain ⟨hx1, hx2⟩ := hx
    constructor
    · rw [haddr]
      omega
    · rw [haddr, hsz]
      omega

theorem supernet_valid (w : Nat) (n : Net) (hv : netValid w n) :
    netValid w (supernet w n) := by
  by_cases h0 : n.len = 0
  · unfold supernet
    rw [if_pos h0]
    exact hv
  · obtain ⟨hw, hbound, halign⟩ := hv
    have hL : 1 ≤ n.len := by omega
    have hsz := supernet_size w n hL hw
    have hlen : (supernet w n).len = n.len - 1 := by
      unfold supernet
      rw [if_neg h0]
    have haddr : (supernet w n).addr = n.addr - n.addr % (2 * netSize w n) := by
      unfold supernet
      rw [if_neg h0]
      show n.addr - n.addr % 2 ^ (w - (n.len - 1)) = _
      rw [show (2:Nat) ^ (w - (n.len - 1)) = 2 * netSize w n from by
        unfold netSize
        rw [show w - (n.len - 1) = (w - n.len) + 1 from by omega, Nat.pow_succ]
        ring]
    have hmodle : n.addr % (2 * netSize w n) ≤ n.addr := Nat.mod_le _ _
    have hr : n.addr % (2 * netSize w n) = 0 ∨ n.addr % (2 * netSize w n) = netSize w n :=
      mod_two_mul (netSize w n) n.addr (netSize_pos w n) halign
    refine ⟨by omega, ?_, ?_⟩
    · -- bound: supernet base + 2*size ≤ 2^w
      rw [haddr, hsz]
      have hdvd : (2 * netSize w n) ∣ 2 ^ w := by
        rw [show 2 * netSize w n = 2 ^ ((w - n.len) + 1) from by
          unfold netSize; rw [Nat.pow_succ]; ring]
        exact Nat.pow_dvd_pow 2 (by omega)
      have halign2 : (n.addr - n.addr % (2 * netSize w n)) % (2 * netSize w n) = 0 := by
        have hdm := Nat.mod_add_div n.addr (2 * netSize w n)
        have : n.addr - n.addr % (2 * netSize w n)
            = (2 * netSize w n) * (n.addr / (2 * netSize w n)) := by omega
        rw [this, Nat.mul_mod_right]
      obtain ⟨C, hC⟩ := hdvd
      obtain ⟨q, hq⟩ : (2 * netSize w n) ∣ (n.addr - n.addr % (2 * netSize w n)) :=
        Nat.dvd_of_mod_eq_zero halign2
      have hp0 : 0 < netSize w n := netSize_pos w n
      have hlt : (2 * netSize w n) * q < (2 * netSize w n) * C := by
        have hup : n.addr - n.addr % (2 * netSize w n) < 2 ^ w := by
          have h2w : 0 < 2 ^ w := Nat.pos_pow_of_pos _ (by omega)
          omega
        rw [← hq, ← hC]
        exact hup
      have hqC : q < C := by
        by_contra hc
        push_neg at hc
        have := Nat.mul_le_mul_left (2 * netSize w n) hc
        omega
      have : (2 * netSize w n) * (q + 1) ≤ (2 * netSize w n) * C :=
        Nat.mul_le_mul_left _ hqC
      have hmul : (2 * netSize w n) * (q + 1) = (2 * netSize w n) * q + 2 * netSize w n := by
        ring
      omega
    · -- alignment of the supernet base
      rw [haddr, hsz]
      have hdm := Nat.mod_add_div n.addr (2 * netSize w n)
      have heq : n.addr - n.addr % (2 * netSize w n)
          = (2 * netSize w n) * (n.addr / (2 * netSize w n)) := by omega
      rw [heq, Nat.mul_mod_right]

theorem supernet_parts (w : Nat) (n : Net) (h0 : n.len ≠ 0) (hw : n.len ≤ w) :
    (supernet w n).addr = n.addr - n.addr % (2 * netSize w n) ∧
    (supernet w n).len = n.len - 1 := by
  unfold supernet
  rw [if_neg h0]
  refine ⟨?_, rfl⟩
  show n.addr - n.addr % 2 ^ (w - (n.len - 1)) = _
  rw [show (2:Nat) ^ (w - (n.len - 1)) = 2 * netSize w n from by
    unfold netSize
    rw [show w - (n.len - 1) = (w - n.len) + 1 from by omega, Nat.pow_succ]
    ring]

theorem children_union (w : Nat) (a b : Net) (ha : netValid w a) (hb : netValid w b)
    (hne : a ≠ b) (hsup : supernet w a = supernet w b) :
    ∀ x, netMem w (supernet w a) x ↔ (netMem w a x ∨ netMem w b x) := by
  intro x
  constructor
  · intro hx
    by_cases ha0 : a.len = 0
    · left
      have : supernet w a = a := by unfold supernet; rw [if_pos ha0]
      rw [this] at hx
      exact hx
    · by_cases hb0 : b.len = 0
      · right
        have : supernet w b = b := by unfold supernet; rw [if_pos hb0]
        rw [hsup, this] at hx
        exact hx
      · -- both proper: the two distinct children of the common supernet
        obtain ⟨hwa, hba, hma⟩ := ha
        obtain ⟨hwb, hbb, hmb⟩ := hb
        obtain ⟨hpa, hla⟩ := supernet_parts w a ha0 hwa
        obtain ⟨hpb, hlb⟩ := supernet_parts w b hb0 hwb
        have hlen : a.len = b.len := by
          have h1 : (supernet w a).len = (supernet w b).len := by rw [hsup]
          rw [hla, hlb] at h1
          omega
        have hsz : netSize w a = netSize w b := by
          unfold netSize
          rw [hlen]
        have hra := mod_two_mul (netSize w a) a.addr (netSize_pos w a) hma
        have hrb := mod_two_mul (netSize w b) b.addr (netSize_pos w b) hmb
        have hmla : a.addr % (2 * netSize w a) ≤ a.addr := Nat.mod_le _ _
        have hmlb : b.addr % (2 * netSize w b) ≤ b.addr := Nat.mod_le _ _
        have haddr_s : (supernet w a).addr = (supernet w b).addr := by rw [hsup]
        rw [hpa, hpb] at haddr_s
        have hane : a.addr ≠ b.addr := by
          intro hcon
          apply hne
          cases a
          cases b
          simp only at hcon hlen
          simp [hcon, hlen]
        have hspos := netSize_pos w a
        have hsupsz : netSize w (supernet w a) = 2 * netSize w a :=
          supernet_size w a (by omega) hwa
        obtain ⟨hx1, hx2⟩ := hx
        rw [hpa] at hx1
        rw [hpa, hsupsz] at hx2
        rw [← hsz] at hrb hmlb haddr_s
        -- a.addr and b.addr are the two distinct multiples-of-size in the parent
        rcases hra with hA | hA <;> rcases hrb with hB | hB
        · exfalso; omega
        · -- a low, b high
          by_cases hcase : x < a.addr - a.addr % (2 * netSize w a) + netSize w a
          · left; constructor <;> omega
          · right; constructor <;> omega
        · -- a high, b low
          by_cases hcase : x < a.addr - a.addr % (2 * netSize w a) + netSize w a
          · right; constructor <;> omega
          · left; constructor <;> omega
        · exfalso; omega
  · intro hx
    rcases hx with hx | hx
    · exact supernet_mem w a ha x hx
    · rw [hsup]
      exact supernet_mem w b hb x hx

theorem merge_core (w : Nat) (a b : Net) (ha : netValid w a) (hb : netValid w b)
    (hd : disjointNets w a b) (p : Net) (hp : netValid w p)
    (hmem : ∀ x, netMem w p x ↔ netMem w a x ∨ netMem w b x)
    (hstart : netMem w a p.addr) : supernet w a = supernet w b := by
  obtain ⟨hwa, hba, hma⟩ := ha
  obtain ⟨hwb, hbb, hmb⟩ := hb
  obtain ⟨hwp, hbp, hmp⟩ := hp
  have hsa0 := netSize_pos w a
  have hsb0 := netSize_pos w b
  have hsp0 := netSize_pos w p
  -- a ⊆ p, b ⊆ p
  have hsub_a : ∀ y, netMem w a y → netMem w p y := fun y hy => (hmem y).mpr (Or.inl hy)
  have hsub_b : ∀ y, netMem w b y → netMem w p y := fun y hy => (hmem y).mpr (Or.inr hy)
  have haA := hsub_a a.addr (mem_self_addr w a)
  have hbB := hsub_b b.addr (mem_self_addr w b)
  -- a starts at p.addr
  have haddr : a.addr = p.addr := by
    obtain ⟨h1, _⟩ := hstart
    obtain ⟨h2, _⟩ := haA
    omega
  -- b does not meet a
  have hbna : ¬ netMem w b b.addr ∨ ¬ netMem w a b.addr := by
    by_cases hc : netMem w a b.addr
    · exact Or.inl (fun hcc => hd b.addr ⟨hc, hcc⟩)
    · exact Or.inr hc
  have hbnota : ¬ netMem w a b.addr := by
    rcases hbna with h | h
    · exact absurd (mem_self_addr w b) h
    · exact h
  -- sa < sp
  have hsasp : netSize w a < netSize w p := by
    by_contra hc
    push_neg at hc
    apply hd b.addr
    refine ⟨?_, mem_self_addr w b⟩
    obtain ⟨h1, h2⟩ := hbB
    constructor
    · omega
    · omega
  -- the first point past a lies in b
  have hnext : netMem w b (p.addr + netSize w a) := by
    have hmemp : netMem w p (p.addr + netSize w a) := ⟨by omega, by omega⟩
    rcases (hmem _).mp hmemp with h | h
    · exfalso
      obtain ⟨h1, h2⟩ := h
      omega
    · exact h
  -- b starts exactly there
  have hbaddr : b.addr = p.addr + netSize w a := by
    obtain ⟨h1, h2⟩ := hnext
    obtain ⟨h3, _⟩ := hbB
    have hging : a.addr + netSize w a ≤ b.addr := by
      rcases Nat.lt_or_ge b.addr (a.addr + netSize w a) with hlt | hge
      · exact absurd ⟨by omega, hlt⟩ hbnota
      · exact hge
    omega
  -- sizes add up
  have hsum : netSize w p = netSize w a + netSize w b := by
    have hle1 : netSize w a + netSize w b ≤ netSize w p := by
      have hlastb : netMem w p (b.addr + netSize w b - 1) :=
        hsub_b _ ⟨by omega, by omega⟩
      obtain ⟨_, h2⟩ := hlastb
      omega
    have hle2 : netSize w p ≤ netSize w a + netSize w b := by
      have hlastp : netMem w p (p.addr + netSize w p - 1) := ⟨by omega, by omega⟩
      rcases (hmem _).mp hlastp with h | h
      · obtain ⟨_, h2⟩ := h
        omega
      · obtain ⟨_, h2⟩ := h
        omega
    omega
  -- power-of-two bookkeeping: equal sizes, parent one bit shorter
  have hpow : (w - a.len) = (w - b.len) ∧ (w - p.len) = (w - a.len) + 1 := by
    apply pow_add_pow_eq_pow
    unfold netSize at hsum
    omega
  have hlen : a.len = b.len := by omega
  have hL : 1 ≤ a.len := by
    by_contra hc
    push_neg at hc
    have h1 : a.len = 0 := by omega
    have h2 : w - p.len = w + 1 := by omega
    omega
  have hplen : p.len = a.len - 1 := by omega
  have hsz : netSize w b = netSize w a := by
    unfold netSize
    rw [hlen]
  have hsp2 : netSize w p = 2 * netSize w a := by omega
  -- compute both supernets
  obtain ⟨hpa, hla⟩ := supernet_parts w a (by omega) hwa
  obtain ⟨hpb, hlb⟩ := supernet_parts w b (by omega) hwb
  have hmoda : a.addr % (2 * netSize w a) = 0 := by
    rw [haddr, ← hsp2]
    exact hmp
  have hmodb : b.addr % (2 * netSize w b) = netSize w a := by
    rw [hsz, hbaddr, ← hsp2]
    conv_lhs => rw [show p.addr + netSize w a
      = netSize w a + netSize w p * (p.addr / netSize w p) from by
        have := Nat.mod_add_div p.addr (netSize w p)
        omega]
    rw [Nat.add_mul_mod_self_left]
    exact Nat.mod_eq_of_lt (by omega)
  cases hsupa : supernet w a
  cases hsupb : supernet w b
  rw [hsupa] at hpa hla
  rw [hsupb] at hpb hlb
  simp only at hpa hla hpb hlb
  simp only [Net.mk.injEq]
  constructor
  · rw [hpa, hpb, hmoda, hmodb, haddr, hbaddr]
    omega
  · omega

theorem not_mergeable (w : Nat) (a b : Net) (ha : netValid w a) (hb : netValid w b)
    (hd : disjointNets w a b) (hns : supernet w a ≠ supernet w b) :
    ¬ mergeableNets w a b := by
  rintro ⟨p, hp, hmem⟩
  rcases (hmem p.addr).mp (mem_self_addr w p) with h | h
  · exact hns (merge_core w a b ha hb hd p hp hmem h)
  · refine hns (merge_core w b a hb ha (fun x hx => hd x ⟨hx.2, hx.1⟩) p hp
      (fun x => by rw [hmem x]; tauto) h).symm

theorem crzAux_le : ∀ (fuel n : Nat), crzAux fuel n ≤ fuel := by
  intro fuel
  induction fuel with
  | zero => intro n; rw [crzAux]
  | succ fuel ih =>
    intro n
    rw [crzAux]
    by_cases h : n % 2 = 0
    · rw [if_pos h]
      have := ih (n / 2)
      omega
    · rw [if_neg h]
      omega

theorem crzAux_dvd : ∀ (fuel n : Nat), 2 ^ crzAux fuel n ∣ n := by
  intro fuel
  induction fuel with
  | zero => intro n; rw [crzAux]; simp
  | succ fuel ih =>
    intro n
    rw [crzAux]
    by_cases h : n % 2 = 0
    · rw [if_pos h]
      rw [Nat.pow_succ]
      have h3 : (2:Nat) ^ crzAux fuel (n / 2) * 2 ∣ (n / 2) * 2 :=
        mul_dvd_mul_right (ih (n / 2)) 2
      have h4 : n / 2 * 2 = n := by omega
      rw [h4] at h3
      exact h3
    · rw [if_neg h]
      simp

theorem crz_le (w n : Nat) : crz w n ≤ w := by
  unfold crz
  by_cases h : n = 0
  · rw [if_pos h]
  · rw [if_neg h]
    exact crzAux_le w n

theorem crz_dvd (w n : Nat) : 2 ^ crz w n ∣ n := by
  unfold crz
  by_cases h : n = 0
  · rw [if_pos h]
    exact Dvd.intro 0 (by omega)
  · rw [if_neg h]
    exact crzAux_dvd w n

theorem sar_union (w : Nat) (f l : Nat) :
    ∀ x, (∃ n ∈ sar w f l, netMem w n x) ↔ (f ≤ x ∧ x ≤ l) := by
  induction f, l using sar.induct w with
  | case1 f l h nbits ih =>
    intro x
    rw [sar, dif_pos h]
    have hnw : nbits ≤ w := le_trans (min_le_left _ _) (crz_le w f)
    have hsz : netSize w ⟨f, w - nbits⟩ = 2 ^ nbits := by
      show 2 ^ (w - (w - nbits)) = 2 ^ nbits
      congr 1
      omega
    have hfit : f + 2 ^ nbits ≤ l + 1 := by
      have h1 : 2 ^ nbits ≤ 2 ^ Nat.log2 (l - f + 1) :=
        Nat.pow_le_pow_right (by omega) (min_le_right _ _)
      have h2 : 2 ^ Nat.log2 (l - f + 1) ≤ l - f + 1 :=
        Nat.log2_self_le (by omega)
      omega
    have hpos : 0 < 2 ^ nbits := Nat.pos_pow_of_pos _ (by omega)
    simp only [List.mem_cons, exists_eq_or_imp]
    rw [ih x]
    rw [show netMem w ⟨f, w - nbits⟩ x ↔ (f ≤ x ∧ x < f + 2 ^ nbits) from by
      unfold netMem
      rw [hsz]]
    omega
  | case2 f l h =>
    intro x
    rw [sar, dif_neg h]
    simp only [List.not_mem_nil, false_and, exists_false, false_iff]
    omega

theorem sar_valid (w : Nat) (f l : Nat) :
    l < 2 ^ w → ∀ n ∈ sar w f l, netValid w n := by
  induction f, l using sar.induct w with
  | case1 f l h nbits ih =>
    intro hl n hn
    rw [sar, dif_pos h] at hn
    rw [List.mem_cons] at hn
    rcases hn with rfl | hn
    · have hnw : nbits ≤ w := le_trans (min_le_left _ _) (crz_le w f)
      have hsz : netSize w ⟨f, w - nbits⟩ = 2 ^ nbits := by
        show 2 ^ (w - (w - nbits)) = 2 ^ nbits
        congr 1
        omega
      have hfit : f + 2 ^ nbits ≤ l + 1 := by
        have h1 : 2 ^ nbits ≤ 2 ^ Nat.log2 (l - f + 1) :=
          Nat.pow_le_pow_right (by omega) (min_le_right _ _)
        have h2 : 2 ^ Nat.log2 (l - f + 1) ≤ l - f + 1 :=
          Nat.log2_self_le (by omega)
        omega
      refine ⟨show w - nbits ≤ w from by omega, ?_, ?_⟩
      · rw [hsz]
        show f + 2 ^ nbits ≤ 2 ^ w
        omega
      · rw [hsz]
        show f % 2 ^ nbits = 0
        have hpos : 0 < 2 ^ nbits := Nat.pos_pow_of_pos _ (by omega)
        have hdvd : 2 ^ nbits ∣ f :=
          dvd_trans (Nat.pow_dvd_pow 2 (min_le_left _ _)) (crz_dvd w f)
        obtain ⟨c, hc⟩ := hdvd
        rw [hc, Nat.mul_mod_right]
    · exact ih hl n hn
  | case2 f l h =>
    intro hl n hn
    rw [sar, dif_neg h] at hn
    simp at hn
theorem runsGo_fst_le_snd : ∀ (rest : List Nat) (first current : Nat), first ≤ current →
    ∀ r ∈ runsGo first current rest, r.1 ≤ r.2 := by
  intro rest
  induction rest with
  | nil =>
    intro first current hfc r hr
    rw [runsGo, List.mem_singleton] at hr
    subst hr
    exact hfc
  | cons b rest ih =>
    intro first current hfc r hr
    rw [runsGo] at hr
    by_cases hb : b = current + 1
    · rw [if_pos hb] at hr
      exact ih first b (by omega) r hr
    · rw [if_neg hb] at hr
      rw [List.mem_cons] at hr
      rcases hr with rfl | hr
      · exact hfc
      · exact ih b b le_rfl r hr

theorem runsGo_mem (x : Nat) : ∀ (rest : List Nat) (first current : Nat),
    first ≤ current → List.Chain (· < ·) current rest →
    ((∃ r ∈ runsGo first current rest, r.1 ≤ x ∧ x ≤ r.2) ↔
      (first ≤ x ∧ x ≤ current) ∨ x ∈ rest) := by
  intro rest
  induction rest with
  | nil =>
    intro first current hfc hch
    rw [runsGo]
    constructor
    · rintro ⟨r, hr, h1, h2⟩
      rw [List.mem_singleton] at hr
      subst hr
      exact Or.inl ⟨h1, h2⟩
    · rintro (⟨h1, h2⟩ | h)
      · exact ⟨(first, current), by simp, h1, h2⟩
      · simp at h
  | cons b rest ih =>
    intro first current hfc hch
    rw [List.chain_cons] at hch
    obtain ⟨hcb, hch2⟩ := hch
    rw [runsGo]
    by_cases hb : b = current + 1
    · rw [if_pos hb]
      rw [ih first b (by omega) hch2, List.mem_cons]
      constructor
      · rintro (⟨h1, h2⟩ | h)
        · rcases Nat.lt_or_ge x b with hxb | hxb
          · exact Or.inl ⟨h1, by omega⟩
          · exact Or.inr (Or.inl (by omega))
        · exact Or.inr (Or.inr h)
      · rintro (⟨h1, h2⟩ | h | h)
        · exact Or.inl ⟨h1, by omega⟩
        · exact Or.inl ⟨by omega, by omega⟩
        · exact Or.inr h
    · rw [if_neg hb]
      constructor
      · rintro ⟨r, hr, h1, h2⟩
        rw [List.mem_cons] at hr
        rcases hr with rfl | hr
        · exact Or.inl ⟨h1, h2⟩
        · rcases (ih b b le_rfl hch2).mp ⟨r, hr, h1, h2⟩ with ⟨h3, h4⟩ | h3
          · exact Or.inr (by rw [List.mem_cons]; exact Or.inl (by omega))
          · exact Or.inr (by rw [List.mem_cons]; exact Or.inr h3)
      · rintro (⟨h1, h2⟩ | h)
        · exact ⟨(first, current), by rw [List.mem_cons]; exact Or.inl rfl, h1, h2⟩
        · rw [List.mem_cons] at h
          have hx : (b ≤ x ∧ x ≤ b) ∨ x ∈ rest := by
            rcases h with rfl | h
            · exact Or.inl ⟨le_rfl, le_rfl⟩
            · exact Or.inr h
          obtain ⟨r, hr, h1, h2⟩ := (ih b b le_rfl hch2).mpr hx
          exact ⟨r, by rw [List.mem_cons]; exact Or.inr hr, h1, h2⟩

theorem findRuns_mem (l : List Nat) (hsort : l.Sorted (· < ·)) (x : Nat) :
    (∃ r ∈ findRuns l, r.1 ≤ x ∧ x ≤ r.2) ↔ x ∈ l := by
  cases l with
  | nil =>
    rw [findRuns]
    simp
  | cons a rest =>
    rw [findRuns]
    have hch : List.Chain (· < ·) a rest := List.chain_iff_pairwise.mpr hsort
    rw [runsGo_mem x rest a a le_rfl hch, List.mem_cons]
    constructor
    · rintro (⟨h1, h2⟩ | h)
      · exact Or.inl (by omega)
      · exact Or.inr h
    · rintro (rfl | h)
      · exact Or.inl ⟨le_rfl, le_rfl⟩
      · exact Or.inr h

theorem findRuns_fst_le_snd (l : List Nat) : ∀ r ∈ findRuns l, r.1 ≤ r.2 := by
  cases l with
  | nil => intro r hr; rw [findRuns] at hr; simp at hr
  | cons a rest =>
    intro r hr
    rw [findRuns] at hr
    exact runsGo_fst_le_snd rest a a le_rfl r hr

theorem findRuns_snd_mem (l : List Nat) (hsort : l.Sorted (· < ·)) :
    ∀ r ∈ findRuns l, r.2 ∈ l := by
  intro r hr
  exact (findRuns_mem l hsort r.2).mp ⟨r, hr, findRuns_fst_le_snd l r hr, le_rfl⟩

theorem insNat_mem (x : Nat) : ∀ (l : List Nat) (y : Nat), y ∈ insNat x l ↔ y = x ∨ y ∈ l := by
  intro l
  induction l with
  | nil =>
    intro y
    rw [insNat]
    simp
  | cons z zs ih =>
    intro y
    rw [insNat]
    by_cases h1 : x < z
    · rw [if_pos h1, List.mem_cons, List.mem_cons]
    · rw [if_neg h1]
      by_cases h2 : x = z
      · rw [if_pos h2, List.mem_cons]
        subst h2
        tauto
      · rw [if_neg h2, List.mem_cons, List.mem_cons, ih y]
        tauto

theorem insNat_sorted (x : Nat) : ∀ (l : List Nat),
    l.Sorted (· < ·) → (insNat x l).Sorted (· < ·) := by
  intro l
  induction l with
  | nil =>
    intro _
    rw [insNat]
    simp
  | cons z zs ih =>
    intro hs
    rw [List.sorted_cons] at hs
    obtain ⟨hz, hzs⟩ := hs
    rw [insNat]
    by_cases h1 : x < z
    · rw [if_pos h1, List.sorted_cons]
      refine ⟨?_, by rw [List.sorted_cons]; exact ⟨hz, hzs⟩⟩
      intro b hb
      rw [List.mem_cons] at hb
      rcases hb with rfl | hb
      · exact h1
      · exact lt_trans h1 (hz b hb)
    · rw [if_neg h1]
      by_cases h2 : x = z
      · rw [if_pos h2, List.sorted_cons]
        exact ⟨hz, hzs⟩
      · rw [if_neg h2, List.sorted_cons]
        refine ⟨?_, ih hzs⟩
        intro b hb
        rw [insNat_mem x zs b] at hb
        rcases hb with rfl | hb
        · omega
        · exact hz b hb

theorem sortedSet_sorted (l : List Nat) : (sortedSet l).Sorted (· < ·) := by
  unfold sortedSet
  induction l with
  | nil => simp
  | cons a rest ih =>
    rw [List.foldr_cons]
    exact insNat_sorted a _ ih

theorem sortedSet_mem (l : List Nat) (y : Nat) : y ∈ sortedSet l ↔ y ∈ l := by
  unfold sortedSet
  induction l with
  | nil => simp
  | cons a rest ih =>
    rw [List.foldr_cons, insNat_mem, ih, List.mem_cons]

/-! ### The collapse loop (C5) -/

theorem inUnion_nil (w : Nat) (x : Nat) : ¬ inUnion w [] x := by
  rintro ⟨n, hn, _⟩
  simp at hn

theorem inUnion_cons (w : Nat) (n : Net) (l : List Net) (x : Nat) :
    inUnion w (n :: l) x ↔ netMem w n x ∨ inUnion w l x := by
  unfold inUnion
  simp [List.mem_cons, or_and_right, exists_or]

theorem inUnion_perm (w : Nat) (l1 l2 : List Net) (hp : l1.Perm l2) (x : Nat) :
    inUnion w l1 x ↔ inUnion w l2 x := by
  unfold inUnion
  constructor
  · rintro ⟨n, hn, hx⟩
    exact ⟨n, hp.mem_iff.mp hn, hx⟩
  · rintro ⟨n, hn, hx⟩
    exact ⟨n, hp.mem_iff.mpr hn, hx⟩

theorem inUnion_reverse (w : Nat) (l : List Net) (x : Nat) :
    inUnion w l.reverse x ↔ inUnion w l x :=
  inUnion_perm w l.reverse l (List.reverse_perm l) x

theorem inUnion_append (w : Nat) (l1 l2 : List Net) (x : Nat) :
    inUnion w (l1 ++ l2) x ↔ inUnion w l1 x ∨ inUnion w l2 x := by
  unfold inUnion
  simp [List.mem_append, or_and_right, exists_or]

theorem mem_inUnion (w : Nat) (n : Net) (l : List Net) (x : Nat)
    (hn : n ∈ l) (hx : netMem w n x) : inUnion w l x := ⟨n, hn, hx⟩

theorem alookup_mem (k v : Net) : ∀ d, alookup k d = some v → (k, v) ∈ d := by
  intro d
  induction d with
  | nil =>
    intro h
    rw [alookup] at h
    exact Option.noConfusion h
  | cons e es ih =>
    intro h
    rw [alookup] at h
    by_cases he : e.1 = k
    · rw [if_pos he] at h
      injection h with h2
      rw [List.mem_cons]
      exact Or.inl (Prod.ext he h2).symm
    · rw [if_neg he] at h
      exact List.mem_cons_of_mem _ (ih h)

theorem alookup_none (k : Net) : ∀ d, alookup k d = none → ∀ e ∈ d, e.1 ≠ k := by
  intro d
  induction d with
  | nil =>
    intro _ e he
    simp at he
  | cons e es ih =>
    intro h f hf
    rw [alookup] at h
    by_cases he : e.1 = k
    · rw [if_pos he] at h
      exact Option.noConfusion h
    · rw [if_neg he] at h
      rw [List.mem_cons] at hf
      rcases hf with rfl | hf
      · exact he
      · exact ih h f hf

theorem aerase_sub (k : Net) (d : List (Net × Net)) : ∀ e ∈ aerase k d, e ∈ d :=
  fun e he => (List.mem_filter.mp he).1

theorem aerase_keys_nodup (k : Net) (d : List (Net × Net))
    (h : (d.map (fun e => e.1)).Nodup) : ((aerase k d).map (fun e => e.1)).Nodup :=
  List.Nodup.sublist (List.Sublist.map _ (List.filter_sublist d)) h

theorem aerase_of_absent (k : Net) : ∀ (d : List (Net × Net)),
    (∀ e ∈ d, e.1 ≠ k) → aerase k d = d := by
  intro d
  induction d with
  | nil => intro _; rfl
  | cons e es ih =>
    intro h
    unfold aerase
    rw [List.filter_cons_of_pos (by simp [h e (by simp)])]
    have := ih (fun f hf => h f (List.mem_cons_of_mem _ hf))
    unfold aerase at this
    rw [this]

theorem aerase_perm (k v : Net) : ∀ d, (d.map (fun e => e.1)).Nodup →
    alookup k d = some v → d.Perm ((k, v) :: aerase k d) := by
  intro d
  induction d with
  | nil =>
    intro _ h
    rw [alookup] at h
    exact Option.noConfusion h
  | cons e es ih =>
    intro hnd h
    rw [alookup] at h
    rw [List.map_cons, List.nodup_cons] at hnd
    obtain ⟨hk1, hk2⟩ := hnd
    by_cases he : e.1 = k
    · rw [if_pos he] at h
      injection h with h2
      have hev : e = (k, v) := Prod.ext he h2
      subst hev
      have habs : aerase k es = es := by
        apply aerase_of_absent
        intro f hf hfk
        exact hk1 (List.mem_map.mpr ⟨f, hf, hfk⟩)
      unfold aerase
      rw [List.filter_cons_of_neg (by simp [he])]
      have habs2 : List.filter (fun e => decide (e.1 ≠ k)) es = es := habs
      rw [habs2]
    · rw [if_neg he] at h
      have hperm := ih hk2 h
      unfold aerase
      rw [List.filter_cons_of_pos (by simp [he])]
      refine List.Perm.trans (List.Perm.cons e hperm) ?_
      exact List.Perm.swap _ _ _

theorem collapseLoop_cons_none (w : Nat) (net : Net) (rest : List Net)
    (d : List (Net × Net)) (h : alookup (supernet w net) d = none) :
    collapseLoop w (net :: rest) d = collapseLoop w rest ((supernet w net, net) :: d) := by
  rw [collapseLoop]
  split
  · rfl
  · rename_i existing h2
    rw [h] at h2
    exact Option.noConfusion h2

theorem collapseLoop_cons_found (w : Nat) (net : Net) (rest : List Net)
    (d : List (Net × Net)) (existing : Net)
    (h : alookup (supernet w net) d = some existing) :
    collapseLoop w (net :: rest) d =
      (if existing = net then collapseLoop w rest d
       else collapseLoop w (supernet w net :: rest) (aerase (supernet w net) d)) := by
  rw [collapseLoop]
  split
  · rename_i h2
    rw [h] at h2
    exact Option.noConfusion h2
  · rename_i ex h2
    rw [h] at h2
    injection h2 with h3
    rw [h3]

theorem collapseLoop_props (w : Nat) : ∀ (tm : List Net) (d : List (Net × Net)),
    (∀ n ∈ tm, netValid w n) →
    (∀ e ∈ d, netValid w e.2 ∧ e.1 = supernet w e.2) →
    ((d.map (fun e => e.1)).Nodup) →
    (∀ e ∈ collapseLoop w tm d, netValid w e.2 ∧ e.1 = supernet w e.2) ∧
    ((collapseLoop w tm d).map (fun e => e.1)).Nodup ∧
    (∀ x, inUnion w ((collapseLoop w tm d).map (fun e => e.2)) x ↔
      inUnion w tm x ∨ inUnion w (d.map (fun e => e.2)) x) := by
  intro tm d
  induction tm, d using collapseLoop.induct w with
  | case1 d =>
    intro _ hd hnd
    rw [collapseLoop]
    refine ⟨hd, hnd, fun x => ?_⟩
    have := inUnion_nil w x
    tauto
  | case2 net rest d h ih =>
    intro htm hd hnd
    rw [collapseLoop_cons_none w net rest d h]
    have hnet : netValid w net := htm net (by simp)
    have hd2 : ∀ e ∈ ((supernet w net, net) :: d), netValid w e.2 ∧ e.1 = supernet w e.2 := by
      intro e he
      rw [List.mem_cons] at he
      rcases he with rfl | he
      · exact ⟨hnet, rfl⟩
      · exact hd e he
    have hnd2 : (((supernet w net, net) :: d).map (fun e => e.1)).Nodup := by
      rw [List.map_cons, List.nodup_cons]
      refine ⟨?_, hnd⟩
      intro hmem
      obtain ⟨e, he, hek⟩ := List.mem_map.mp hmem
      exact alookup_none (supernet w net) d h e he hek
    obtain ⟨p1, p2, p3⟩ := ih (fun n hn => htm n (List.mem_cons_of_mem _ hn)) hd2 hnd2
    refine ⟨p1, p2, fun x => ?_⟩
    rw [p3 x, List.map_cons, inUnion_cons, inUnion_cons]
    tauto
  | case3 rest d existing h ih =>
    intro htm hd hnd
    rw [collapseLoop_cons_found w existing rest d existing h, if_pos rfl]
    obtain ⟨p1, p2, p3⟩ := ih (fun n hn => htm n (List.mem_cons_of_mem _ hn)) hd hnd
    refine ⟨p1, p2, fun x => ?_⟩
    rw [p3 x, inUnion_cons]
    have hmem : existing ∈ d.map (fun e => e.2) :=
      List.mem_map.mpr ⟨(supernet w existing, existing), alookup_mem _ _ d h, rfl⟩
    constructor
    · tauto
    · rintro ((hx | hx) | hx)
      · exact Or.inr (mem_inUnion w existing _ x hmem hx)
      · exact Or.inl hx
      · exact Or.inr hx
  | case4 net rest d existing h hne ih =>
    intro htm hd hnd
    rw [collapseLoop_cons_found w net rest d existing h, if_neg hne]
    have hnet : netValid w net := htm net (by simp)
    have hentry : (supernet w net, existing) ∈ d := alookup_mem _ _ d h
    obtain ⟨hexv, hlink⟩ := hd _ hentry
    have hsup : supernet w net = supernet w existing := hlink
    have htm2 : ∀ n ∈ (supernet w net :: rest), netValid w n := by
      intro n hn
      rw [List.mem_cons] at hn
      rcases hn with rfl | hn
      · exact supernet_valid w net hnet
      · exact htm n (List.mem_cons_of_mem _ hn)
    have hd2 : ∀ e ∈ aerase (supernet w net) d, netValid w e.2 ∧ e.1 = supernet w e.2 :=
      fun e he => hd e (aerase_sub _ d e he)
    obtain ⟨p1, p2, p3⟩ := ih htm2 hd2 (aerase_keys_nodup _ d hnd)
    refine ⟨p1, p2, fun x => ?_⟩
    rw [p3 x, inUnion_cons, inUnion_cons]
    have hperm := aerase_perm (supernet w net) existing d hnd h
    have hpv := inUnion_perm w _ _ (List.Perm.map (fun e => e.2) hperm) x
    rw [List.map_cons] at hpv
    rw [hpv, inUnion_cons]
    have hcu := children_union w net existing hnet hexv
      (fun hcon => hne (hcon.symm)) hsup x
    constructor
    · rintro ((hs | hr) | ha)
      · rcases (hcu.mp hs) with hx | hx
        · exact Or.inl (Or.inl hx)
        · exact Or.inr (Or.inl hx)
      · exact Or.inl (Or.inr hr)
      · exact Or.inr (Or.inr ha)
    · rintro ((hx | hr) | hx | ha)
      · exact Or.inl (Or.inl (hcu.mpr (Or.inl hx)))
      · exact Or.inl (Or.inr hr)
      · exact Or.inl (Or.inl (hcu.mpr (Or.inr hx)))
      · exact Or.inr ha

/-! ### Parsed networks are well-formed (C5) -/

theorem option_failure_eq {α : Type} : (failure : Option α) = none := rfl

theorem charLe_toNat {a b : Char} (h : a ≤ b) : a.toNat ≤ b.toNat := by
  have h2 := Char.le_def.mp h
  rw [UInt32.le_def] at h2
  exact BitVec.le_def.mp h2

theorem digitVal_le (c : Char) (h : isDigitCh c = true) : digitVal c ≤ 9 := by
  unfold isDigitCh at h
  simp only [Bool.and_eq_true, decide_eq_true_eq] at h
  have h1 := charLe_toNat h.1
  have h2 := charLe_toNat h.2
  have e1 : ('0').toNat = 48 := by decide
  have e2 : ('9').toNat = 57 := by decide
  unfold digitVal
  omega

theorem hexVal_lt (c : Char) (h : isHexCh c = true) : hexVal c < 16 := by
  unfold isHexCh at h
  simp only [Bool.or_eq_true, Bool.and_eq_true, decide_eq_true_eq] at h
  unfold hexVal
  by_cases hd : isDigitCh c = true
  · rw [if_pos hd]
    have := digitVal_le c hd
    omega
  · rw [if_neg hd]
    rcases h with (h | h) | h
    · exact absurd h hd
    · rw [if_pos (by simp only [Bool.and_eq_true, decide_eq_true_eq]; exact h)]
      have h1 := charLe_toNat h.1
      have h2 := charLe_toNat h.2
      have e1 : ('a').toNat = 97 := by decide
      have e2 : ('f').toNat = 102 := by decide
      omega
    · have h1 := charLe_toNat h.1
      have h2 := charLe_toNat h.2
      have eA : ('A').toNat = 65 := by decide
      have eF : ('F').toNat = 70 := by decide
      rw [if_neg (by
        simp only [Bool.and_eq_true, decide_eq_true_eq]
        rintro ⟨ha, _⟩
        have := charLe_toNat ha
        have e : ('a').toNat = 97 := by decide
        omega)]
      omega

theorem foldl_mul_add_lt {α : Type} (B : Nat) (hB : 0 < B) (g : α → Nat) :
    ∀ (l : List α) (init k : Nat), init < B ^ k → (∀ x ∈ l, g x < B) →
      l.foldl (fun a x => a * B + g x) init < B ^ (k + l.length) := by
  intro l
  induction l with
  | nil =>
    intro init k hinit _
    simpa using hinit
  | cons x xs ih =>
    intro init k hinit hdig
    rw [List.foldl_cons]
    have hx : g x < B := hdig x (by simp)
    have hstep : init * B + g x < B ^ (k + 1) := by
      have h1 : init + 1 ≤ B ^ k := hinit
      have h2 := Nat.mul_le_mul_right B h1
      have h3 : B ^ (k + 1) = B ^ k * B := by rw [Nat.pow_succ]
      have h4 : (init + 1) * B = init * B + B := by ring
      omega
    have := ih (init * B + g x) (k + 1) hstep (fun y hy => hdig y (by simp [hy]))
    have he : k + 1 + xs.length = k + (xs.length + 1) := by omega
    rw [he] at this
    simpa using this

theorem parseHextet_lt (l : List Char) (v : Nat) (h : parseHextet l = some v) : v < 2 ^ 16 := by
  unfold parseHextet at h
  split at h
  · rename_i hcond
    injection h with h2
    simp only [Bool.and_eq_true, decide_eq_true_eq] at hcond
    obtain ⟨⟨hne, hall⟩, hlen⟩ := hcond
    subst h2
    unfold hexListVal
    have hb := foldl_mul_add_lt 16 (by omega) hexVal l 0 0 (by omega)
      (fun c hc => hexVal_lt c (by
        rw [List.all_eq_true] at hall
        exact hall c hc))
    have : (16:Nat) ^ (0 + l.length) ≤ 16 ^ 4 := Nat.pow_le_pow_right (by omega) (by omega)
    calc hexListVal l < 16 ^ (0 + l.length) := hb
    _ ≤ 16 ^ 4 := this
    _ ≤ 2 ^ 16 := by norm_num
  · exact Option.noConfusion h

theorem mapM_hextet_bounds : ∀ (ps : List (List Char)) (vs : List Nat),
    ps.mapM parseHextet = some vs → (∀ x ∈ vs, x < 2 ^ 16) ∧ vs.length = ps.length := by
  intro ps
  induction ps with
  | nil =>
    intro vs h
    simp only [List.mapM_nil, Option.pure_def, Option.some.injEq] at h
    subst h
    simp
  | cons p ps ih =>
    intro vs h
    rw [List.mapM_cons] at h
    cases hp : parseHextet p with
    | none => rw [hp] at h; simp at h
    | some y =>
      rw [hp] at h
      cases hps : ps.mapM parseHextet with
      | none => rw [hps] at h; simp at h
      | some ys =>
        rw [hps] at h
        simp only [Option.pure_def, Option.bind_eq_bind, Option.some_bind,
          Option.some.injEq] at h
        subst h
        obtain ⟨ih1, ih2⟩ := ih ys hps
        refine ⟨?_, by simp [ih2]⟩
        intro x hx
        rw [List.mem_cons] at hx
        rcases hx with rfl | hx
        · exact parseHextet_lt p x hp
        · exact ih1 x hx

theorem v6fold_bound (parts : List (List Char)) (hi lo skipped : Nat)
    (hsum : hi + lo + skipped ≤ 8) (hiVals loVals : List Nat)
    (hhi : (parts.take hi).mapM parseHextet = some hiVals)
    (hlo : (parts.drop (parts.length - lo)).mapM parseHextet = some loVals) :
    loVals.foldl (fun a v => a * 2 ^ 16 + v)
      (hiVals.foldl (fun a v => a * 2 ^ 16 + v) 0 * 2 ^ (16 * skipped)) < 2 ^ 128 := by
  obtain ⟨hib, hilen⟩ := mapM_hextet_bounds _ hiVals hhi
  obtain ⟨lob, lolen⟩ := mapM_hextet_bounds _ loVals hlo
  have hhl : hiVals.length ≤ hi := by
    rw [hilen, List.length_take]
    omega
  have hll : loVals.length ≤ lo := by
    rw [lolen, List.length_drop]
    omega
  have hfi : hiVals.foldl (fun a v => a * 2 ^ 16 + v) 0 < (2 ^ 16) ^ (0 + hiVals.length) :=
    foldl_mul_add_lt (2 ^ 16) (by norm_num) (fun v => v) hiVals 0 0 (by norm_num) hib
  have hinit : hiVals.foldl (fun a v => a * 2 ^ 16 + v) 0 * 2 ^ (16 * skipped) <
      (2 ^ 16) ^ (hiVals.length + skipped) := by
    have hsk : (0:Nat) < 2 ^ (16 * skipped) := Nat.pos_pow_of_pos _ (by omega)
    have h1 : hiVals.foldl (fun a v => a * 2 ^ 16 + v) 0 + 1 ≤ (2 ^ 16) ^ hiVals.length := by
      have := hfi
      simpa using this
    have h2 := Nat.mul_le_mul_right (2 ^ (16 * skipped)) h1
    have h3 : ((2:Nat) ^ 16) ^ hiVals.length * 2 ^ (16 * skipped) =
        (2 ^ 16) ^ (hiVals.length + skipped) := by
      rw [pow_add]
      congr 1
      rw [← pow_mul]
    have h4 : (hiVals.foldl (fun a v => a * 2 ^ 16 + v) 0 + 1) * 2 ^ (16 * skipped) =
        hiVals.foldl (fun a v => a * 2 ^ 16 + v) 0 * 2 ^ (16 * skipped) +
        2 ^ (16 * skipped) := by ring
    omega
  have hfo := foldl_mul_add_lt (2 ^ 16) (by norm_num) (fun v => v) loVals _
    (hiVals.length + skipped) hinit lob
  have hfo2 : loVals.foldl (fun a v => a * 2 ^ 16 + v)
      (hiVals.foldl (fun a v => a * 2 ^ 16 + v) 0 * 2 ^ (16 * skipped)) <
      (2 ^ 16) ^ (hiVals.length + skipped + loVals.length) := by
    simpa using hfo
  have hmono : ((2:Nat) ^ 16) ^ (hiVals.length + skipped + loVals.length) ≤ (2 ^ 16) ^ 8 :=
    Nat.pow_le_pow_right (by norm_num) (by omega)
  have hfin : ((2:Nat) ^ 16) ^ 8 = 2 ^ 128 := by norm_num
  omega






theorem v6guard_lt (parts : List (List Char)) (v : Nat) (hi lo : Nat)
    (h : (if 8 ≤ hi + lo then none
          else
            (List.mapM parseHextet (List.take hi parts)).bind fun hiVals =>
              (List.mapM parseHextet (List.drop (parts.length - lo) parts)).bind fun loVals =>
                some (List.foldl (fun a v => a * 2 ^ 16 + v)
                  (List.foldl (fun a v => a * 2 ^ 16 + v) 0 hiVals * 2 ^ (16 * (8 - (hi + lo))))
                  loVals)) = some v) :
    v < 2 ^ 128 := by
  by_cases hs : 8 ≤ hi + lo
  · rw [if_pos hs] at h
    exact Option.noConfusion h
  · rw [if_neg hs] at h
    simp only [Option.bind_eq_some, Option.some.injEq] at h
    obtain ⟨hiVals, hhi, loVals, hlo, hv⟩ := h
    subst hv
    exact v6fold_bound parts hi lo (8 - (hi + lo)) (by omega) hiVals loVals hhi hlo

theorem v6tail_lt (parts : List (List Char)) (v : Nat)
    (h : (if parts.length > 9 then none
          else
            match interiorEmpties parts with
            | [] =>
              if parts.length ≠ 8 then none
              else
                if parts.headD [] = [] then none
                else
                  if parts.getLastD [] = [] then none
                  else
                    (List.mapM parseHextet (List.take parts.length parts)).bind fun hiVals =>
                      (List.mapM parseHextet (List.drop (parts.length - 0) parts)).bind fun loVals =>
                        some (List.foldl (fun a v => a * 2 ^ 16 + v)
                          (List.foldl (fun a v => a * 2 ^ 16 + v) 0 hiVals * 2 ^ (16 * 0)) loVals)
            | [i] =>
              if parts.headD [] = [] then
                (if i = 1 then some 0 else none).bind fun hi =>
                  if parts.getLastD [] = [] then
                    (if parts.length - i - 1 = 1 then some 0 else none).bind fun lo =>
                      if 8 ≤ hi + lo then none
                      else
                        (List.mapM parseHextet (List.take hi parts)).bind fun hiVals =>
                          (List.mapM parseHextet (List.drop (parts.length - lo) parts)).bind
                            fun loVals =>
                            some (List.foldl (fun a v => a * 2 ^ 16 + v)
                              (List.foldl (fun a v => a * 2 ^ 16 + v) 0 hiVals *
                                2 ^ (16 * (8 - (hi + lo)))) loVals)
                  else
                    if 8 ≤ hi + (parts.length - i - 1) then none
                    else
                      (List.mapM parseHextet (List.take hi parts)).bind fun hiVals =>
                        (List.mapM parseHextet
                            (List.drop (parts.length - (parts.length - i - 1)) parts)).bind
                          fun loVals =>
                          some (List.foldl (fun a v => a * 2 ^ 16 + v)
                            (List.foldl (fun a v => a * 2 ^ 16 + v) 0 hiVals *
                              2 ^ (16 * (8 - (hi + (parts.length - i - 1))))) loVals)
              else
                if parts.getLastD [] = [] then
                  (if parts.length - i - 1 = 1 then some 0 else none).bind fun lo =>
                    if 8 ≤ i + lo then none
                    else
                      (List.mapM parseHextet (List.take i parts)).bind fun hiVals =>
                        (List.mapM parseHextet (List.drop (parts.length - lo) parts)).bind
                          fun loVals =>
                          some (List.foldl (fun a v => a * 2 ^ 16 + v)
                            (List.foldl (fun a v => a * 2 ^ 16 + v) 0 hiVals *
                              2 ^ (16 * (8 - (i + lo)))) loVals)
                else
                  if 8 ≤ i + (parts.length - i - 1) then none
                  else
                    (List.mapM parseHextet (List.take i parts)).bind fun hiVals =>
                      (List.mapM parseHextet
                          (List.drop (parts.length - (parts.length - i - 1)) parts)).bind
                        fun loVals =>
                        some (List.foldl (fun a v => a * 2 ^ 16 + v)
                          (List.foldl (fun a v => a * 2 ^ 16 + v) 0 hiVals *
                            2 ^ (16 * (8 - (i + (parts.length - i - 1))))) loVals)
            | _ => none) = some v) :
    v < 2 ^ 128 := by
  by_cases h9 : parts.length > 9
  · rw [if_pos h9] at h
    exact Option.noConfusion h
  · rw [if_neg h9] at h
    cases hIE : interiorEmpties parts with
    | nil =>
      simp only [hIE] at h
      by_cases h8 : parts.length = 8
      · rw [if_neg (show ¬(parts.length ≠ 8) from fun hc => hc h8)] at h
        by_cases hh : parts.headD [] = []
        · rw [if_pos hh] at h
          exact Option.noConfusion h
        · rw [if_neg hh] at h
          by_cases hg : parts.getLastD [] = []
          · rw [if_pos hg] at h
            exact Option.noConfusion h
          · rw [if_neg hg] at h
            simp only [Option.bind_eq_some, Option.some.injEq] at h
            obtain ⟨hiVals, hhi, loVals, hlo, hv⟩ := h
            subst hv
            exact v6fold_bound parts parts.length 0 0 (by omega) hiVals loVals hhi hlo
      · rw [if_pos h8] at h
        exact Option.noConfusion h
    | cons i tl =>
      cases tl with
      | nil =>
        simp only [hIE] at h
        by_cases hh : parts.headD [] = []
        · rw [if_pos hh] at h
          by_cases hi1 : i = 1
          · rw [if_pos hi1, Option.some_bind] at h
            by_cases hg : parts.getLastD [] = []
            · rw [if_pos hg] at h
              by_cases hlo1 : parts.length - i - 1 = 1
              · rw [if_pos hlo1, Option.some_bind] at h
                exact v6guard_lt parts v 0 0 h
              · rw [if_neg hlo1, Option.none_bind] at h
                exact Option.noConfusion h
            · rw [if_neg hg] at h
              exact v6guard_lt parts v 0 (parts.length - i - 1) h
          · rw [if_neg hi1, Option.none_bind] at h
            exact Option.noConfusion h
        · rw [if_neg hh] at h
          by_cases hg : parts.getLastD [] = []
          · rw [if_pos hg] at h
            by_cases hlo1 : parts.length - i - 1 = 1
            · rw [if_pos hlo1, Option.some_bind] at h
              exact v6guard_lt parts v i 0 h
            · rw [if_neg hlo1, Option.none_bind] at h
              exact Option.noConfusion h
          · rw [if_neg hg] at h
            exact v6guard_lt parts v i (parts.length - i - 1) h
      | cons j tl2 =>
        simp only [hIE] at h
        exact Option.noConfusion h

set_option maxHeartbeats 2000000 in
theorem parseV6Addr_lt (l : List Char) (v : Nat) (h : parseV6Addr l = some v) : v < 2 ^ 128 := by
  unfold parseV6Addr at h
  by_cases hl : l = []
  · simp only [option_failure_eq, Option.bind_eq_bind, Option.none_bind, if_pos hl] at h
    exact Option.noConfusion h
  · simp only [option_failure_eq, Option.bind_eq_bind, Option.none_bind, Option.some_bind,
      Option.pure_def, if_neg hl] at h
    by_cases h3 : (splitCh ':' l).length < 3
    · rw [if_pos h3] at h
      exact Option.noConfusion h
    · rw [if_neg h3] at h
      cases hLast : (splitCh ':' l).getLast? with
      | none =>
        simp only [hLast] at h
        exact Option.noConfusion h
      | some last =>
        simp only [hLast] at h
        by_cases hdot : last.contains '.' = true
        · rw [if_pos hdot, Option.bind_eq_some] at h
          obtain ⟨v4, hv4, h⟩ := h
          exact v6tail_lt _ v h
        · rw [if_neg hdot] at h
          exact v6tail_lt _ v h
theorem parseMaskLen_le (w : Nat) (l : List Char) (v : Nat)
    (h : parseMaskLen w l = some v) : v ≤ w := by
  unfold parseMaskLen at h
  split at h
  · rename_i hcond
    injection h with h2
    simp only [Bool.and_eq_true, decide_eq_true_eq] at hcond
    omega
  · exact Option.noConfusion h

theorem aligned_bound (s M v : Nat) (hdvd : s ∣ M) (hv : v < M)
    (hal : v % s = 0) : v + s ≤ M := by
  obtain ⟨k, hk⟩ := hdvd
  obtain ⟨c, hc⟩ := Nat.dvd_of_mod_eq_zero hal
  subst hk hc
  have hck : c < k := by
    by_contra hge
    push_neg at hge
    exact absurd (Nat.mul_le_mul_left s hge) (by omega)
  have hle : c + 1 ≤ k := hck
  have h2 := Nat.mul_le_mul_left s hle
  have hx : s * (c + 1) = s * c + s := by ring
  omega

theorem parseV6_valid (str : String) (n : Net) (h : parseV6 str = some n) :
    netValid 128 n := by
  unfold parseV6 at h
  dsimp only at h
  split at h
  · simp only [Option.pure_def, Option.bind_eq_bind, Option.bind_eq_some,
      Option.some.injEq] at h
    obtain ⟨v, hv, hn⟩ := h
    subst hn
    have hb := parseV6Addr_lt _ v hv
    refine ⟨le_rfl, ?_, ?_⟩
    · show v + 2 ^ (128 - 128) ≤ 2 ^ 128
      omega
    · show v % 2 ^ (128 - 128) = 0
      omega
  · simp only [Option.pure_def, Option.bind_eq_bind, Option.bind_eq_some,
      Option.some.injEq] at h
    obtain ⟨v, hv, len, hlen, hif⟩ := h
    split at hif
    · rename_i hal
      injection hif with h2
      subst h2
      have hb := parseV6Addr_lt _ v hv
      have hl := parseMaskLen_le 128 _ len hlen
      refine ⟨hl, ?_, hal⟩
      exact aligned_bound (2 ^ (128 - len)) (2 ^ 128) v
        (Nat.pow_dvd_pow 2 (by omega)) hb hal
    · exact Option.noConfusion hif
  · exact Option.noConfusion h

theorem parseOctet_le (l : List Char) (v : Nat) (h : parseOctet l = some v) : v ≤ 255 := by
  unfold parseOctet at h
  split at h
  · exact Option.noConfusion h
  · split at h
    · rename_i c cs hcond
      injection h with h2
      simp only [Bool.and_eq_true, decide_eq_true_eq] at hcond
      omega
    · exact Option.noConfusion h

theorem parseV4Addr_lt (l : List Char) (v : Nat) (h : parseV4Addr l = some v) : v < 2 ^ 32 := by
  unfold parseV4Addr at h
  split at h
  · rename_i a b c d
    simp only [Option.pure_def, Option.bind_eq_bind, Option.bind_eq_some,
      Option.some.injEq] at h
    obtain ⟨va, hva, vb, hvb, vc, hvc, vd, hvd, hv⟩ := h
    have b1 := parseOctet_le _ va hva
    have b2 := parseOctet_le _ vb hvb
    have b3 := parseOctet_le _ vc hvc
    have b4 := parseOctet_le _ vd hvd
    omega
  · exact Option.noConfusion h

theorem maskLenOfInt_le (w v n : Nat) (h : maskLenOfInt w v = some n) : n ≤ w := by
  unfold maskLenOfInt at h
  dsimp only at h
  split at h
  · injection h with h2
    omega
  · exact Option.noConfusion h

theorem parseV4Mask_le (l : List Char) (n : Nat) (h : parseV4Mask l = some n) : n ≤ 32 := by
  unfold parseV4Mask at h
  split at h
  · rename_i m hm
    injection h with h2
    subst h2
    exact parseMaskLen_le 32 _ m hm
  · split at h
    · exact Option.noConfusion h
    · rename_i v hv
      split at h
      · rename_i m hm
        injection h with h2
        subst h2
        exact maskLenOfInt_le 32 _ m hm
      · exact maskLenOfInt_le 32 _ n h

theorem parseV4_valid (str : String) (n : Net) (h : parseV4 str = some n) :
    netValid 32 n := by
  unfold parseV4 at h
  dsimp only at h
  split at h
  · rename_i a
    simp only [Option.pure_def, Option.bind_eq_bind, Option.bind_eq_some,
      Option.some.injEq] at h
    obtain ⟨v, hv, hn⟩ := h
    subst hn
    have hb := parseV4Addr_lt _ v hv
    refine ⟨le_rfl, ?_, ?_⟩
    · show v + 2 ^ (32 - 32) ≤ 2 ^ 32
      omega
    · show v % 2 ^ (32 - 32) = 0
      omega
  · rename_i a m
    simp only [Option.pure_def, Option.bind_eq_bind, Option.bind_eq_some,
      Option.some.injEq] at h
    obtain ⟨v, hv, len, hlen, hif⟩ := h
    split at hif
    · rename_i hal
      injection hif with h2
      subst h2
      have hb := parseV4Addr_lt _ v hv
      have hl := parseV4Mask_le _ len hlen
      refine ⟨hl, ?_, hal⟩
      exact aligned_bound (2 ^ (32 - len)) (2 ^ 32) v
        (Nat.pow_dvd_pow 2 (by omega)) hb hal
    · exact Option.noConfusion hif
  · exact Option.noConfusion h

/-! ### The finish phase: sort and deduplicate (C5) -/

theorem netLe_trans (a b c : Net) (h1 : netLe a b) (h2 : netLe b c) : netLe a c := by
  unfold netLe at h1 h2 ⊢
  omega

theorem netMem_len_w (w : Nat) (n : Net) (hn : n.len = w) (x : Nat) :
    netMem w n x ↔ x = n.addr := by
  unfold netMem netSize
  rw [hn]
  simp only [Nat.sub_self, pow_zero]
  omega

theorem kept_rel (w : Nat) (a b : Net) (ha : netValid w a) (hb : netValid w b)
    (hle : netLe a b) (hlast : netLast w a < netLast w b) :
    a.addr < b.addr ∧ disjointNets w a b := by
  have hsa := netSize_pos w a
  have hsb := netSize_pos w b
  have hd : disjointNets w a b := by
    intro x hx
    obtain ⟨hxa, hxb⟩ := hx
    unfold netLast at hlast
    rcases Nat.le_total a.len b.len with hl | hl
    · obtain ⟨h1, h2⟩ := aligned_nest w a b ha hb hl x hxa hxb
      omega
    · obtain ⟨h1, h2⟩ := aligned_nest w b a hb ha hl x hxb hxa
      unfold netLe at hle
      rcases hle with hlt | ⟨heq, hlen⟩
      · omega
      · have hll : a.len = b.len := le_antisymm hlen hl
        have hseq : netSize w a = netSize w b := by unfold netSize; rw [hll]
        omega
  refine ⟨?_, hd⟩
  unfold netLe at hle
  rcases hle with hlt | ⟨heq, hlen⟩
  · exact hlt
  · exact absurd ⟨mem_self_addr w a, by rw [heq]; exact mem_self_addr w b⟩ (hd a.addr)

theorem dedupSorted_props (w : Nat) : ∀ (l : List Net) (o : Option Net),
    l.Sorted netLe → (∀ n ∈ l, netValid w n) →
    (∀ last, o = some last → netValid w last ∧ ∀ n ∈ l, netLe last n) →
    (dedupSorted w l o).Sublist l ∧
    (∀ last, o = some last → ∀ m ∈ dedupSorted w l o,
        netLast w last < netLast w m ∧ netLe last m) ∧
    (dedupSorted w l o).Pairwise (fun a b => a.addr < b.addr ∧ disjointNets w a b) ∧
    (∀ x, inUnion w l x → inUnion w (dedupSorted w l o) x ∨
        ∃ last, o = some last ∧ netMem w last x) := by
  intro l
  induction l with
  | nil =>
    intro o _ _ _
    rw [dedupSorted]
    refine ⟨List.nil_sublist _, ?_, List.Pairwise.nil, ?_⟩
    · intro last _ m hm
      simp at hm
    · intro x hx
      exact absurd hx (inUnion_nil w x)
  | cons n rest ih =>
    intro o hsort hval hlast
    rw [List.sorted_cons] at hsort
    obtain ⟨hhead, hsrest⟩ := hsort
    have hnv : netValid w n := hval n (by simp)
    have hvrest : ∀ m ∈ rest, netValid w m := fun m hm => hval m (List.mem_cons_of_mem _ hm)
    cases o with
    | none =>
      rw [dedupSorted]
      obtain ⟨ih1, ih2, ih3, ih4⟩ := ih (some n) hsrest hvrest
        (by
          intro l2 hl2
          injection hl2 with hl3
          subst hl3
          exact ⟨hnv, hhead⟩)
      refine ⟨List.Sublist.cons₂ n ih1, ?_, ?_, ?_⟩
      · intro l2 hl2
        exact Option.noConfusion hl2
      · rw [List.pairwise_cons]
        refine ⟨?_, ih3⟩
        intro m hm
        obtain ⟨hml, hmle⟩ := ih2 n rfl m hm
        exact kept_rel w n m hnv (hvrest m (List.Sublist.mem hm ih1)) hmle hml
      · intro x hx
        rw [inUnion_cons] at hx
        rcases hx with hx | hx
        · exact Or.inl (mem_inUnion w n _ x (by simp) hx)
        · rcases ih4 x hx with hu | ⟨l2, hl2, hmem⟩
          · left
            rw [inUnion_cons]
            exact Or.inr hu
          · injection hl2 with hl3
            subst hl3
            left
            exact mem_inUnion w n _ x (by simp) hmem
    | some last =>
      obtain ⟨hlv, hlle⟩ := hlast last rfl
      rw [dedupSorted]
      by_cases hc : netLast w n ≤ netLast w last
      · rw [if_pos hc]
        obtain ⟨ih1, ih2, ih3, ih4⟩ := ih (some last) hsrest hvrest
          (by
            intro l2 hl2
            injection hl2 with hl3
            subst hl3
            exact ⟨hlv, fun m hm => hlle m (List.mem_cons_of_mem _ hm)⟩)
        refine ⟨List.Sublist.cons n ih1, ?_, ih3, ?_⟩
        · intro l2 hl2 m hm
          injection hl2 with hl3
          subst hl3
          exact ih2 last rfl m hm
        · intro x hx
          rw [inUnion_cons] at hx
          rcases hx with hx | hx
          · right
            refine ⟨last, rfl, ?_⟩
            have hln := hlle n (by simp)
            unfold netMem at hx ⊢
            unfold netLast at hc
            unfold netLe at hln
            have hp1 := netSize_pos w last
            have hp2 := netSize_pos w n
            omega
          · rcases ih4 x hx with hu | ⟨l2, hl2, hmem⟩
            · exact Or.inl hu
            · injection hl2 with hl3
              subst hl3
              exact Or.inr ⟨last, rfl, hmem⟩
      · rw [if_neg hc]
        push_neg at hc
        obtain ⟨ih1, ih2, ih3, ih4⟩ := ih (some n) hsrest hvrest
          (by
            intro l2 hl2
            injection hl2 with hl3
            subst hl3
            exact ⟨hnv, hhead⟩)
        refine ⟨List.Sublist.cons₂ n ih1, ?_, ?_, ?_⟩
        · intro l2 hl2 m hm
          injection hl2 with hl3
          subst hl3
          rw [List.mem_cons] at hm
          rcases hm with rfl | hm
          · exact ⟨hc, hlle m (by simp)⟩
          · obtain ⟨h1, h2⟩ := ih2 n rfl m hm
            exact ⟨lt_trans hc h1, netLe_trans last n m (hlle n (by simp)) h2⟩
        · rw [List.pairwise_cons]
          refine ⟨?_, ih3⟩
          intro m hm
          obtain ⟨hml, hmle⟩ := ih2 n rfl m hm
          exact kept_rel w n m hnv (hvrest m (List.Sublist.mem hm ih1)) hmle hml
        · intro x hx
          rw [inUnion_cons] at hx
          rcases hx with hx | hx
          · exact Or.inl (mem_inUnion w n _ x (by simp) hx)
          · rcases ih4 x hx with hu | ⟨l2, hl2, hmem⟩
            · left
              rw [inUnion_cons]
              exact Or.inr hu
            · injection hl2 with hl3
              subst hl3
              left
              exact mem_inUnion w n _ x (by simp) hmem

theorem values_supernet_pairwise (w : Nat) (d : List (Net × Net))
    (hlink : ∀ e ∈ d, e.1 = supernet w e.2)
    (hnd : (d.map (fun e => e.1)).Nodup) :
    (d.map (fun e => e.2)).Pairwise (fun a b => supernet w a ≠ supernet w b) := by
  induction d with
  | nil => simp
  | cons e es ih =>
    rw [List.map_cons, List.nodup_cons] at hnd
    obtain ⟨h1, h2⟩ := hnd
    rw [List.map_cons, List.pairwise_cons]
    constructor
    · intro b hb heq
      obtain ⟨f, hf, hfb⟩ := List.mem_map.mp hb
      apply h1
      refine List.mem_map.mpr ⟨f, hf, ?_⟩
      have hlf := hlink f (List.mem_cons_of_mem _ hf)
      have hle := hlink e (by simp)
      rw [hlf, hfb, ← heq, ← hle]
    · exact ih (fun f hf => hlink f (List.mem_cons_of_mem _ hf)) h2

theorem collapseFinish_props (w : Nat) (d : List (Net × Net))
    (hd : ∀ e ∈ d, netValid w e.2 ∧ e.1 = supernet w e.2)
    (hnd : (d.map (fun e => e.1)).Nodup) :
    (∀ n ∈ collapseFinish w d, netValid w n) ∧
    collapsedShape w (collapseFinish w d) ∧
    (∀ x, inUnion w (collapseFinish w d) x ↔ inUnion w (d.map (fun e => e.2)) x) := by
  unfold collapseFinish
  have hperm := List.perm_insertionSort netLe (d.map (fun e => e.2))
  have hsorted := List.sorted_insertionSort netLe (d.map (fun e => e.2))
  have hvs : ∀ m ∈ List.insertionSort netLe (d.map (fun e => e.2)), netValid w m := by
    intro m hm
    obtain ⟨e, he, hev⟩ := List.mem_map.mp (hperm.mem_iff.mp hm)
    rw [← hev]
    exact (hd e he).1
  obtain ⟨d1, d2, d3, d4⟩ := dedupSorted_props w
    (List.insertionSort netLe (d.map (fun e => e.2))) none hsorted hvs
    (by intro last hl; exact Option.noConfusion hl)
  refine ⟨?_, ?_, ?_⟩
  · intro m hm
    exact hvs m (List.Sublist.mem hm d1)
  · have hsup := values_supernet_pairwise w d (fun e he => (hd e he).2) hnd
    have hsup2 : (List.insertionSort netLe (d.map (fun e => e.2))).Pairwise
        (fun a b => supernet w a ≠ supernet w b) :=
      (List.Perm.pairwise_iff (fun hxy => Ne.symm hxy) hperm).mpr hsup
    have hsup3 := List.Pairwise.sublist d1 hsup2
    have hand := List.Pairwise.and d3 hsup3
    unfold collapsedShape
    refine List.Pairwise.imp_of_mem ?_ hand
    intro a b ha hb hr
    obtain ⟨⟨haddr, hdis⟩, hne⟩ := hr
    exact ⟨haddr, hdis, not_mergeable w a b (hvs a (List.Sublist.mem ha d1))
      (hvs b (List.Sublist.mem hb d1)) hdis hne⟩
  · intro x
    constructor
    · rintro ⟨m, hm, hmx⟩
      exact (inUnion_perm w _ _ hperm x).mp ⟨m, List.Sublist.mem hm d1, hmx⟩
    · intro hx
      rcases d4 x ((inUnion_perm w _ _ hperm x).mpr hx) with hu | ⟨last, hl, _⟩
      · exact hu
      · exact Option.noConfusion hl

theorem inUnion_split_len (w : Nat) (l : List Net) (x : Nat) :
    inUnion w l x ↔ inUnion w (l.filter (fun n => n.len = w)) x ∨
      inUnion w (l.filter (fun n => n.len ≠ w)) x := by
  unfold inUnion
  constructor
  · rintro ⟨n, hn, hx⟩
    by_cases h : n.len = w
    · exact Or.inl ⟨n, List.mem_filter.mpr ⟨hn, by simp [h]⟩, hx⟩
    · exact Or.inr ⟨n, List.mem_filter.mpr ⟨hn, by simp [h]⟩, hx⟩
  · rintro (⟨n, hn, hx⟩ | ⟨n, hn, hx⟩) <;> exact ⟨n, (List.mem_filter.mp hn).1, hx⟩

theorem collapse_correct (w : Nat) (input : List Net)
    (hv : ∀ n ∈ input, netValid w n) :
    (∀ n ∈ collapseNets w input, netValid w n) ∧
    collapsedShape w (collapseNets w input) ∧
    (∀ x, inUnion w (collapseNets w input) x ↔ inUnion w input x) := by
  unfold collapseNets
  dsimp only
  have hips_sorted := sortedSet_sorted ((input.filter (fun n => n.len = w)).map (·.addr))
  have haddr_lt : ∀ y ∈ (input.filter (fun n => n.len = w)).map (·.addr), y < 2 ^ w := by
    intro y hy
    obtain ⟨m, hm, hmy⟩ := List.mem_map.mp hy
    rw [List.mem_filter] at hm
    obtain ⟨hmi, hml⟩ := hm
    obtain ⟨_, hb, _⟩ := hv m hmi
    have hml2 : m.len = w := of_decide_eq_true hml
    have hsz : netSize w m = 1 := by unfold netSize; rw [hml2]; simp
    rw [← hmy]
    omega
  have hblocks_valid : ∀ n ∈
      (((findRuns (sortedSet ((input.filter (fun n => n.len = w)).map (·.addr)))).map
        (fun r => sar w r.1 r.2)).flatten), netValid w n := by
    intro n hn
    rw [List.mem_flatten] at hn
    obtain ⟨bl, hbl, hnbl⟩ := hn
    obtain ⟨r, hr, hrbl⟩ := List.mem_map.mp hbl
    subst hrbl
    refine sar_valid w r.1 r.2 ?_ n hnbl
    have hmem := findRuns_snd_mem _ hips_sorted r hr
    rw [sortedSet_mem] at hmem
    exact haddr_lt r.2 hmem
  have hblocks_union : ∀ x, inUnion w
      (((findRuns (sortedSet ((input.filter (fun n => n.len = w)).map (·.addr)))).map
        (fun r => sar w r.1 r.2)).flatten) x ↔
      x ∈ (input.filter (fun n => n.len = w)).map (·.addr) := by
    intro x
    constructor
    · rintro ⟨n, hn, hnx⟩
      rw [List.mem_flatten] at hn
      obtain ⟨bl, hbl, hnbl⟩ := hn
      obtain ⟨r, hr, hrbl⟩ := List.mem_map.mp hbl
      subst hrbl
      have hx := (sar_union w r.1 r.2 x).mp ⟨n, hnbl, hnx⟩
      have hmem := (findRuns_mem _ hips_sorted x).mp ⟨r, hr, hx.1, hx.2⟩
      rw [sortedSet_mem] at hmem
      exact hmem
    · intro hx
      have hx2 : x ∈ sortedSet ((input.filter (fun n => n.len = w)).map (·.addr)) := by
        rw [sortedSet_mem]
        exact hx
      obtain ⟨r, hr, h1, h2⟩ := (findRuns_mem _ hips_sorted x).mpr hx2
      obtain ⟨n, hn, hnx⟩ := (sar_union w r.1 r.2 x).mpr ⟨h1, h2⟩
      exact ⟨n, List.mem_flatten.mpr ⟨sar w r.1 r.2, List.mem_map.mpr ⟨r, hr, rfl⟩, hn⟩, hnx⟩
  have hflt_union : ∀ x, inUnion w (input.filter (fun n => n.len = w)) x ↔
      x ∈ (input.filter (fun n => n.len = w)).map (·.addr) := by
    intro x
    constructor
    · rintro ⟨n, hn, hnx⟩
      have hl : n.len = w := of_decide_eq_true (List.mem_filter.mp hn).2
      rw [netMem_len_w w n hl] at hnx
      subst hnx
      exact List.mem_map.mpr ⟨n, hn, rfl⟩
    · intro hx
      obtain ⟨n, hn, hnx⟩ := List.mem_map.mp hx
      exact ⟨n, hn, (netMem_len_w w n (of_decide_eq_true (List.mem_filter.mp hn).2) x).mpr
        hnx.symm⟩
  have hrev_valid : ∀ n ∈
      ((((findRuns (sortedSet ((input.filter (fun n => n.len = w)).map (·.addr)))).map
        (fun r => sar w r.1 r.2)).flatten ++ input.filter (fun n => n.len ≠ w)).reverse),
      netValid w n := by
    intro n hn
    rw [List.mem_reverse, List.mem_append] at hn
    rcases hn with hn | hn
    · exact hblocks_valid n hn
    · exact hv n (List.mem_filter.mp hn).1
  obtain ⟨p1, p2, p3⟩ := collapseLoop_props w _ [] hrev_valid
    (by intro e he; simp at he) (by simp)
  obtain ⟨f1, f2, f3⟩ := collapseFinish_props w _ p1 p2
  refine ⟨f1, f2, fun x => ?_⟩
  rw [f3 x, p3 x, inUnion_reverse, inUnion_append, inUnion_split_len w input x]
  have hnil : ¬ inUnion w (List.map (fun e => e.2) ([] : List (Net × Net))) x := by
    intro hc
    exact inUnion_nil w x hc
  have hb := hblocks_union x
  have hf := hflt_union x
  constructor
  · rintro ((hx | hx) | hx)
    · exact Or.inl (hf.mpr (hb.mp hx))
    · exact Or.inr hx
    · exact absurd hx hnil
  · rintro (hx | hx)
    · exact Or.inl (Or.inl (hb.mpr (hf.mp hx)))
    · exact Or.inl (Or.inr hx)

theorem mapM_parse_valid (w : Nat) (f : String → Option Net)
    (hf : ∀ s n, f s = some n → netValid w n) :
    ∀ (l : List String) (res : List Net), l.mapM f = some res →
      ∀ n ∈ res, netValid w n := by
  intro l
  induction l with
  | nil =>
    intro res h
    simp only [List.mapM_nil, Option.pure_def, Option.some.injEq] at h
    subst h
    simp
  | cons s ss ih =>
    intro res h
    rw [List.mapM_cons] at h
    cases hs : f s with
    | none => rw [hs] at h; simp at h
    | some m =>
      rw [hs] at h
      cases hss : ss.mapM f with
      | none => rw [hss] at h; simp at h
      | some ms =>
        rw [hss] at h
        simp only [Option.pure_def, Option.bind_eq_bind, Option.some_bind,
          Option.some.injEq] at h
        subst h
        intro n hn
        rw [List.mem_cons] at hn
        rcases hn with rfl | hn
        · exact hf s n hs
        · exact ih ms hss n hn

/-- C5: for every same-family CIDR list whose entries all parse,
summarized() renders the collapsed networks in canonical form
(with_prefixlen for v4, fully exploded for v6); the collapsed networks
are in strictly ascending base-address order, pairwise disjoint and
pairwise non-mergeable, they are well-formed, and their union of
addresses equals the union of the input networks; and a single-entry
IPv4 list is returned unchanged without invoking the merge step. -/
theorem c5_summarize (ipList4 : List String) (nets4 : List Net)
    (h4 : ipList4.mapM parseV4 = some nets4) (hlen4 : ipList4.length ≠ 1)
    (ipList6 : List String) (nets6 : List Net)
    (h6 : ipList6.mapM parseV6 = some nets6)
    (single : List String) (hs : single.length = 1) :
    summarizedV4 ipList4 = some ((collapseNets 32 nets4).map renderV4) ∧
    collapsedShape 32 (collapseNets 32 nets4) ∧
    (∀ n ∈ collapseNets 32 nets4, netValid 32 n) ∧
    (∀ x, inUnion 32 (collapseNets 32 nets4) x ↔ inUnion 32 nets4 x) ∧
    summarizedV6 ipList6 = some ((collapseNets 128 nets6).map renderV6Full) ∧
    collapsedShape 128 (collapseNets 128 nets6) ∧
    (∀ n ∈ collapseNets 128 nets6, netValid 128 n) ∧
    (∀ x, inUnion 128 (collapseNets 128 nets6) x ↔ inUnion 128 nets6 x) ∧
    summarizedV4 single = some single := by
  have hv4 : ∀ n ∈ nets4, netValid 32 n :=
    mapM_parse_valid 32 parseV4 (fun s n hsn => parseV4_valid s n hsn) ipList4 nets4 h4
  have hv6 : ∀ n ∈ nets6, netValid 128 n :=
    mapM_parse_valid 128 parseV6 (fun s n hsn => parseV6_valid s n hsn) ipList6 nets6 h6
  obtain ⟨a1, a2, a3⟩ := collapse_correct 32 nets4 hv4
  obtain ⟨b1, b2, b3⟩ := collapse_correct 128 nets6 hv6
  refine ⟨?_, a2, a1, a3, ?_, b2, b1, b3, ?_⟩
  · unfold summarizedV4
    rw [if_neg hlen4, h4]
    rfl
  · unfold summarizedV6
    rw [h6]
    rfl
  · unfold summarizedV4
    rw [if_pos hs]

theorem c5_summarize_witness :
    ((["10.0.0.0/24", "10.0.1.0/24"].mapM parseV4 =
        some [⟨167772160, 24⟩, ⟨167772416, 24⟩] ∧
      (["10.0.0.0/24", "10.0.1.0/24"] : List String).length ≠ 1) ∧
     ["::1/128"].mapM parseV6 = some [⟨1, 128⟩] ∧
     (["8.8.8.8"] : List String).length = 1) ∧
    (summarizedV4 ["10.0.0.0/24", "10.0.1.0/24"] =
        some ((collapseNets 32 [⟨167772160, 24⟩, ⟨167772416, 24⟩]).map renderV4) ∧
     collapsedShape 32 (collapseNets 32 [⟨167772160, 24⟩, ⟨167772416, 24⟩]) ∧
     (∀ n ∈ collapseNets 32 [⟨167772160, 24⟩, ⟨167772416, 24⟩], netValid 32 n) ∧
     (∀ x, inUnion 32 (collapseNets 32 [⟨167772160, 24⟩, ⟨167772416, 24⟩]) x ↔
        inUnion 32 [⟨167772160, 24⟩, ⟨167772416, 24⟩] x) ∧
     summarizedV6 ["::1/128"] = some ((collapseNets 128 [⟨1, 128⟩]).map renderV6Full) ∧
     collapsedShape 128 (collapseNets 128 [⟨1, 128⟩]) ∧
     (∀ n ∈ collapseNets 128 [⟨1, 128⟩], netValid 128 n) ∧
     (∀ x, inUnion 128 (collapseNets 128 [⟨1, 128⟩]) x ↔ inUnion 128 [⟨1, 128⟩] x) ∧
     summarizedV4 ["8.8.8.8"] = some ["8.8.8.8"]) :=
  ⟨⟨⟨rfl, by decide⟩, rfl, by decide⟩,
    c5_summarize ["10.0.0.0/24", "10.0.1.0/24"] [⟨167772160, 24⟩, ⟨167772416, 24⟩] rfl
      (by decide) ["::1/128"] [⟨1, 128⟩] rfl ["8.8.8.8"] (by decide)⟩

end UAIR
